import Mathlib

/-!
# ezgit: bare conversion and worktree orchestration

A shallow embedding of `internal/git/bare.go` of ezgit and of the branch and
feature-name resolution of `cmd`.  Go strings are lists of characters, Go
`error` values are trees of wrapped messages, the file system touched by
`ConvertToBare` is a directory tree, and the external `git` process is a state
machine supplied by the caller of the model.

The later sections embed the parsing of repository addresses
(`ParseRepoURL`, `ParseRepoIdentifier`, `extractRepoFullName`), the tmux
session list, the selected worktrees of `convert`, the merge of the repository
cache, the paged fetch of the GitHub client (an HTTP server is a function from
URLs to responses, and the unbounded loops take fuel) and `ListWorktrees`.
-/

set_option autoImplicit false

namespace Ezgit

/-! ## Strings -/

/-- Go strings, as lists of characters. -/
abbrev Str := List Char

/-- The predicate `unicode.IsSpace`, which `strings.TrimSpace` trims by. -/
def isSpace (c : Char) : Bool :=
  c = ' ' || c = '\t' || c = '\n' || c = '\r' || c.toNat = 0x0B || c.toNat = 0x0C ||
  c.toNat = 0x85 || c.toNat = 0xA0 || c.toNat = 0x1680 ||
  (decide (0x2000 ≤ c.toNat) && decide (c.toNat ≤ 0x200A)) ||
  c.toNat = 0x2028 || c.toNat = 0x2029 || c.toNat = 0x202F || c.toNat = 0x205F ||
  c.toNat = 0x3000

/-- The function `strings.TrimSpace`. -/
def trimSpace (s : Str) : Str :=
  ((s.dropWhile isSpace).reverse.dropWhile isSpace).reverse

/-- The function `strings.HasPrefix`. -/
def hasPrefix (s p : Str) : Bool := p.isPrefixOf s

/-- The function `strings.TrimPrefix`. -/
def trimPrefix (s p : Str) : Str := if hasPrefix s p then s.drop p.length else s

/-- The function `strings.Contains`. -/
def containsStr (s sub : Str) : Bool := decide (sub <:+: s)

/-- Splitting at every occurrence of a separator character, as `strings.Split`
does for a one-byte separator: the result is never empty. -/
def splitOnSep (sep : Char) : Str → List Str
  | [] => [[]]
  | c :: cs =>
    if c = sep then [] :: splitOnSep sep cs
    else
      match splitOnSep sep cs with
      | [] => [[c]]
      | h :: t => (c :: h) :: t

/-- The lines of a command output: `strings.Split(s, "\n")`. -/
def splitLines (s : Str) : List Str := splitOnSep '\n' s

/-- Byte-wise string order `a <= b`, the order `sort.Strings` and `os.ReadDir` use. -/
def strLe : Str → Str → Bool
  | [], _ => true
  | _ :: _, [] => false
  | a :: as, b :: bs =>
    if a.toNat < b.toNat then true
    else if b.toNat < a.toNat then false
    else strLe as bs

/-! ## Errors -/

/-- Go `error` values: a plain message, or a `fmt.Errorf` message that wraps a
cause through the `%w` verb. -/
inductive GoError where
  | plain (msg : Str)
  | wrap (msg : Str) (cause : GoError)
  deriving DecidableEq, Repr

/-- The text returned by `Error()`. -/
def GoError.text : GoError → Str
  | .plain m => m
  | .wrap m _ => m

/-- The error returned by `errors.Unwrap`, if any. -/
def GoError.unwrap : GoError → Option GoError
  | .plain _ => none
  | .wrap _ c => some c

/-- The call `fmt.Errorf(pre + "%w", err)`. -/
def errorfW (pre : Str) (err : GoError) : GoError :=
  .wrap (pre ++ err.text) err

/-- The call `fmt.Errorf(pre + "%w\n%s", err, output)`. -/
def errorfWOut (pre : Str) (err : GoError) (output : Str) : GoError :=
  .wrap (pre ++ err.text ++ ['\n'] ++ output) err

/-! ## Lexical path functions of `path/filepath` (Unix) -/

/-- The path separator. -/
def sepStr : Str := ['/']

/-- The parent-directory element `..`. -/
def dotdot : Str := ['.', '.']

/-- The function `filepath.IsAbs`. -/
def isAbs (s : Str) : Bool := hasPrefix s sepStr

/-- A path element that names a directory entry: not empty, no separator in it,
and neither `.` nor `..`. -/
def validName (c : Str) : Bool :=
  !(c = [] || c = ['.'] || c = dotdot || c.contains '/')

/-- One step of `filepath.Clean` over the stack of elements kept so far (the
last kept element first): empty and `.` elements are dropped, `..` removes the
element before it, is dropped at the root of a rooted path and is kept at the
start of a relative one. -/
def cleanStep (rooted : Bool) (st : List Str) (c : Str) : List Str :=
  if c = [] ∨ c = ['.'] then st
  else if c = dotdot then
    match st with
    | [] => if rooted then [] else [c]
    | top :: rest => if top = dotdot then c :: st else rest
  else c :: st

/-- The elements that `filepath.Clean` keeps. -/
def cleanComponents (rooted : Bool) (cs : List Str) : List Str :=
  (cs.foldl (cleanStep rooted) []).reverse

/-- The function `filepath.Clean`. -/
def clean (s : Str) : Str :=
  let body := sepStr.intercalate (cleanComponents (isAbs s) (splitOnSep '/' s))
  if isAbs s then '/' :: body
  else if body = [] then ['.'] else body

/-- The function `filepath.Join`: the elements from the first non-empty one on
are joined by the separator and cleaned. -/
def join (elems : List Str) : Str :=
  match elems.dropWhile (fun e => decide (e = [])) with
  | [] => []
  | es => clean (sepStr.intercalate es)

/-- The function `filepath.Dir`: the path up to its last separator, cleaned. -/
def dir (s : Str) : Str :=
  clean (s.reverse.dropWhile (fun c => decide (c ≠ '/'))).reverse

/-- The function `filepath.Base`: the last element, trailing separators ignored. -/
def base (s : Str) : Str :=
  if s = [] then ['.']
  else
    let p := (s.reverse.dropWhile (fun c => decide (c = '/'))).reverse
    if p = [] then sepStr
    else (p.reverse.takeWhile (fun c => decide (c ≠ '/'))).reverse

/-! ## The file system -/

/-- A file-system object: a regular file with its content, or a directory with
its named entries. -/
inductive Node where
  | file (content : Str)
  | dir (entries : List (Str × Node))

/-- The entry of a directory with a given name. -/
def lookupEntry : List (Str × Node) → Str → Option Node
  | [], _ => none
  | (k, v) :: es, c => if k = c then some v else lookupEntry es c

/-- Create the entry with a given name, or replace it where it stands. -/
def setEntry : List (Str × Node) → Str → Node → List (Str × Node)
  | [], c, x => [(c, x)]
  | (k, v) :: es, c, x => if k = c then (c, x) :: es else (k, v) :: setEntry es c x

/-- Change the entry with a given name in place. -/
def updEntry : List (Str × Node) → Str → (Node → Node) → List (Str × Node)
  | [], _, _ => []
  | (k, v) :: es, c, f => if k = c then (k, f v) :: es else (k, v) :: updEntry es c f

/-- Remove the entry with a given name. -/
def delEntry : List (Str × Node) → Str → List (Str × Node)
  | [], _ => []
  | (k, v) :: es, c => if k = c then delEntry es c else (k, v) :: delEntry es c

/-- The error numbers the model distinguishes. -/
inductive Errno where
  | ENOENT
  | ENOTDIR
  | EEXIST
  | ENOTEMPTY
  | EINVAL
  deriving DecidableEq, Repr

/-- The message of an error number. -/
def Errno.text : Errno → Str
  | .ENOENT => "no such file or directory".toList
  | .ENOTDIR => "not a directory".toList
  | .EEXIST => "file exists".toList
  | .ENOTEMPTY => "directory not empty".toList
  | .EINVAL => "invalid argument".toList

/-- The `*PathError` that `os` functions return: `op path: errno`. -/
def pathError (op path : Str) (e : Errno) : GoError :=
  .plain (op ++ [' '] ++ path ++ ": ".toList ++ e.text)

/-- Path walk: the object at a list of elements below a node.  A missing
element is `ENOENT`; an element looked up inside a regular file is `ENOTDIR`. -/
def Node.stat : Node → List Str → Except Errno Node
  | n, [] => .ok n
  | .file _, _ :: _ => .error .ENOTDIR
  | .dir es, c :: cs =>
    match lookupEntry es c with
    | none => .error .ENOENT
    | some ch => ch.stat cs

/-- The object at a path, if the walk succeeds. -/
def Node.get (n : Node) (p : List Str) : Option Node :=
  match n.stat p with
  | .ok x => some x
  | .error _ => none

/-- Create or replace the object at a path whose parent is a directory. -/
def Node.put : Node → List Str → Node → Option Node
  | _, [], _ => none
  | .file _, _ :: _, _ => none
  | .dir es, [c], x => some (.dir (setEntry es c x))
  | .dir es, c :: d :: cs, x =>
    match lookupEntry es c with
    | none => none
    | some ch =>
      match ch.put (d :: cs) x with
      | none => none
      | some ch' => some (.dir (setEntry es c ch'))

/-- Remove the object at a path together with everything below it; nothing
happens when there is no such object. -/
def Node.del : Node → List Str → Node
  | n, [] => n
  | .file c, _ :: _ => .file c
  | .dir es, [c] => .dir (delEntry es c)
  | .dir es, c :: d :: cs => .dir (updEntry es c (fun ch => ch.del (d :: cs)))

/-- The state `ConvertToBare` acts on: the working directory of the process (an
absolute path), the file system below `/`, and the `git` command lines run so
far. -/
structure World where
  cwd : Str
  fs : Node
  calls : List (List Str)

/-- The elements of the absolute, lexically cleaned form of a path: how a path
string given to a system call or to `git` names an object. -/
def resolve (cwd s : Str) : List Str :=
  cleanComponents true (splitOnSep '/' (if isAbs s then s else cwd ++ sepStr ++ s))

/-- The call `os.Stat(path)`, up to the error number. -/
def statPath (w : World) (path : Str) : Except Errno Node :=
  if path = [] then .error .ENOENT else w.fs.stat (resolve w.cwd path)

/-- The test `os.IsNotExist(err)` on the outcome of `os.Stat`: it holds for
`ENOENT` only. -/
def isNotExist (r : Except Errno Node) : Bool :=
  match r with
  | .error .ENOENT => true
  | _ => false

/-- Whether a path names an existing object. -/
def pathExists (w : World) (path : Str) : Bool :=
  match statPath w path with
  | .ok _ => true
  | .error _ => false

/-! ## `ConvertToBare` -/

/-- What the environment decides during one run of `ConvertToBare`: the values
`os.MkdirTemp` draws, a failure injected at each point where the source
inspects an error, the outcome of `git clone --bare` (on success the bare
repository it writes, on failure the exit error and what it leaves behind at
the destination), and a failure of the `os.RemoveAll` of the deferred cleanup,
whose error the source discards. -/
structure Oracle where
  rands : List Str
  mkdirTempErr : Option GoError
  removeTempErr : Option GoError
  clone : Except (GoError × Option Node) Node
  cloneOutput : Str
  readDirErr : Option GoError
  removeAllErr : Str → Option GoError
  renameErr : Option GoError
  cleanupErr : Option GoError

/-- The helper `prefixAndSuffix` of `os.MkdirTemp`: the pattern is split at its
last `*`; a pattern with a path separator is rejected. -/
def prefixAndSuffix (pattern : Str) : Except GoError (Str × Str) :=
  if pattern.contains '/' then
    .error (.plain ("mkdirtemp ".toList ++ pattern ++ ": pattern contains path separator".toList))
  else if pattern.contains '*' then
    let suffixRev := pattern.reverse.takeWhile (fun c => decide (c ≠ '*'))
    .ok (pattern.take (pattern.length - suffixRev.length - 1), suffixRev.reverse)
  else .ok (pattern, [])

/-- The helper `joinPath` of `os.MkdirTemp`. -/
def joinPath (d name : Str) : Str :=
  if d.getLast? = some '/' then d ++ name else d ++ sepStr ++ name

/-- The system call `mkdir`. -/
def Node.mkdir (n : Node) (p : List Str) : Except Errno Node :=
  match n.stat p with
  | .ok _ => .error .EEXIST
  | .error .ENOTDIR => .error .ENOTDIR
  | .error _ =>
    match n.put p (.dir []) with
    | some n' => .ok n'
    | none => .error .ENOENT

/-- The retry loop of `os.MkdirTemp`: the first drawn name that does not exist
yet is created; the draws running out stands for the limit on retries. -/
def mkdirTempTry (cwd : Str) (fs : Node) (pre suf : Str) : List Str → Except GoError (Str × Node)
  | [] => .error (.plain ("mkdirtemp ".toList ++ pre ++ ['*'] ++ suf ++ ": file exists".toList))
  | r :: rs =>
    match fs.mkdir (resolve cwd (pre ++ r ++ suf)) with
    | .ok fs' => .ok (pre ++ r ++ suf, fs')
    | .error .EEXIST => mkdirTempTry cwd fs pre suf rs
    | .error e => .error (pathError "mkdir".toList (pre ++ r ++ suf) e)

/-- The call `os.MkdirTemp(dir, pattern)` for a non-empty `dir` (the source
passes the result of `filepath.Dir`, which is never empty). -/
def mkdirTemp (o : Oracle) (w : World) (d pattern : Str) : Except GoError (Str × World) :=
  match o.mkdirTempErr with
  | some e => .error e
  | none =>
    match prefixAndSuffix pattern with
    | .error e => .error e
    | .ok (pre, suf) =>
      match mkdirTempTry w.cwd w.fs (joinPath d pre) suf o.rands with
      | .error e => .error e
      | .ok (name, fs') => .ok (name, { w with fs := fs' })

/-- The call `os.Remove(path)`: a file or an empty directory is removed. -/
def osRemove (fault : Option GoError) (w : World) (path : Str) : Except GoError World :=
  match fault with
  | some e => .error e
  | none =>
    match statPath w path with
    | .error e => .error (pathError "remove".toList path e)
    | .ok (.dir (_ :: _)) => .error (pathError "remove".toList path .ENOTEMPTY)
    | .ok _ => .ok { w with fs := w.fs.del (resolve w.cwd path) }

/-- The effect of a successful `os.RemoveAll(path)`: the object and everything
below it are gone; a missing path is no error. -/
def removeAll (w : World) (path : Str) : World :=
  { w with fs := w.fs.del (resolve w.cwd path) }

/-- The names `os.ReadDir` returns: the entries of the directory, sorted by name. -/
def sortedNames (es : List (Str × Node)) : List Str :=
  (es.map Prod.fst).insertionSort (fun a b => strLe a b = true)

/-- The call `os.ReadDir(path)`, up to the entry names. -/
def readDir (fault : Option GoError) (w : World) (path : Str) : Except GoError (List Str) :=
  match fault with
  | some e => .error e
  | none =>
    match statPath w path with
    | .error e => .error (pathError "open".toList path e)
    | .ok (.file _) => .error (pathError "readdirent".toList path .ENOTDIR)
    | .ok (.dir es) => .ok (sortedNames es)

/-- The call `os.Rename(oldpath, newpath)`. The source must exist. When the
target is an existing directory Go answers `file exists`, whether the
directory is empty or not, unless the two names are different spellings of the
same directory, in which case the system call does nothing. Otherwise the
system call is made: a name renamed onto itself stays as it is, the target must
not lie inside the source, a directory does not replace a file, and the parent
of the target must be a directory. -/
def osRename (fault : Option GoError) (w : World) (oldpath newpath : Str) : Except GoError World :=
  let failed (e : Errno) : Except GoError World :=
    .error (.plain ("rename ".toList ++ oldpath ++ [' '] ++ newpath ++ ": ".toList ++ e.text))
  match fault with
  | some e => .error e
  | none =>
    let src := resolve w.cwd oldpath
    let dst := resolve w.cwd newpath
    match statPath w oldpath with
    | .error e => failed e
    | .ok x =>
      match w.fs.get dst with
      | some (.dir _) =>
        if oldpath = newpath ∨ src ≠ dst then failed .EEXIST else .ok w
      | target =>
        if src = dst then .ok w
        else if src <+: dst then
          match x with
          | .dir _ => failed .EINVAL
          | .file _ => failed .ENOTDIR
        else
          match x, target with
          | .dir _, some (.file _) => failed .ENOTDIR
          | _, _ =>
            match (w.fs.del src).put dst x with
            | none => failed .ENOENT
            | some fs' => .ok { w with fs := fs' }

/-- The command `git clone --bare src dst` run through `CombinedOutput`: the
command line is recorded; on success the bare repository appears at `dst`,
which must not exist yet; on failure the world holds whatever the failed clone
left at `dst`. -/
def gitCloneBare (o : Oracle) (w : World) (src dst : Str) : Except (GoError × World) World :=
  let w1 : World := { w with calls := w.calls ++ [["clone".toList, "--bare".toList, src, dst]] }
  match o.clone with
  | .error (e, none) => .error (e, w1)
  | .error (e, some junk) =>
    match w1.fs.put (resolve w1.cwd dst) junk with
    | some fs' => .error (e, { w1 with fs := fs' })
    | none => .error (e, w1)
  | .ok bare =>
    match w1.fs.get (resolve w1.cwd dst), w1.fs.put (resolve w1.cwd dst) bare with
    | none, some fs' => .ok { w1 with fs := fs' }
    | _, _ => .error (.plain "exit status 128".toList, w1)

/-- The removal loop of `ConvertToBare` (source lines 88 to 93): each item is
removed with `os.RemoveAll`; the first failure ends the loop, the item that
failed to be removed staying in place. -/
def removeItems (o : Oracle) (path : Str) : World → List Str → Except (GoError × World) World
  | w, [] => .ok w
  | w, name :: rest =>
    let itemPath := join [path, name]
    match o.removeAllErr itemPath with
    | some e => .error (errorfW ("failed to remove ".toList ++ itemPath ++ ": ".toList) e, w)
    | none => removeItems o path (removeAll w itemPath) rest

/-- How the body of `ConvertToBare` after line 75 ends: the error returned, the
value of `cleanupTemp` at that moment, and the world. -/
structure Staged where
  err : Option GoError
  cleanupTemp : Bool
  world : World

/-- The lines 77 to 101 of `ConvertToBare`: clone into the reserved name, empty
the root, move the clone to `path/.git`. -/
def convertStaged (o : Oracle) (w : World) (path tempBareDir : Str) : Staged :=
  match gitCloneBare o w path tempBareDir with
  | .error (e, w1) =>
    ⟨some (errorfWOut "failed to create bare clone: ".toList e o.cloneOutput), true, w1⟩
  | .ok w1 =>
    match readDir o.readDirErr w1 path with
    | .error e => ⟨some (errorfW "failed to read original repository: ".toList e), true, w1⟩
    | .ok items =>
      match removeItems o path w1 items with
      | .error (e, w2) => ⟨some e, true, w2⟩
      | .ok w2 =>
        let targetGitDir := join [path, ".git".toList]
        match osRename o.renameErr w2 tempBareDir targetGitDir with
        | .error e =>
          ⟨some (errorfW ("failed to move bare repository into ".toList ++ targetGitDir ++
            ": ".toList) e), true, w2⟩
        | .ok w3 => ⟨none, false, w3⟩

/-- The name `os.MkdirTemp` is asked for and the world after it, as
`ConvertToBare` calls it on line 63. -/
def reserveTemp (o : Oracle) (w : World) (path : Str) : Except GoError (Str × World) :=
  mkdirTemp o w (dir path) (['.'] ++ base path ++ ".bare-*".toList)

/-- The deferred function of lines 71 to 75 with `cleanupTemp` still set:
`os.RemoveAll(tempBareDir)`, whose error the source discards. As in the removal
loop, a removal that fails leaves in place what it was to remove. -/
def cleanupTempDir (o : Oracle) (w : World) (tempBareDir : Str) : World :=
  match o.cleanupErr with
  | some _ => w
  | none => removeAll w tempBareDir

/-- The method `ConvertToBare`.  The deferred function of lines 71 to 75 runs
after the body whenever `cleanupTemp` is still set. -/
def convertToBare (o : Oracle) (w : World) (path : Str) : Option GoError × World :=
  if isNotExist (statPath w path) then
    (some (.plain ("path does not exist: ".toList ++ path)), w)
  else
    let gitDir := join [path, ".git".toList]
    if isNotExist (statPath w gitDir) then
      (some (.plain ("not a git repository: ".toList ++ path)), w)
    else
      match reserveTemp o w path with
      | .error e => (some (errorfW "failed to create temporary directory: ".toList e), w)
      | .ok (tempBareDir, w1) =>
        match osRemove o.removeTempErr w1 tempBareDir with
        | .error e =>
          (some (errorfW "failed to prepare temporary bare directory: ".toList e), w1)
        | .ok w2 =>
          let r := convertStaged o w2 path tempBareDir
          (r.err, if r.cleanupTemp then cleanupTempDir o r.world tempBareDir else r.world)

/-! ## The worktree operations -/

/-- The outcome of one run of git: the captured output and the exit error. -/
structure GitRun where
  output : Str
  err : Option GoError

/-- The system the worktree operations run on, over a state `σ` of the outside
world (file system and repository): the working directory of the process,
`filepath.EvalSymlinks`, `os.MkdirAll`, and the `git` program run in a
directory with an argument list. -/
structure Sys (σ : Type) where
  getwd : σ → Except GoError Str
  evalSymlinks : σ → Str → Except GoError Str
  mkdirAll : σ → Str → Option GoError × σ
  git : σ → Str → List Str → GitRun × σ

/-- The state of the outside world together with the git command lines run so
far, each with the directory it ran in. -/
structure Proc (σ : Type) where
  state : σ
  calls : List (Str × List Str)

/-- Run git in a directory and record the command line. -/
def runGit {σ : Type} (S : Sys σ) (p : Proc σ) (d : Str) (args : List Str) :
    GitRun × Proc σ :=
  ((S.git p.state d args).1,
    { state := (S.git p.state d args).2, calls := p.calls ++ [(d, args)] })

/-- The function `filepath.Abs`: an absolute path is cleaned, a relative one is
joined to the working directory of the process. -/
def absPath {σ : Type} (S : Sys σ) (s : σ) (path : Str) : Except GoError Str :=
  if isAbs path then .ok (clean path)
  else
    match S.getwd s with
    | .error e => .error e
    | .ok wd => .ok (join [wd, path])

/-- The function `normalizePathForCompare`. -/
def normalizePathForCompare {σ : Type} (S : Sys σ) (s : σ) (path : Str) : Str :=
  let normalized := clean path
  let normalized :=
    match absPath S s normalized with
    | .ok a => a
    | .error _ => normalized
  match S.evalSymlinks s normalized with
  | .ok e => e
  | .error _ => normalized

/-- The argument list of the listing command. -/
def worktreeListArgs : List Str := ["worktree".toList, "list".toList, "--porcelain".toList]

/-- The line marker of a worktree entry in the porcelain listing. -/
def worktreeMarker : Str := "worktree ".toList

/-- The loop of `isWorktreeRegistered` over the lines of the listing. -/
def registeredIn {σ : Type} (S : Sys σ) (s : σ) (target : Str) : List Str → Bool
  | [] => false
  | line :: rest =>
    if !hasPrefix line worktreeMarker then registeredIn S s target rest
    else
      let path := trimSpace (trimPrefix line worktreeMarker)
      if path = [] then registeredIn S s target rest
      else if normalizePathForCompare S s path = target then true
      else registeredIn S s target rest

/-- The method `isWorktreeRegistered`, returning the Go pair `(bool, error)`. -/
def isWorktreeRegistered {σ : Type} (S : Sys σ) (p : Proc σ) (barePath worktreePath : Str) :
    (Bool × Option GoError) × Proc σ :=
  let r := runGit S p barePath worktreeListArgs
  match r.1.err with
  | some e => ((false, some e), r.2)
  | none =>
    let target := normalizePathForCompare S r.2.state worktreePath
    ((registeredIn S r.2.state target (splitLines r.1.output), none), r.2)

/-- The argument list `runWorktreeAdd` builds for `git worktree add`. -/
def worktreeAddArgs (prePathArgs : List Str) (absWorktreePath : Str)
    (postPathArgs : List Str) : List Str :=
  ["worktree".toList, "add".toList] ++ prePathArgs ++ [absWorktreePath] ++ postPathArgs

/-- The lines 136 to 154 of `runWorktreeAdd`: run `git worktree add`, and on an
`already exists` failure check the registration once more. -/
def addWorktree {σ : Type} (S : Sys σ) (p : Proc σ) (barePath absWorktreePath : Str)
    (prePathArgs postPathArgs : List Str) : Option GoError × Proc σ :=
  let r := runGit S p barePath (worktreeAddArgs prePathArgs absWorktreePath postPathArgs)
  match r.1.err with
  | none => (none, r.2)
  | some err =>
    if containsStr r.1.output "already exists".toList then
      match isWorktreeRegistered S r.2 barePath absWorktreePath with
      | ((true, none), p') => (none, p')
      | (_, p') => (some (errorfWOut "failed to create worktree: ".toList err r.1.output), p')
    else (some (errorfWOut "failed to create worktree: ".toList err r.1.output), r.2)

/-- The method `runWorktreeAdd`. -/
def runWorktreeAdd {σ : Type} (S : Sys σ) (p : Proc σ) (barePath worktreePath : Str)
    (prePathArgs postPathArgs : List Str) : Option GoError × Proc σ :=
  match absPath S p.state worktreePath with
  | .error e => (some (errorfW "failed to resolve worktree path: ".toList e), p)
  | .ok absWorktreePath =>
    match S.mkdirAll p.state (dir absWorktreePath) with
    | (some e, s1) =>
      (some (errorfW "failed to create parent directory: ".toList e), { p with state := s1 })
    | (none, s1) =>
      match isWorktreeRegistered S { p with state := s1 } barePath absWorktreePath with
      | ((_, some e), p2) =>
        (some (errorfW "failed to inspect existing worktrees: ".toList e), p2)
      | ((true, none), p2) => (none, p2)
      | ((false, none), p2) =>
        addWorktree S p2 barePath absWorktreePath prePathArgs postPathArgs

/-- The method `CreateWorktree`. -/
def createWorktree {σ : Type} (S : Sys σ) (p : Proc σ) (barePath worktreePath branch : Str) :
    Option GoError × Proc σ :=
  runWorktreeAdd S p barePath worktreePath [] [branch]

/-- The method `CreateDetachedWorktree`. -/
def createDetachedWorktree {σ : Type} (S : Sys σ) (p : Proc σ)
    (barePath worktreePath startPoint : Str) : Option GoError × Proc σ :=
  runWorktreeAdd S p barePath worktreePath ["--detach".toList] [startPoint]

/-- The method `CreateFeatureWorktree`. -/
def createFeatureWorktree {σ : Type} (S : Sys σ) (p : Proc σ)
    (barePath worktreePath featureBranch baseBranch : Str) : Option GoError × Proc σ :=
  runWorktreeAdd S p barePath worktreePath ["-b".toList, featureBranch] [baseBranch]

/-! ## A small git -/

/-- A repository as far as worktrees go: the working directory of the process,
the bare directory, and the paths of the registered worktrees, oldest first. -/
structure GitStore where
  cwd : Str
  bare : Str
  worktrees : List Str

/-- The output of `git worktree list --porcelain`: the bare entry, then one
entry per worktree, each ended by an empty line. -/
def porcelain (g : GitStore) : Str :=
  worktreeMarker ++ g.bare ++ "\nbare\n\n".toList ++
    (g.worktrees.map (fun p =>
      worktreeMarker ++ p ++ "\nHEAD 4b825dc642cb6eb9a060e54bf8d69288fbee4904\ndetached\n\n".toList)).flatten

/-- The git of the example: the listing prints the store; `worktree add`
registers the path given before the start point, and refuses a path that is
registered already with `fatal: '<path>' already exists`. -/
def simpleGitRun (g : GitStore) (_d : Str) (args : List Str) : GitRun × GitStore :=
  if args = worktreeListArgs then (⟨porcelain g, none⟩, g)
  else
    match args, args.reverse with
    | w :: a :: _, _ :: path :: _ =>
      if w = "worktree".toList ∧ a = "add".toList then
        if path ∈ g.worktrees then
          (⟨"fatal: '".toList ++ path ++ "' already exists\n".toList,
            some (.plain "exit status 128".toList)⟩, g)
        else (⟨"Preparing worktree\n".toList, none⟩, { g with worktrees := g.worktrees ++ [path] })
      else (⟨[], some (.plain "exit status 1".toList)⟩, g)
    | _, _ => (⟨[], some (.plain "exit status 1".toList)⟩, g)

/-- The example system: no symbolic links, so `filepath.EvalSymlinks` only
cleans; every directory can be created. -/
def simpleSys : Sys GitStore :=
  { getwd := fun g => .ok g.cwd
    evalSymlinks := fun _ p => .ok (clean p)
    mkdirAll := fun g _ => (none, g)
    git := simpleGitRun }

/-- A converted repository at `/w/repo` with the worktree `main`. -/
def demoStore : GitStore :=
  { cwd := "/w".toList, bare := "/w/repo/.git".toList, worktrees := ["/w/repo/main".toList] }

/-- The process of the example before any git command. -/
def demoProc : Proc GitStore := ⟨demoStore, []⟩

/-- A git that loses a race: `worktree add` finds the path created by another
process in the meantime, so it fails with `already exists` while the path is
registered. -/
def racyGitRun (g : GitStore) (d : Str) (args : List Str) : GitRun × GitStore :=
  if args = worktreeListArgs then simpleGitRun g d args
  else
    match args.reverse with
    | _ :: path :: _ =>
      (⟨"fatal: '".toList ++ path ++ "' already exists\n".toList,
        some (.plain "exit status 128".toList)⟩,
        { g with worktrees := g.worktrees ++ [path] })
    | _ => (⟨[], some (.plain "exit status 1".toList)⟩, g)

/-- The example system with the racing git. -/
def racySys : Sys GitStore := { simpleSys with git := racyGitRun }

/-- A worktree path that ends in a space. -/
def spacedPath : Str := "/w/repo/review ".toList

/-- The example process after the first `CreateDetachedWorktree` at `spacedPath`. -/
def afterSpacedAdd : Proc GitStore :=
  (createDetachedWorktree simpleSys demoProc demoStore.bare spacedPath "main".toList).2

/-! ## `ConfigureBareRemote` -/

/-- The function `runGitCommand`: git is run with `cmd.Run()`, which captures
nothing git prints; only the exit error comes back.  (An empty `dir` leaves
the command in the directory of the process.) -/
def runGitCommand {σ : Type} (S : Sys σ) (p : Proc σ) (d : Str) (args : List Str) :
    Option GoError × Proc σ :=
  ((runGit S p d args).1.err, (runGit S p d args).2)

/-- The argument list of step 1 of `ConfigureBareRemote`. -/
def refspecArgs : List Str :=
  ["config".toList, "remote.origin.fetch".toList, "+refs/heads/*:refs/remotes/origin/*".toList]

/-- The argument list of step 2 of `ConfigureBareRemote`. -/
def fetchArgs : List Str := ["fetch".toList, "origin".toList]

/-- The argument list of the local-branch listing. -/
def localBranchArgs : List Str := ["branch".toList, "--format=%(refname:short)".toList]

/-- The argument list of the remote-branch listing. -/
def remoteBranchArgs : List Str :=
  ["branch".toList, "-r".toList, "--format=%(refname:short)".toList]

/-- The argument list of one branch deletion. -/
def deleteBranchArgs (branch : Str) : List Str := ["branch".toList, "-D".toList, branch]

/-- The deletion loop of `ConfigureBareRemote` (source lines 38 to 47): each
line is trimmed; an empty line and the default branch are skipped; the error of
a deletion is dropped. -/
def deleteBranches {σ : Type} (S : Sys σ) (barePath defaultBranch : Str) :
    Proc σ → List Str → Proc σ
  | p, [] => p
  | p, line :: rest =>
    if trimSpace line = [] ∨ trimSpace line = defaultBranch then
      deleteBranches S barePath defaultBranch p rest
    else
      deleteBranches S barePath defaultBranch
        (runGitCommand S p barePath (deleteBranchArgs (trimSpace line))).2 rest

/-- The message prefix of a failed step 1. -/
def refspecFailed : Str := "failed to set fetch refspec: ".toList

/-- The message prefix of a failed step 2. -/
def fetchFailed : Str := "failed to fetch from origin: ".toList

/-- The message prefix of a failed local-branch listing. -/
def listLocalFailed : Str := "failed to list local branches: ".toList

/-- The method `ConfigureBareRemote`. -/
def configureBareRemote {σ : Type} (S : Sys σ) (p : Proc σ) (barePath defaultBranch : Str) :
    Option GoError × Proc σ :=
  match runGitCommand S p barePath refspecArgs with
  | (some e, p1) => (some (errorfW refspecFailed e), p1)
  | (none, p1) =>
    match runGitCommand S p1 barePath fetchArgs with
    | (some e, p2) => (some (errorfW fetchFailed e), p2)
    | (none, p2) =>
      match (runGit S p2 barePath localBranchArgs).1.err with
      | some e => (some (errorfW listLocalFailed e), (runGit S p2 barePath localBranchArgs).2)
      | none =>
        (none, deleteBranches S barePath defaultBranch (runGit S p2 barePath localBranchArgs).2
          (splitLines (trimSpace (runGit S p2 barePath localBranchArgs).1.output)))

/-- The trimmed lines of a listing that are not blank. -/
def nonBlankLines (output : Str) : List Str :=
  ((splitLines output).map trimSpace).filter (fun b => decide (b ≠ []))

/-! ## `ListBranches` -/

/-- The remote-qualifying text that `ListBranches` strips. -/
def originSlash : Str := "origin/".toList

/-- The name of the symbolic reference `HEAD`. -/
def headName : Str := "HEAD".toList

/-- The short name of the symbolic default-remote pointer. -/
def originName : Str := "origin".toList

/-- The marker of a reference that points to another one. -/
def arrowMark : Str := "->".toList

/-- The exclusion test of `addBranch` (source line 212), negated: the names
that are kept. -/
def keepBranch (branch : Str) : Bool :=
  !(decide (branch = []) || decide (branch = headName) || decide (branch = originName) ||
    containsStr branch arrowMark)

/-- The closure `addBranch` of `ListBranches`; the key set of the map `seen` is
a list without repetition. -/
def addBranch (seen : List Str) (branch : Str) : List Str :=
  if keepBranch (trimPrefix (trimSpace branch) originSlash) then
    if trimPrefix (trimSpace branch) originSlash ∈ seen then seen
    else seen ++ [trimPrefix (trimSpace branch) originSlash]
  else seen

/-- One of the two loops of `ListBranches` (source lines 219 to 223). -/
def addLines : List Str → List Str → List Str
  | seen, [] => seen
  | seen, line :: rest =>
    if trimSpace line ≠ [] then addLines (addBranch seen line) rest
    else addLines seen rest

/-- The lines 208 to 238 of `ListBranches`: the names collected from the two
raw listings, sorted by `sort.Strings`.  The keys of the map are taken in the
order of insertion; sorting makes the result independent of the order. -/
def branchesOf (remoteOutput localOutput : Str) : List Str :=
  (addLines (addLines [] (splitLines (trimSpace remoteOutput)))
    (splitLines (trimSpace localOutput))).insertionSort (fun a b => strLe a b = true)

/-- The method `ListBranches`. -/
def listBranches {σ : Type} (S : Sys σ) (p : Proc σ) (path : Str) :
    Except GoError (List Str) × Proc σ :=
  match (runGit S p path remoteBranchArgs).1.err with
  | some e => (.error (errorfW "failed to list branches: ".toList e),
      (runGit S p path remoteBranchArgs).2)
  | none =>
    match (runGit S (runGit S p path remoteBranchArgs).2 path localBranchArgs).1.err with
    | some e => (.error (errorfW listLocalFailed e),
        (runGit S (runGit S p path remoteBranchArgs).2 path localBranchArgs).2)
    | none =>
      (.ok (branchesOf (runGit S p path remoteBranchArgs).1.output
          (runGit S (runGit S p path remoteBranchArgs).2 path localBranchArgs).1.output),
        (runGit S (runGit S p path remoteBranchArgs).2 path localBranchArgs).2)

/-! ## Feature and default-branch resolution (`cmd`) -/

/-- The reserved worktree name. -/
def reviewName : Str := "review".toList

/-- The function `resolveFeatureWorktreeConfig`, returning the Go triple
`(featureBranch, baseBranch, err)`; `quote` stands for the `%q` verb. -/
def resolveFeatureWorktreeConfig (quote : Str → Str)
    (defaultBranch featureBranchInput baseBranchInput : Str) : Str × Str × Option GoError :=
  let featureBranch := trimSpace featureBranchInput
  let baseBranch := trimSpace baseBranchInput
  if featureBranch = [] then
    if baseBranch ≠ [] then ([], [], some (.plain "--feature-base requires --feature".toList))
    else ([], [], none)
  else
    let baseBranch := if baseBranch = [] then defaultBranch else baseBranch
    if featureBranch = reviewName then
      ([], [], some (.plain ("--feature value ".toList ++ quote featureBranch ++
        " is reserved".toList)))
    else if featureBranch = defaultBranch then
      ([], [], some (.plain ("--feature value ".toList ++ quote featureBranch ++
        " conflicts with the default branch worktree".toList)))
    else (featureBranch, baseBranch, none)

/-- The verb `%q` on a string without characters that need escaping. -/
def quotePlain (s : Str) : Str := ['"'] ++ s ++ ['"']

/-- The branch name `main`. -/
def mainName : Str := "main".toList

/-- The branch name `master`. -/
def masterName : Str := "master".toList

/-- Whether some listed branch trims to a given name: the inner loops of
`resolveConvertDefaultBranch`. -/
def listsBranch (branches : List Str) (name : Str) : Bool :=
  branches.any (fun b => decide (trimSpace b = name))

/-- The candidate of source lines 285 to 290: the trimmed first branch, when
there is one and it is not blank. -/
def firstCandidate : List Str → Option Str
  | [] => none
  | first :: _ => if trimSpace first ≠ [] then some (trimSpace first) else none

/-- The function `resolveConvertDefaultBranch`. -/
def resolveConvertDefaultBranch (explicit : Str) (branches : List Str) : Str :=
  let explicit := trimSpace explicit
  if explicit ≠ [] ∧ listsBranch branches explicit = true then explicit
  else
    match [mainName, masterName].find? (fun preferred => listsBranch branches preferred) with
    | some preferred => preferred
    | none =>
      match firstCandidate branches with
      | some candidate => candidate
      | none => if explicit ≠ [] then explicit else mainName

/-! ## Concurrent calls of `runWorktreeAdd` -/

/-- The arguments of one call of `runWorktreeAdd`. -/
structure AddCall where
  barePath : Str
  worktreePath : Str
  prePathArgs : List Str
  postPathArgs : List Str

/-- How far a call of `runWorktreeAdd` has come: nothing done yet; the path
resolved and its parent created; the first registrar check negative; `git
worktree add` failed with `already exists`; returned. -/
inductive CallState where
  | start
  | prepared (absWorktreePath : Str)
  | checked (absWorktreePath : Str)
  | failedAdd (absWorktreePath : Str) (err : GoError) (output : Str)
  | done (result : Option GoError)
  deriving DecidableEq

/-- The next step of a call of `runWorktreeAdd`, each step being one effect on
the outside world: creating the parent directory, the first listing, `git
worktree add`, the second listing. -/
def stepCall {σ : Type} (S : Sys σ) (c : AddCall) : CallState → Proc σ → CallState × Proc σ
  | .start, p =>
    match absPath S p.state c.worktreePath with
    | .error e => (.done (some (errorfW "failed to resolve worktree path: ".toList e)), p)
    | .ok absWorktreePath =>
      match S.mkdirAll p.state (dir absWorktreePath) with
      | (some e, s1) =>
        (.done (some (errorfW "failed to create parent directory: ".toList e)),
          { p with state := s1 })
      | (none, s1) => (.prepared absWorktreePath, { p with state := s1 })
  | .prepared absWorktreePath, p =>
    match isWorktreeRegistered S p c.barePath absWorktreePath with
    | ((_, some e), p2) =>
      (.done (some (errorfW "failed to inspect existing worktrees: ".toList e)), p2)
    | ((true, none), p2) => (.done none, p2)
    | ((false, none), p2) => (.checked absWorktreePath, p2)
  | .checked absWorktreePath, p =>
    match (runGit S p c.barePath
        (worktreeAddArgs c.prePathArgs absWorktreePath c.postPathArgs)).1.err with
    | none =>
      (.done none,
        (runGit S p c.barePath (worktreeAddArgs c.prePathArgs absWorktreePath c.postPathArgs)).2)
    | some err =>
      if containsStr (runGit S p c.barePath
          (worktreeAddArgs c.prePathArgs absWorktreePath c.postPathArgs)).1.output
          "already exists".toList then
        (.failedAdd absWorktreePath err
          (runGit S p c.barePath
            (worktreeAddArgs c.prePathArgs absWorktreePath c.postPathArgs)).1.output,
          (runGit S p c.barePath
            (worktreeAddArgs c.prePathArgs absWorktreePath c.postPathArgs)).2)
      else
        (.done (some (errorfWOut "failed to create worktree: ".toList err
          (runGit S p c.barePath
            (worktreeAddArgs c.prePathArgs absWorktreePath c.postPathArgs)).1.output)),
          (runGit S p c.barePath
            (worktreeAddArgs c.prePathArgs absWorktreePath c.postPathArgs)).2)
  | .failedAdd absWorktreePath err output, p =>
    match isWorktreeRegistered S p c.barePath absWorktreePath with
    | ((true, none), p') => (.done none, p')
    | (_, p') => (.done (some (errorfWOut "failed to create worktree: ".toList err output)), p')
  | .done result, p => (.done result, p)

/-- A call run for a number of steps with nothing else going on. -/
def stepsCall {σ : Type} (S : Sys σ) (c : AddCall) : Nat → CallState × Proc σ → CallState × Proc σ
  | 0, x => x
  | n + 1, x => stepsCall S c n (stepCall S c x.1 x.2)

/-- Several calls on one store: the call with index `i` takes its next step. -/
def stepAt {σ : Type} (S : Sys σ) (calls : List AddCall) (i : Nat)
    (x : List CallState × Proc σ) : List CallState × Proc σ :=
  match calls.get? i, x.1.get? i with
  | some c, some st => (x.1.set i (stepCall S c st x.2).1, (stepCall S c st x.2).2)
  | _, _ => x

/-- The calls run along a schedule: the list of the indices of the calls that
take the successive steps. -/
def runSchedule {σ : Type} (S : Sys σ) (calls : List AddCall) (schedule : List Nat)
    (p : Proc σ) : List CallState × Proc σ :=
  schedule.foldl (fun x i => stepAt S calls i x) (calls.map (fun _ => CallState.start), p)

/-- The call `CreateDetachedWorktree(barePath, worktreePath, startPoint)`. -/
def detachedCall (barePath worktreePath startPoint : Str) : AddCall :=
  ⟨barePath, worktreePath, ["--detach".toList], [startPoint]⟩

/-! ## More gits -/

/-- A git whose local-branch listing fails while every other command succeeds. -/
def listFailGitRun (g : GitStore) (_d : Str) (args : List Str) : GitRun × GitStore :=
  if args = localBranchArgs then (⟨[], some (.plain "exit status 128".toList)⟩, g)
  else (⟨[], none⟩, g)

/-- The example system with the failing listing. -/
def listFailSys : Sys GitStore := { simpleSys with git := listFailGitRun }

/-- What git prints when it cannot reach the remote. -/
def fetchDiagnostic : Str :=
  "fatal: 'origin' does not appear to be a git repository\n".toList

/-- A git that cannot reach the remote: `fetch origin` prints its diagnostic
and exits with status 128; every other command succeeds. -/
def offlineGitRun (g : GitStore) (_d : Str) (args : List Str) : GitRun × GitStore :=
  if args = fetchArgs then (⟨fetchDiagnostic, some (.plain "exit status 128".toList)⟩, g)
  else (⟨[], none⟩, g)

/-- The example system without a reachable remote. -/
def offlineSys : Sys GitStore := { simpleSys with git := offlineGitRun }

/-- A git fresh from a bare clone: the local branches are `main`, `feature-a`
and `old` (the listing has a blank line and padding), `feature-a` is checked
out elsewhere and cannot be deleted. -/
def bareCloneGitRun (g : GitStore) (_d : Str) (args : List Str) : GitRun × GitStore :=
  if args = localBranchArgs then (⟨"main\n  feature-a\n\nold \n".toList, none⟩, g)
  else if args = deleteBranchArgs "feature-a".toList then
    (⟨"error: cannot delete branch 'feature-a'\n".toList, some (.plain "exit status 1".toList)⟩, g)
  else (⟨[], none⟩, g)

/-- The example system fresh from a bare clone. -/
def bareCloneSys : Sys GitStore := { simpleSys with git := bareCloneGitRun }

/-! ## Repository addresses -/

/-- The function `strings.HasSuffix`. -/
def hasSuffix (s x : Str) : Bool := x.isSuffixOf s

/-- The function `strings.TrimSuffix`. -/
def trimSuffix (s x : Str) : Str :=
  if hasSuffix s x then s.take (s.length - x.length) else s

/-- The scheme marker of an SSH address. -/
def gitAt : Str := "git@".toList

/-- The scheme `https://`. -/
def httpsScheme : Str := "https://".toList

/-- The scheme `http://`. -/
def httpScheme : Str := "http://".toList

/-- The ending `.git`. -/
def dotGit : Str := ".git".toList

/-- The host part of a GitHub SSH address. -/
def sshHost : Str := "git@github.com:".toList

/-- The call `fmt.Sprintf("git@github.com:%s/%s.git", owner, repo)`. -/
def sshAddress (owner repo : Str) : Str := sshHost ++ owner ++ sepStr ++ repo ++ dotGit

/-- The error of `ParseRepoURL`. -/
def invalidRepoFormat (input : Str) : GoError :=
  .plain ("invalid repo format: ".toList ++ input ++ " (expected owner/repo or full URL)".toList)

/-- The function `ParseRepoURL` of `internal/git/clone.go`, returning the Go
pair `(string, error)`. -/
def parseRepoURL (input : Str) : Str × Option GoError :=
  let input := trimSpace input
  if hasPrefix input gitAt || hasPrefix input httpsScheme || hasPrefix input httpScheme then
    if !hasSuffix input dotGit then (input ++ dotGit, none) else (input, none)
  else if containsStr input sepStr then
    match splitOnSep '/' input with
    | [owner, repo] => (sshAddress owner repo, none)
    | _ => ([], some (invalidRepoFormat input))
  else ([], some (invalidRepoFormat input))

/-- The function `BuildSSHURL` of `internal/utils/url.go`. -/
def buildSSHURL (owner repo : Str) : Str := sshAddress owner repo

/-- The call `urlPattern.FindStringSubmatch(input)` for the pattern
`^git@github\.com:([^/]+)/([^/]+)\.git$`, returning the two groups of a match.
The pattern is anchored at both ends and neither group can hold a `/`, so a
match is unique: the first group is the text between the host and the first
`/`, the second group is the text after that `/` without its ending `.git`,
and both are non-empty. -/
def urlPatternMatch (input : Str) : Option (Str × Str) :=
  if hasPrefix input sshHost then
    match (input.drop sshHost.length).dropWhile (fun c => decide (c ≠ '/')) with
    | [] => none
    | _ :: tail =>
      if (input.drop sshHost.length).takeWhile (fun c => decide (c ≠ '/')) ≠ [] ∧
          '/' ∉ tail ∧ hasSuffix tail dotGit = true ∧ dotGit.length < tail.length then
        some ((input.drop sshHost.length).takeWhile (fun c => decide (c ≠ '/')),
          tail.take (tail.length - dotGit.length))
      else none
  else none

/-- The error of `ParseRepoIdentifier` for a text that is no SSH address. -/
def invalidRepoIdentifier (input : Str) : GoError :=
  .plain ("invalid repo identifier: ".toList ++ input ++
    " (expected owner/repo or git@github.com:owner/repo.git)".toList)

/-- The function `ParseRepoIdentifier` of `internal/utils/url.go`, returning the
Go triple `(owner, repo, error)`. -/
def parseRepoIdentifier (input : Str) : Str × Str × Option GoError :=
  let input := trimSpace input
  if hasPrefix input gitAt then
    match urlPatternMatch input with
    | some (owner, repo) => (owner, repo, none)
    | none => ([], [], some (.plain "invalid SSH URL format".toList))
  else if containsStr input sepStr then
    match splitOnSep '/' input with
    | [owner, repo] => (owner, repo, none)
    | _ => ([], [], some (invalidRepoIdentifier input))
  else ([], [], some (invalidRepoIdentifier input))

/-- The GitHub address head `https://github.com/`. -/
def githubHTTPS : Str := "https://github.com/".toList

/-- The GitHub address head `http://github.com/`. -/
def githubHTTP : Str := "http://github.com/".toList

/-- The `switch` of `extractRepoFullName`: the first matching head is removed. -/
def stripHost (trimmed : Str) : Str :=
  if hasPrefix trimmed sshHost then trimPrefix trimmed sshHost
  else if hasPrefix trimmed githubHTTPS then trimPrefix trimmed githubHTTPS
  else if hasPrefix trimmed githubHTTP then trimPrefix trimmed githubHTTP
  else trimmed

/-- The text `extractRepoFullName` splits: the trimmed input without its head,
without one ending `.git`, then without one ending `/`. -/
def repoPathText (input : Str) : Str :=
  trimSuffix (trimSuffix (stripHost (trimSpace input)) dotGit) sepStr

/-- The function `extractRepoFullName` of `cmd/clone_shallow.go`, returning the
Go pair `(string, bool)`. -/
def extractRepoFullName (input : Str) : Str × Bool :=
  if trimSpace input = [] then ([], false)
  else
    match splitOnSep '/' (repoPathText input) with
    | [owner, repo] =>
      if owner = [] ∨ repo = [] then ([], false) else (owner ++ sepStr ++ repo, true)
    | _ => ([], false)

/-! ## The tmux session list -/

/-- The body of the loop of `parseTmuxSessionList`; the key set of the map
`seen` is the set of the sessions collected so far. -/
def addSession (sessions : List Str) (line : Str) : List Str :=
  if trimSpace line = [] then sessions
  else if trimSpace line ∈ sessions then sessions
  else sessions ++ [trimSpace line]

/-- The function `parseTmuxSessionList` of `cmd/connect.go`. -/
def parseTmuxSessionList (output : Str) : List Str :=
  (splitLines output).foldl addSession []

/-- A list without its later duplicates: every element is kept where it first
occurs. -/
def keepFirst : List Str → List Str
  | [] => []
  | x :: xs => x :: (keepFirst xs).filter (fun y => decide (y ≠ x))

/-! ## The selected worktrees of `convert` -/

/-- The function `ValidateBranches` of `internal/utils/input.go`: the first
selected name that is no key of the map of available names is reported. -/
def validateBranches (available selected : List Str) : Option GoError :=
  match selected.find? (fun branch => decide (branch ∉ available)) with
  | some branch => some (.plain ("branch not found: ".toList ++ branch))
  | none => none

/-- The function `ParseWorktreePath` of `internal/utils/path.go`. -/
def parseWorktreePath (basePath branch : Str) : Str :=
  join [trimSpace basePath, trimSpace branch]

/-- What a run of `createSelectedConvertWorktrees` leaves behind: the process,
the argument triples of the calls of `CreateWorktree` in the order they were
made, and the lines printed. -/
structure ConvertRun (σ : Type) where
  proc : Proc σ
  invoked : List (Str × Str × Str)
  printed : List Str

/-- The line printed at the start of `createSelectedConvertWorktrees`. -/
def creatingLine (count : Nat) : Str :=
  "Creating worktrees for ".toList ++ Nat.toDigits 10 count ++ " branches...\n".toList

/-- The loop of `createSelectedConvertWorktrees` over the selected names: a
failed creation prints a warning and the loop goes on. -/
def createSelectedLoop {σ : Type} (S : Sys σ) (bareMetadataPath repoPath : Str) :
    ConvertRun σ → List Str → ConvertRun σ
  | run, [] => run
  | run, branch :: rest =>
    let cleanBranch := trimSpace (trimPrefix branch originSlash)
    let worktreePath := parseWorktreePath repoPath cleanBranch
    let started : List Str := run.printed ++
      ["Creating worktree for ".toList ++ cleanBranch ++ " at ".toList ++ worktreePath ++
        "...\n".toList]
    let r := createWorktree S run.proc bareMetadataPath worktreePath cleanBranch
    let invoked := run.invoked ++ [(bareMetadataPath, worktreePath, cleanBranch)]
    match r.1 with
    | some err =>
      createSelectedLoop S bareMetadataPath repoPath
        ⟨r.2, invoked, started ++ ["Warning: failed to create worktree for ".toList ++
          cleanBranch ++ ": ".toList ++ err.text ++ "\n".toList]⟩ rest
    | none =>
      createSelectedLoop S bareMetadataPath repoPath
        ⟨r.2, invoked, started ++ ["✓ Worktree created: ".toList ++ worktreePath ++
          "\n".toList]⟩ rest

/-- The function `createSelectedConvertWorktrees` of `cmd/convert.go`, with the
production git manager. -/
def createSelectedConvertWorktrees {σ : Type} (S : Sys σ) (p : Proc σ)
    (bareMetadataPath repoPath : Str) (branches selected : List Str) :
    Option GoError × ConvertRun σ :=
  match validateBranches branches selected with
  | some err =>
    (some (errorfW "branch validation failed: ".toList err), ⟨p, [], [creatingLine selected.length]⟩)
  | none =>
    (none, createSelectedLoop S bareMetadataPath repoPath ⟨p, [], [creatingLine selected.length]⟩ selected)

/-- A git whose every command fails. -/
def brokenGitRun (g : GitStore) (_d : Str) (_args : List Str) : GitRun × GitStore :=
  (⟨"fatal: not a git repository\n".toList, some (.plain "exit status 128".toList)⟩, g)

/-- The example system with the failing git. -/
def brokenSys : Sys GitStore := { simpleSys with git := brokenGitRun }

/-! ## The repository cache -/

/-- The type `github.Repo`. A `time.Time` is the instant it denotes, counted
from the zero time; `After` and `IsZero` read nothing else of it. -/
structure Repo where
  name : Str
  fullName : Str
  url : Str
  sshURL : Str
  size : Int
  createdAt : Int
  isPrivate : Bool
  defaultBranch : Str
  updatedAt : Int
  description : Str
  language : Str
  stargazersCount : Int
  deriving DecidableEq

/-- A Go `map[string]github.Repo`: the entries, with distinct keys. The order of
the entries has no meaning; iteration takes them in an order of its own. -/
abbrev RepoMap := List (Str × Repo)

/-- The test `_, ok := m[key]`. -/
def RepoMap.has (m : RepoMap) (key : Str) : Bool := m.any (fun e => decide (e.1 = key))

/-- The assignment `m[key] = repo`. -/
def RepoMap.set (m : RepoMap) (key : Str) (repo : Repo) : RepoMap :=
  m.filter (fun e => decide (e.1 ≠ key)) ++ [(key, repo)]

/-- The first loop of `mergeReposByFullName`. -/
def indexExisting (existing : List Repo) : RepoMap :=
  existing.foldl (fun m repo => m.set repo.fullName repo) []

/-- The body of the second loop of `mergeReposByFullName`, on the map and the
counter `added`. -/
def mergeStep (st : RepoMap × Nat) (repo : Repo) : RepoMap × Nat :=
  (st.1.set repo.fullName repo, if st.1.has repo.fullName then st.2 else st.2 + 1)

/-- The comparison `merged[i].CreatedAt.After(merged[j].CreatedAt)` fails for a
pair that is in its final order: `a` may stand before `b` when `b` was not
created after `a`. -/
def notOlder (a b : Repo) : Prop := b.createdAt ≤ a.createdAt

instance notOlderDecidable : DecidableRel notOlder :=
  fun a b => inferInstanceAs (Decidable (b.createdAt ≤ a.createdAt))

/-- The function `mergeReposByFullName` of `cmd/cache_refresh.go`. The order in
which `range` takes the entries of the map is the parameter `iter`;
`sort.SliceStable` is the stable insertion sort. -/
def mergeReposByFullName (iter : RepoMap → RepoMap) (existing incoming : List Repo) :
    List Repo × Nat :=
  let st := incoming.foldl mergeStep (indexExisting existing, 0)
  (((iter st.1).map (fun e => e.2)).insertionSort notOlder, st.2)

/-- The last entry of a list that has a given full name. -/
def lastNamed (repos : List Repo) (fullName : Str) : Option Repo :=
  (repos.filter (fun repo => decide (repo.fullName = fullName))).getLast?

/-- A repository with a full name, a creation time and a description. -/
def mkRepo (fullName : Str) (createdAt : Int) (description : Str) : Repo :=
  { name := [], fullName := fullName, url := [], sshURL := [], size := 0,
    createdAt := createdAt, isPrivate := false, defaultBranch := [], updatedAt := 0,
    description := description, language := [], stargazersCount := 0 }

/-- The cached repositories of the example. -/
def cachedRepos : List Repo :=
  [mkRepo "acme/old".toList 2023 "old".toList, mkRepo "acme/shared".toList 2024 "existing".toList]

/-- The fetched repositories of the example. -/
def fetchedRepos : List Repo :=
  [mkRepo "acme/new".toList 2025 "new".toList, mkRepo "acme/shared".toList 2024 "updated".toList]

/-! ## Fetching repositories page by page -/

/-- What the fetch loops read of an HTTP response: the status code, the text of
the body, the outcome of decoding the body as a list of repositories, and the
`Link` header. -/
structure Response where
  status : Nat
  body : Str
  repos : Except GoError (List Repo)
  link : Str

/-- The HTTP side of the GitHub client: `http.NewRequest` may refuse a URL, and
`client.Do` answers a request for a URL with an error or a response. -/
structure Http where
  newRequest : Str → Option GoError
  send : Str → Except GoError Response

/-- The marker of the link to the next page. -/
def relNext : Str := "rel=\"next\"".toList

/-- The function `strings.Trim`: the characters of the cut set are removed from
both ends. -/
def trimCutset (s cutset : Str) : Str :=
  ((s.dropWhile (fun c => decide (c ∈ cutset))).reverse.dropWhile
    (fun c => decide (c ∈ cutset))).reverse

/-- The loop of `extractNextURL` over the links of the header. -/
def nextIn : List Str → Str
  | [] => []
  | link :: rest =>
    if containsStr link relNext then
      match splitOnSep ';' link with
      | first :: _ => trimCutset (trimSpace first) "<>".toList
      | [] => nextIn rest
    else nextIn rest

/-- The function `extractNextURL` of `internal/github/api.go`. -/
def extractNextURL (linkHeader : Str) : Str :=
  if linkHeader = [] then [] else nextIn (splitOnSep ',' linkHeader)

/-- The error for a status other than 200. -/
def apiError (resp : Response) : GoError :=
  .plain ("API error (".toList ++ Nat.toDigits 10 resp.status ++ "): ".toList ++ resp.body)

/-- The method `fetchAllRepos`. The Go loop has no bound; the model runs at most
`fuel` requests and has no result when that is not enough. The second
component lists the URLs sent to `client.Do`. -/
def fetchAllRepos (H : Http) : Nat → Str → List Repo → List Str →
    Option (Except GoError (List Repo) × List Str)
  | fuel, url, allRepos, sent =>
    if url = [] then some (.ok allRepos, sent)
    else
      match fuel with
      | 0 => none
      | fuel + 1 =>
        match H.newRequest url with
        | some err => some (.error (errorfW "failed to create request: ".toList err), sent)
        | none =>
          match H.send url with
          | .error err =>
            some (.error (errorfW "failed to fetch repos: ".toList err), sent ++ [url])
          | .ok resp =>
            if resp.status ≠ 200 then some (.error (apiError resp), sent ++ [url])
            else
              match resp.repos with
              | .error err =>
                some (.error (errorfW "failed to decode response: ".toList err), sent ++ [url])
              | .ok repos =>
                fetchAllRepos H fuel (extractNextURL resp.link) (allRepos ++ repos)
                  (sent ++ [url])

/-- The inner loop of `fetchReposCreatedAfter` over the repositories of one
page: the list collected so far and the flag `stop`. -/
def scanPage (createdAfter : Int) : List Repo → List Repo → List Repo × Bool
  | allRepos, [] => (allRepos, false)
  | allRepos, repo :: rest =>
    if ¬ createdAfter < repo.createdAt then (allRepos, true)
    else scanPage createdAfter (allRepos ++ [repo]) rest

/-- The loop of `fetchReposCreatedAfter`, with fuel like `fetchAllRepos`. -/
def fetchNewer (H : Http) (createdAfter : Int) : Nat → Str → List Repo → List Str →
    Option (Except GoError (List Repo) × List Str)
  | fuel, url, allRepos, sent =>
    if url = [] then some (.ok allRepos, sent)
    else
      match fuel with
      | 0 => none
      | fuel + 1 =>
        match H.newRequest url with
        | some err => some (.error (errorfW "failed to create request: ".toList err), sent)
        | none =>
          match H.send url with
          | .error err =>
            some (.error (errorfW "failed to fetch repos: ".toList err), sent ++ [url])
          | .ok resp =>
            if resp.status ≠ 200 then some (.error (apiError resp), sent ++ [url])
            else
              match resp.repos with
              | .error err =>
                some (.error (errorfW "failed to decode response: ".toList err), sent ++ [url])
              | .ok repos =>
                if (scanPage createdAfter allRepos repos).2 then
                  some (.ok (scanPage createdAfter allRepos repos).1, sent ++ [url])
                else
                  fetchNewer H createdAfter fuel (extractNextURL resp.link)
                    (scanPage createdAfter allRepos repos).1 (sent ++ [url])

/-- The method `fetchReposCreatedAfter` of `internal/github/api.go`: the result
and the URLs requested, or nothing when `fuel` requests do not end the loop. -/
def fetchReposCreatedAfter (H : Http) (fuel : Nat) (url : Str) (createdAfter : Int) :
    Option (Except GoError (List Repo) × List Str) :=
  if createdAfter = 0 then fetchAllRepos H fuel url [] []
  else fetchNewer H createdAfter fuel url [] []

/-- One page of results: its URL, its repositories and its `Link` header. -/
structure Page where
  url : Str
  repos : List Repo
  link : Str

/-- The server holds a sequence of pages from a URL on: every page is answered
with status 200 and its repositories, the `Link` header of a page leads to the
next page, and the header of the last page leads nowhere. -/
def servesPages (H : Http) : Str → List Page → Prop
  | url, [] => url = []
  | url, page :: rest =>
    url ≠ [] ∧ page.url = url ∧ H.newRequest url = none ∧
      (∃ body, H.send url = .ok ⟨200, body, .ok page.repos, page.link⟩) ∧
      servesPages H (extractNextURL page.link) rest

/-- The pages up to and including the first one that holds a repository not
created after the cutoff. -/
def pagesUntilOlder (cutoff : Int) : List Page → List Page
  | [] => []
  | page :: rest =>
    if page.repos.all (fun repo => decide (cutoff < repo.createdAt)) then
      page :: pagesUntilOlder cutoff rest
    else [page]

/-- The first page of the example: a newer and an older repository, and a link
to the second page. -/
def pageOne : Page :=
  { url := "https://api.github.com/repos?page=1".toList
    repos := [mkRepo "acme/new".toList 2025 [], mkRepo "acme/old".toList 2023 []]
    link := "<https://api.github.com/repos?page=2>; rel=\"next\"".toList }

/-- The second page of the example. -/
def pageTwo : Page :=
  { url := "https://api.github.com/repos?page=2".toList
    repos := [mkRepo "acme/older".toList 2020 []]
    link := [] }

/-- The server of the example: the two pages, and 404 for anything else. -/
def pagedHttp : Http :=
  { newRequest := fun _ => none
    send := fun url =>
      if url = pageOne.url then .ok ⟨200, [], .ok pageOne.repos, pageOne.link⟩
      else if url = pageTwo.url then .ok ⟨200, [], .ok pageTwo.repos, pageTwo.link⟩
      else .ok ⟨404, "404 page not found\n".toList, .error (.plain "EOF".toList), []⟩ }

/-! ## `ListWorktrees` -/

/-- The call `strings.SplitN(s, " ", 2)`. -/
def splitAtSpace (s : Str) : List Str :=
  match s.dropWhile (fun c => decide (c ≠ ' ')) with
  | [] => [s]
  | _ :: rest => [s.takeWhile (fun c => decide (c ≠ ' ')), rest]

/-- The two steps `filepath.Clean` and `filepath.Abs` of `ListWorktrees`: the
cleaned path is kept when `filepath.Abs` fails. -/
def cleanAbs {σ : Type} (S : Sys σ) (s : σ) (path : Str) : Str :=
  match absPath S s (clean path) with
  | .ok a => a
  | .error _ => clean path

/-- The name `appendIfWorktree` gives a cleaned path before it trims it: the
path relative to the root for a path under the root, the last element
otherwise. -/
def rawWorktreeName (repoPath cleanPath : Str) : Str :=
  if hasPrefix cleanPath (repoPath ++ sepStr) then trimPrefix cleanPath (repoPath ++ sepStr)
  else base cleanPath

/-- The name under which the closure `appendIfWorktree` reports a listed path,
or nothing when it returns before it looks the name up in `seen`. -/
def worktreeName {σ : Type} (S : Sys σ) (s : σ) (repoPath metadataPath p : Str) : Option Str :=
  if p = [] then none
  else if cleanAbs S s (trimSpace p) = repoPath ∨ cleanAbs S s (trimSpace p) = metadataPath then
    none
  else if trimSpace (rawWorktreeName repoPath (cleanAbs S s (trimSpace p))) = [] ∨
      trimSpace (rawWorktreeName repoPath (cleanAbs S s (trimSpace p))) = dotGit then none
  else some (trimSpace (rawWorktreeName repoPath (cleanAbs S s (trimSpace p))))

/-- The closure `appendIfWorktree`; the key set of the map `seen` is the set of
the names collected so far. -/
def appendIfWorktree {σ : Type} (S : Sys σ) (s : σ) (repoPath metadataPath : Str)
    (worktrees : List Str) (p : Str) : List Str :=
  match worktreeName S s repoPath metadataPath p with
  | none => worktrees
  | some name => if name ∈ worktrees then worktrees else worktrees ++ [name]

/-- The body of the loop of `ListWorktrees` over the lines, on the names
collected so far and `currentPath`. -/
def listStep {σ : Type} (S : Sys σ) (s : σ) (repoPath metadataPath : Str)
    (st : List Str × Str) (line : Str) : List Str × Str :=
  if line = [] then (appendIfWorktree S s repoPath metadataPath st.1 st.2, [])
  else if hasPrefix line worktreeMarker then
    match splitAtSpace line with
    | [_, path] => (st.1, path)
    | _ => st
  else st

/-- The lines 59 to 117 of `ListWorktrees`: the names read from a listing. -/
def worktreesOf {σ : Type} (S : Sys σ) (s : σ) (path output : Str) : List Str :=
  appendIfWorktree S s (cleanAbs S s path) (join [cleanAbs S s path, dotGit])
    ((splitLines output).foldl
      (listStep S s (cleanAbs S s path) (join [cleanAbs S s path, dotGit])) ([], [])).1
    ((splitLines output).foldl
      (listStep S s (cleanAbs S s path) (join [cleanAbs S s path, dotGit])) ([], [])).2

/-- The method `ListWorktrees`. -/
def listWorktrees {σ : Type} (S : Sys σ) (p : Proc σ) (path : Str) :
    Except GoError (List Str) × Proc σ :=
  match (runGit S p path worktreeListArgs).1.err with
  | some e => (.error e, (runGit S p path worktreeListArgs).2)
  | none =>
    (.ok (worktreesOf S (runGit S p path worktreeListArgs).2.state path
      (runGit S p path worktreeListArgs).1.output), (runGit S p path worktreeListArgs).2)

/-- The lines of a porcelain listing: for every entry the line `worktree <path>`,
the attribute lines of the entry and an empty line. -/
def entryLines (entries : List (Str × List Str)) : List Str :=
  entries.flatMap (fun e => (worktreeMarker ++ e.1) :: (e.2 ++ [[]]))

/-- A repository at `/w/repo` with worktrees inside and outside the root. -/
def nestedStore : GitStore :=
  { cwd := "/w".toList, bare := "/w/repo/.git".toList
    worktrees := ["/w/repo/main".toList, "/w/repo/feature/x".toList, "/elsewhere/y".toList,
      "/w/repo/main".toList] }

/-- The entries of the listing that the small git prints for `nestedStore`. -/
def nestedEntries : List (Str × List Str) :=
  ("/w/repo/.git".toList, ["bare".toList]) ::
    nestedStore.worktrees.map (fun p =>
      (p, ["HEAD 4b825dc642cb6eb9a060e54bf8d69288fbee4904".toList, "detached".toList]))

/-! ## Example worlds -/

/-- A working copy: one tracked file and the metadata directory. -/
def demoRepo : Node :=
  .dir [("README.md".toList, .file "hello\n".toList),
        (".git".toList, .dir [("HEAD".toList, .file "ref: refs/heads/main\n".toList)])]

/-- A file system with the working copy at `/w/repo`. -/
def demoFs : Node := .dir [("w".toList, .dir [("repo".toList, demoRepo)])]

/-- A process running in `/w` that has not called git yet. -/
def demoWorld : World := ⟨"/w".toList, demoFs, []⟩

/-- The bare repository a successful clone writes. -/
def demoBare : Node :=
  .dir [("HEAD".toList, .file "ref: refs/heads/main\n".toList), ("objects".toList, .dir [])]

/-- An environment in which every step succeeds and `os.MkdirTemp` draws `123`. -/
def demoOracle : Oracle :=
  { rands := ["123".toList], mkdirTempErr := none, removeTempErr := none,
    clone := .ok demoBare, cloneOutput := [], readDirErr := none,
    removeAllErr := fun _ => none, renameErr := none, cleanupErr := none }

/-- An environment in which `git clone --bare` fails, leaving an empty
directory at the destination. -/
def cloneFailOracle : Oracle :=
  { demoOracle with
    clone := .error (.plain "exit status 128".toList, some (.dir [])),
    cloneOutput := "fatal: clone failed\n".toList }

/-- An environment in which `git clone --bare` fails, leaving a partial
repository at the destination, and the deferred `os.RemoveAll` fails too. -/
def cleanupFailOracle : Oracle :=
  { demoOracle with
    clone := .error (.plain "exit status 128".toList,
      some (.dir [("objects".toList, .dir [])])),
    cloneOutput := "fatal: clone failed\n".toList,
    cleanupErr := some (.plain
      "unlinkat /w/.repo.bare-123/objects: operation not permitted".toList) }

/-- The example world once `/w/.repo.bare-123` has been created. -/
def demoReserved : World :=
  { demoWorld with
    fs := .dir [("w".toList, .dir [("repo".toList, demoRepo),
                                   (".repo.bare-123".toList, .dir [])])] }

/-- The example world once the clone has been staged at `/w/.repo.bare-123`. -/
def demoStaged : World :=
  { cwd := "/w".toList,
    fs := .dir [("w".toList, .dir [("repo".toList, demoRepo),
                                   (".repo.bare-123".toList, demoBare)])],
    calls := [["clone".toList, "--bare".toList, "/w/repo".toList,
      "/w/.repo.bare-123".toList]] }

/-- The example world once the root has been emptied. -/
def demoEmptied : World :=
  { demoStaged with
    fs := .dir [("w".toList, .dir [("repo".toList, .dir []),
                                   (".repo.bare-123".toList, demoBare)])] }

/-- The example world after a successful conversion. -/
def demoConverted : World :=
  { demoStaged with
    fs := .dir [("w".toList, .dir [("repo".toList, .dir [(".git".toList, demoBare)])])] }

/-- An environment in which removing `/w/repo/README.md` fails. -/
def removeFailOracle : Oracle :=
  { demoOracle with
    removeAllErr := fun p =>
      if p = "/w/repo/README.md".toList then
        some (.plain "unlinkat /w/repo/README.md: operation not permitted".toList)
      else none }

/-- An environment in which the final rename fails. -/
def renameFailOracle : Oracle :=
  { demoOracle with
    renameErr :=
      some (.plain "rename /w/.repo.bare-123 /w/repo/.git: permission denied".toList) }

/-- A process running inside the working copy. -/
def demoWorldInside : World := ⟨"/w/repo".toList, demoFs, []⟩

/-! # Theorems -/

/-! ## Directory entries -/

theorem lookupEntry_none_delEntry (es : List (Str × Node)) (c : Str)
    (h : lookupEntry es c = none) : delEntry es c = es := by
  induction es with
  | nil => rfl
  | cons e es ih =>
    obtain ⟨k, v⟩ := e
    by_cases hk : k = c
    · simp [lookupEntry, hk] at h
    · simp only [lookupEntry, hk, if_false] at h
      simp [delEntry, hk, ih h]

theorem lookupEntry_none_updEntry (es : List (Str × Node)) (c : Str) (f : Node → Node)
    (h : lookupEntry es c = none) : updEntry es c f = es := by
  induction es with
  | nil => rfl
  | cons e es ih =>
    obtain ⟨k, v⟩ := e
    by_cases hk : k = c
    · simp [lookupEntry, hk] at h
    · simp only [lookupEntry, hk, if_false] at h
      simp [updEntry, hk, ih h]

theorem updEntry_fixed (es : List (Str × Node)) (c : Str) (f : Node → Node) (ch : Node)
    (h : lookupEntry es c = some ch) (hf : f ch = ch) : updEntry es c f = es := by
  induction es with
  | nil => rfl
  | cons e es ih =>
    obtain ⟨k, v⟩ := e
    by_cases hk : k = c
    · simp only [lookupEntry, hk, if_true, Option.some.injEq] at h
      simp [updEntry, hk, h, hf]
    · simp only [lookupEntry, hk, if_false] at h
      simp [updEntry, hk, ih h]

theorem delEntry_setEntry (es : List (Str × Node)) (c : Str) (x : Node)
    (h : lookupEntry es c = none) : delEntry (setEntry es c x) c = es := by
  induction es with
  | nil => simp [setEntry, delEntry]
  | cons e es ih =>
    obtain ⟨k, v⟩ := e
    by_cases hk : k = c
    · simp [lookupEntry, hk] at h
    · simp only [lookupEntry, hk, if_false] at h
      simp [setEntry, delEntry, hk, ih h]

theorem updEntry_setEntry (es : List (Str × Node)) (c : Str) (x : Node) (f : Node → Node) :
    updEntry (setEntry es c x) c f = setEntry es c (f x) := by
  induction es with
  | nil => simp [setEntry, updEntry]
  | cons e es ih =>
    obtain ⟨k, v⟩ := e
    by_cases hk : k = c
    · simp [setEntry, updEntry, hk]
    · simp [setEntry, updEntry, hk, ih]

theorem setEntry_same (es : List (Str × Node)) (c : Str) (ch : Node)
    (h : lookupEntry es c = some ch) : setEntry es c ch = es := by
  induction es with
  | nil => simp [lookupEntry] at h
  | cons e es ih =>
    obtain ⟨k, v⟩ := e
    by_cases hk : k = c
    · simp only [lookupEntry, hk, if_true, Option.some.injEq] at h
      simp [setEntry, hk, h]
    · simp only [lookupEntry, hk, if_false] at h
      simp [setEntry, hk, ih h]

theorem lookupEntry_setEntry_self (es : List (Str × Node)) (c : Str) (x : Node) :
    lookupEntry (setEntry es c x) c = some x := by
  induction es with
  | nil => simp [setEntry, lookupEntry]
  | cons e es ih =>
    obtain ⟨k, v⟩ := e
    by_cases hk : k = c
    · simp [setEntry, lookupEntry, hk]
    · simp [setEntry, lookupEntry, hk, ih]

theorem lookupEntry_setEntry_ne (es : List (Str × Node)) (c d : Str) (x : Node) (hd : d ≠ c) :
    lookupEntry (setEntry es c x) d = lookupEntry es d := by
  induction es with
  | nil => simp [setEntry, lookupEntry, Ne.symm hd]
  | cons e es ih =>
    obtain ⟨k, v⟩ := e
    by_cases hk : k = c
    · subst hk
      simp [setEntry, lookupEntry, Ne.symm hd]
    · by_cases hkd : k = d
      · subst hkd
        simp [setEntry, lookupEntry, hk]
      · simp [setEntry, lookupEntry, hk, hkd, ih]

/-! ## The directory tree -/

theorem Node.get_nil (n : Node) : n.get [] = some n := by
  simp [Node.get, Node.stat]

theorem Node.get_file_cons (s : Str) (c : Str) (cs : List Str) :
    (Node.file s).get (c :: cs) = none := by
  simp [Node.get, Node.stat]

theorem Node.get_dir_cons (es : List (Str × Node)) (c : Str) (cs : List Str) :
    (Node.dir es).get (c :: cs) = (lookupEntry es c).bind (fun ch => ch.get cs) := by
  simp only [Node.get, Node.stat]
  cases lookupEntry es c <;> simp

/-- Removing a path that names nothing changes nothing. -/
theorem Node.del_absent (p : List Str) (n : Node) (h : n.get p = none) : n.del p = n := by
  induction p generalizing n with
  | nil => simp [Node.get_nil] at h
  | cons c cs ih =>
    cases n with
    | file s => simp [Node.del]
    | dir es =>
      rw [Node.get_dir_cons] at h
      cases cs with
      | nil =>
        cases hl : lookupEntry es c with
        | none => simp [Node.del, lookupEntry_none_delEntry es c hl]
        | some ch => simp [hl, Node.get_nil] at h
      | cons d ds =>
        cases hl : lookupEntry es c with
        | none => simp [Node.del, lookupEntry_none_updEntry es c _ hl]
        | some ch =>
          simp only [hl, Option.some_bind] at h
          have hfix := updEntry_fixed es c (fun ch => ch.del (d :: ds)) ch hl (ih ch h)
          simp [Node.del, hfix]

/-- Creating an object at a free path and removing it again restores the tree. -/
theorem Node.del_put (p : List Str) (n n' x : Node) (h : n.get p = none)
    (hp : n.put p x = some n') : n'.del p = n := by
  induction p generalizing n n' with
  | nil => simp [Node.get_nil] at h
  | cons c cs ih =>
    cases n with
    | file s => simp [Node.put] at hp
    | dir es =>
      rw [Node.get_dir_cons] at h
      cases cs with
      | nil =>
        simp only [Node.put, Option.some.injEq] at hp
        subst hp
        cases hl : lookupEntry es c with
        | none => simp [Node.del, delEntry_setEntry es c x hl]
        | some ch => simp [hl, Node.get_nil] at h
      | cons d ds =>
        cases hl : lookupEntry es c with
        | none => simp [Node.put, hl] at hp
        | some ch =>
          simp only [hl, Option.some_bind] at h
          cases hq : ch.put (d :: ds) x with
          | none => simp [Node.put, hl, hq] at hp
          | some ch' =>
            simp only [Node.put, hl, hq, Option.some.injEq] at hp
            subst hp
            simp [Node.del, updEntry_setEntry, ih ch ch' h hq, setEntry_same es c ch hl]

/-- After a successful `put` the object is at its path. -/
theorem Node.get_put (p : List Str) (n n' x : Node) (hp : n.put p x = some n') :
    n'.get p = some x := by
  induction p generalizing n n' with
  | nil => simp [Node.put] at hp
  | cons c cs ih =>
    cases n with
    | file s => simp [Node.put] at hp
    | dir es =>
      cases cs with
      | nil =>
        simp only [Node.put, Option.some.injEq] at hp
        subst hp
        simp [Node.get_dir_cons, lookupEntry_setEntry_self, Node.get_nil]
      | cons d ds =>
        cases hl : lookupEntry es c with
        | none => simp [Node.put, hl] at hp
        | some ch =>
          cases hq : ch.put (d :: ds) x with
          | none => simp [Node.put, hl, hq] at hp
          | some ch' =>
            simp only [Node.put, hl, hq, Option.some.injEq] at hp
            subst hp
            simp [Node.get_dir_cons, lookupEntry_setEntry_self, ih ch ch' hq]

/-! ## Reserving the temporary name -/

theorem Node.mkdir_ok (n n' : Node) (p : List Str) (h : n.mkdir p = .ok n') :
    n.get p = none ∧ n.put p (.dir []) = some n' := by
  unfold Node.mkdir at h
  cases hs : n.stat p with
  | ok x => simp [hs] at h
  | error e =>
    cases hq : n.put p (.dir []) with
    | none => cases e <;> simp [hs, hq] at h
    | some m =>
      cases e <;> simp [hs, hq] at h
      all_goals exact ⟨by simp [Node.get, hs], by rw [h]⟩

theorem mkdirTempTry_ok (cwd : Str) (fs fs' : Node) (pre suf name : Str) (rs : List Str)
    (h : mkdirTempTry cwd fs pre suf rs = .ok (name, fs')) :
    fs.get (resolve cwd name) = none ∧ fs.put (resolve cwd name) (.dir []) = some fs' := by
  induction rs with
  | nil => simp [mkdirTempTry] at h
  | cons r rs ih =>
    unfold mkdirTempTry at h
    cases hm : fs.mkdir (resolve cwd (pre ++ r ++ suf)) with
    | ok m =>
      rw [hm] at h
      simp only [Except.ok.injEq, Prod.mk.injEq] at h
      obtain ⟨h1, h2⟩ := h
      subst h1 h2
      exact Node.mkdir_ok _ _ _ hm
    | error e =>
      rw [hm] at h
      cases e <;> simp at h
      exact ih h

/-- A successful reservation creates an empty directory at a free path and
touches nothing else. -/
theorem reserveTemp_ok (o : Oracle) (w w1 : World) (path temp : Str)
    (h : reserveTemp o w path = .ok (temp, w1)) :
    w1.cwd = w.cwd ∧ w1.calls = w.calls ∧ w.fs.get (resolve w.cwd temp) = none ∧
      w.fs.put (resolve w.cwd temp) (.dir []) = some w1.fs := by
  unfold reserveTemp mkdirTemp at h
  generalize (['.'] ++ base path ++ ".bare-*".toList) = pat at h
  cases hf : o.mkdirTempErr with
  | some e => simp [hf] at h
  | none =>
    rw [hf] at h
    cases hps : prefixAndSuffix pat with
    | error e => rw [hps] at h; simp at h
    | ok ps =>
      obtain ⟨pre, suf⟩ := ps
      rw [hps] at h
      cases ht : mkdirTempTry w.cwd w.fs (joinPath (dir path) pre) suf o.rands with
      | error e => simp [ht] at h
      | ok r =>
        obtain ⟨name, fs'⟩ := r
        simp only [ht, Except.ok.injEq, Prod.mk.injEq] at h
        obtain ⟨h1, h2⟩ := h
        subst h1 h2
        have := mkdirTempTry_ok _ _ _ _ _ _ _ ht
        exact ⟨rfl, rfl, this.1, this.2⟩

theorem osRemove_ok (fault : Option GoError) (w w' : World) (path : Str)
    (h : osRemove fault w path = .ok w') :
    w' = { w with fs := w.fs.del (resolve w.cwd path) } := by
  unfold osRemove at h
  cases fault with
  | some e => simp at h
  | none =>
    cases hs : statPath w path with
    | error e => simp [hs] at h
    | ok x =>
      cases x with
      | file c => simp [hs] at h; exact h.symm
      | dir es =>
        cases es with
        | nil => simp [hs] at h; exact h.symm
        | cons e es => simp [hs] at h

/-- Reserving the name and removing the directory again leaves the file system as it was. -/
theorem reserve_remove_fs (o : Oracle) (w w1 w2 : World) (path temp : Str)
    (h1 : reserveTemp o w path = .ok (temp, w1))
    (h2 : osRemove o.removeTempErr w1 temp = .ok w2) :
    w2 = w := by
  obtain ⟨hc, hcalls, hfree, hput⟩ := reserveTemp_ok o w w1 path temp h1
  have := osRemove_ok _ _ _ _ h2
  rw [this, hc]
  have hd := Node.del_put _ _ _ _ hfree hput
  cases w
  cases w1
  simp_all

/-! ## C1: a failed bare clone leaves the root untouched -/

theorem isNotExist_of_pathExists (w : World) (path : Str) (h : pathExists w path = true) :
    isNotExist (statPath w path) = false := by
  unfold pathExists at h
  cases hs : statPath w path with
  | ok x => rfl
  | error e => simp [hs] at h

/-- A failed clone keeps the working directory, records its command line, and
leaves the file system as it was except possibly for junk at the destination. -/
theorem gitCloneBare_error (o : Oracle) (w w' : World) (src dst : Str) (e : GoError)
    (h : gitCloneBare o w src dst = .error (e, w')) :
    w'.cwd = w.cwd ∧
      w'.calls = w.calls ++ [["clone".toList, "--bare".toList, src, dst]] ∧
      (w'.fs = w.fs ∨ ∃ junk, w.fs.put (resolve w.cwd dst) junk = some w'.fs) := by
  unfold gitCloneBare at h
  cases hc : o.clone with
  | error r =>
    obtain ⟨e', junk⟩ := r
    rw [hc] at h
    cases junk with
    | none =>
      simp only [Except.error.injEq, Prod.mk.injEq] at h
      obtain ⟨-, h2⟩ := h
      subst h2
      exact ⟨rfl, rfl, Or.inl rfl⟩
    | some j =>
      simp only at h
      cases hp : w.fs.put (resolve w.cwd dst) j with
      | none =>
        rw [hp] at h
        simp only [Except.error.injEq, Prod.mk.injEq] at h
        obtain ⟨-, h2⟩ := h
        subst h2
        exact ⟨rfl, rfl, Or.inl rfl⟩
      | some fs' =>
        rw [hp] at h
        simp only [Except.error.injEq, Prod.mk.injEq] at h
        obtain ⟨-, h2⟩ := h
        subst h2
        exact ⟨rfl, rfl, Or.inr ⟨j, hp⟩⟩
  | ok bare =>
    rw [hc] at h
    simp only at h
    split at h
    · simp at h
    · simp only [Except.error.injEq, Prod.mk.injEq] at h
      obtain ⟨-, h2⟩ := h
      subst h2
      exact ⟨rfl, rfl, Or.inl rfl⟩

/-- C1, the counterexample. At `/w/repo` the clone fails after it has written a
partial repository to `/w/.repo.bare-123`, and the `os.RemoveAll` of the
deferred cleanup fails as well; the source discards that error. `ConvertToBare`
returns the clone error, the root still holds its `.git`, and the temporary
path, which did not exist before the call, exists afterwards. -/
theorem convertToBare_failed_cleanup_leaves_temp :
    pathExists demoWorld "/w/repo/.git".toList = true ∧
      pathExists demoWorld "/w/.repo.bare-123".toList = false ∧
      (convertToBare cleanupFailOracle demoWorld "/w/repo".toList).1
        = some (errorfWOut "failed to create bare clone: ".toList
            (.plain "exit status 128".toList) "fatal: clone failed\n".toList) ∧
      pathExists (convertToBare cleanupFailOracle demoWorld "/w/repo".toList).2
        "/w/repo/.git/HEAD".toList = true ∧
      pathExists (convertToBare cleanupFailOracle demoWorld "/w/repo".toList).2
        "/w/.repo.bare-123".toList = true := by
  decide

/-- C1, amended. For every existing root with a `.git` entry: when the temporary
name has been reserved and the `git clone --bare` staging step fails,
`ConvertToBare` returns the clone error with git's output, the only command
run is the clone, and the file system differs from the one before the call at
most at the temporary path (so no entry under the root was removed or
changed). When the deferred `os.RemoveAll` succeeds, or the failed clone left
nothing behind, the file system is exactly what it was before the call and the
temporary path does not exist. -/
theorem convertToBare_clone_failure_atomic (o : Oracle) (w w1 w2 w3 : World)
    (path temp : Str) (e : GoError)
    (hroot : pathExists w path = true)
    (hgit : pathExists w (join [path, ".git".toList]) = true)
    (hres : reserveTemp o w path = .ok (temp, w1))
    (hrm : osRemove o.removeTempErr w1 temp = .ok w2)
    (hclone : gitCloneBare o w2 path temp = .error (e, w3)) :
    (convertToBare o w path).1
        = some (errorfWOut "failed to create bare clone: ".toList e o.cloneOutput) ∧
      (convertToBare o w path).2.calls
        = w.calls ++ [["clone".toList, "--bare".toList, path, temp]] ∧
      (convertToBare o w path).2.cwd = w.cwd ∧
      (convertToBare o w path).2.fs.del (resolve w.cwd temp) = w.fs ∧
      ((o.cleanupErr = none ∨ w3.fs = w.fs) →
        (convertToBare o w path).2.fs = w.fs ∧
          pathExists (convertToBare o w path).2 temp = false) := by
  have hw2 : w2 = w := reserve_remove_fs o w w1 w2 path temp hres hrm
  subst hw2
  obtain ⟨-, -, hfree, -⟩ := reserveTemp_ok o w2 w1 path temp hres
  obtain ⟨hcwd, hcalls, hfs⟩ := gitCloneBare_error o w2 w3 path temp e hclone
  have hrun : convertToBare o w2 path
      = (some (errorfWOut "failed to create bare clone: ".toList e o.cloneOutput),
          cleanupTempDir o w3 temp) := by
    unfold convertToBare
    rw [isNotExist_of_pathExists w2 path hroot]
    simp only [Bool.false_eq_true, if_false]
    rw [isNotExist_of_pathExists w2 _ hgit]
    simp only [Bool.false_eq_true, if_false]
    rw [hres]
    simp only
    rw [hrm]
    simp only [convertStaged]
    rw [hclone]
    rfl
  have hdel : w3.fs.del (resolve w2.cwd temp) = w2.fs := by
    rcases hfs with h | ⟨junk, h⟩
    · rw [h]
      exact Node.del_absent _ _ hfree
    · exact Node.del_put _ _ _ _ hfree h
  have hgone : ∀ v : World, v.cwd = w2.cwd → v.fs = w2.fs → pathExists v temp = false := by
    intro v hv1 hv2
    simp only [pathExists, statPath, hv1, hv2]
    by_cases ht : temp = []
    · simp [ht]
    · simp only [ht, if_false]
      unfold Node.get at hfree
      cases hs : w2.fs.stat (resolve w2.cwd temp) with
      | ok x => simp [hs] at hfree
      | error e => rfl
  rw [hrun]
  cases hc : o.cleanupErr with
  | none =>
    have hw : cleanupTempDir o w3 temp = removeAll w3 temp := by
      simp only [cleanupTempDir, hc]
    have hfs' : (removeAll w3 temp).fs = w2.fs := by
      simp only [removeAll, hcwd, hdel]
    rw [hw]
    refine ⟨rfl, ?_, ?_, ?_, fun _ => ⟨hfs', hgone _ hcwd hfs'⟩⟩
    · simp [removeAll, hcalls]
    · exact hcwd
    · simp only
      rw [hfs']
      exact Node.del_absent _ _ hfree
  | some ce =>
    have hw : cleanupTempDir o w3 temp = w3 := by
      simp only [cleanupTempDir, hc]
    rw [hw]
    refine ⟨rfl, hcalls, hcwd, hdel, fun h => ?_⟩
    rcases h with h | h
    · cases h
    · exact ⟨h, hgone _ hcwd h⟩

/-- C1 amended, at `/w/repo`: with a clone that fails and leaves an empty
directory behind and a cleanup that succeeds, the file system is what it was
and the temporary path is gone; with a clone that leaves a partial repository
and a cleanup that fails, the file system differs only at the temporary
path. -/
theorem convertToBare_clone_failure_atomic_witness :
    ((convertToBare cloneFailOracle demoWorld "/w/repo".toList).1
        = some (errorfWOut "failed to create bare clone: ".toList
            (.plain "exit status 128".toList) "fatal: clone failed\n".toList) ∧
      (convertToBare cloneFailOracle demoWorld "/w/repo".toList).2.calls
        = demoWorld.calls ++
            [["clone".toList, "--bare".toList, "/w/repo".toList, "/w/.repo.bare-123".toList]] ∧
      (convertToBare cloneFailOracle demoWorld "/w/repo".toList).2.fs = demoWorld.fs ∧
      pathExists (convertToBare cloneFailOracle demoWorld "/w/repo".toList).2
        "/w/.repo.bare-123".toList = false) ∧
    ((convertToBare cleanupFailOracle demoWorld "/w/repo".toList).1
        = some (errorfWOut "failed to create bare clone: ".toList
            (.plain "exit status 128".toList) "fatal: clone failed\n".toList) ∧
      (convertToBare cleanupFailOracle demoWorld "/w/repo".toList).2.fs.del
          (resolve "/w".toList "/w/.repo.bare-123".toList) = demoWorld.fs) :=
  have h := convertToBare_clone_failure_atomic cloneFailOracle demoWorld demoReserved demoWorld
    { demoReserved with
      calls := [["clone".toList, "--bare".toList, "/w/repo".toList,
        "/w/.repo.bare-123".toList]] }
    "/w/repo".toList "/w/.repo.bare-123".toList (.plain "exit status 128".toList)
    (by decide) (by decide) (by rfl) (by rfl) (by rfl)
  have h' := convertToBare_clone_failure_atomic cleanupFailOracle demoWorld demoReserved
    demoWorld
    { demoWorld with
      fs := .dir [("w".toList, .dir [("repo".toList, demoRepo),
        (".repo.bare-123".toList, .dir [("objects".toList, .dir [])])])],
      calls := [["clone".toList, "--bare".toList, "/w/repo".toList,
        "/w/.repo.bare-123".toList]] }
    "/w/repo".toList "/w/.repo.bare-123".toList (.plain "exit status 128".toList)
    (by decide) (by decide) (by rfl) (by rfl) (by rfl)
  ⟨⟨h.1, h.2.1, (h.2.2.2.2 (Or.inl rfl)).1, (h.2.2.2.2 (Or.inl rfl)).2⟩,
    h'.1, h'.2.2.2.1⟩

/-! ## Splitting and cleaning -/

theorem splitOnSep_ne_nil (sep : Char) (s : Str) : splitOnSep sep s ≠ [] := by
  induction s with
  | nil => simp [splitOnSep]
  | cons c cs ih =>
    unfold splitOnSep
    by_cases h : c = sep
    · simp [h]
    · simp only [h, if_false]
      cases hs : splitOnSep sep cs <;> simp

theorem splitOnSep_append (sep : Char) (a b : Str) :
    splitOnSep sep (a ++ sep :: b) = splitOnSep sep a ++ splitOnSep sep b := by
  induction a with
  | nil => simp [splitOnSep]
  | cons c cs ih =>
    by_cases h : c = sep
    · simp [splitOnSep, h, ih]
    · simp only [List.cons_append, splitOnSep, h, if_false, List.append_eq]
      rw [ih]
      cases hs : splitOnSep sep cs with
      | nil => exact absurd hs (splitOnSep_ne_nil sep cs)
      | cons x xs => simp

theorem splitOnSep_of_not_mem (sep : Char) (s : Str) (h : sep ∉ s) :
    splitOnSep sep s = [s] := by
  induction s with
  | nil => rfl
  | cons c cs ih =>
    simp only [List.mem_cons, not_or] at h
    have hc : c ≠ sep := fun e => h.1 e.symm
    simp [splitOnSep, hc, ih h.2]

theorem splitOnSep_not_mem (sep : Char) (s : Str) :
    ∀ x ∈ splitOnSep sep s, sep ∉ x := by
  induction s with
  | nil => simp [splitOnSep]
  | cons c cs ih =>
    by_cases h : c = sep
    · simp only [splitOnSep, h, if_true, List.mem_cons]
      rintro x (rfl | hx)
      · simp
      · exact ih x hx
    · simp only [splitOnSep, h, if_false]
      cases hs : splitOnSep sep cs with
      | nil => exact absurd hs (splitOnSep_ne_nil sep cs)
      | cons y ys =>
        rw [hs] at ih
        simp only [List.mem_cons]
        rintro x (rfl | hx)
        · have := ih y (List.mem_cons_self _ _)
          simp only [List.mem_cons, not_or]
          exact ⟨fun e => h e.symm, this⟩
        · exact ih x (List.mem_cons_of_mem _ hx)

theorem splitOnSep_intercalate (sep : Char) (cs : List Str) (hne : cs ≠ [])
    (h : ∀ c ∈ cs, sep ∉ c) : splitOnSep sep ([sep].intercalate cs) = cs := by
  induction cs with
  | nil => exact absurd rfl hne
  | cons c rest ih =>
    cases rest with
    | nil =>
      simp [List.intercalate, splitOnSep_of_not_mem sep c (h c (List.mem_cons_self _ _))]
    | cons d ds =>
      have hrest : ∀ x ∈ d :: ds, sep ∉ x := fun x hx => h x (List.mem_cons_of_mem _ hx)
      have := ih (by simp) hrest
      have e : [sep].intercalate (c :: d :: ds) = c ++ sep :: [sep].intercalate (d :: ds) := by
        simp [List.intercalate]
      rw [e, splitOnSep_append, this,
        splitOnSep_of_not_mem sep c (h c (List.mem_cons_self _ _))]
      rfl

theorem isAbs_cons (c : Char) (t : Str) : isAbs (c :: t) = decide (c = '/') := by
  by_cases h : c = '/'
  · subst h
    simp [isAbs, hasPrefix, sepStr, List.isPrefixOf]
  · have h' : ¬ '/' = c := fun e => h e.symm
    simp [isAbs, hasPrefix, sepStr, List.isPrefixOf, h, h']

theorem isAbs_nil : isAbs [] = false := by
  simp [isAbs, hasPrefix, sepStr, List.isPrefixOf]

theorem validName_iff (c : Str) :
    validName c = true ↔ c ≠ [] ∧ c ≠ ['.'] ∧ c ≠ dotdot ∧ '/' ∉ c := by
  simp [validName, not_or, and_assoc]

theorem cleanStep_dotdot_nil (r : Bool) :
    cleanStep r [] dotdot = if r = true then [] else [dotdot] := by
  simp [cleanStep, dotdot]

theorem cleanStep_dotdot_cons (r : Bool) (top : Str) (rest : List Str) :
    cleanStep r (top :: rest) dotdot
      = if top = dotdot then dotdot :: top :: rest else rest := by
  simp [cleanStep, dotdot]

theorem cleanStep_valid (r : Bool) (st : List Str) (c : Str) (h : validName c = true) :
    cleanStep r st c = c :: st := by
  rw [validName_iff] at h
  simp [cleanStep, h.1, h.2.1, h.2.2.1]

theorem foldl_cleanStep_valid (r : Bool) (cs st : List Str)
    (h : ∀ c ∈ cs, validName c = true) :
    cs.foldl (cleanStep r) st = cs.reverse ++ st := by
  induction cs generalizing st with
  | nil => rfl
  | cons c cs ih =>
    simp only [List.foldl_cons, cleanStep_valid r st c (h c (List.mem_cons_self _ _))]
    rw [ih _ (fun x hx => h x (List.mem_cons_of_mem _ hx))]
    simp

/-- Elements kept by cleaning a rooted path name directory entries. -/
theorem cleanStep_true_valid (st : List Str) (c : Str) (hc : '/' ∉ c)
    (hst : ∀ x ∈ st, validName x = true) :
    ∀ x ∈ cleanStep true st c, validName x = true := by
  unfold cleanStep
  by_cases h1 : c = [] ∨ c = ['.']
  · simpa [h1] using hst
  · simp only [h1, if_false]
    by_cases h2 : c = dotdot
    · simp only [h2, if_true]
      cases st with
      | nil => simp
      | cons top rest =>
        have htop := hst top (List.mem_cons_self _ _)
        have : top ≠ dotdot := ((validName_iff top).1 htop).2.2.1
        simp only [this, if_false]
        exact fun x hx => hst x (List.mem_cons_of_mem _ hx)
    · simp only [h2, if_false, List.mem_cons]
      rintro x (rfl | hx)
      · rw [validName_iff]
        simp only [not_or] at h1
        exact ⟨h1.1, h1.2, h2, hc⟩
      · exact hst x hx

theorem foldl_cleanStep_true_valid (cs st : List Str) (hcs : ∀ c ∈ cs, '/' ∉ c)
    (hst : ∀ x ∈ st, validName x = true) :
    ∀ x ∈ cs.foldl (cleanStep true) st, validName x = true := by
  induction cs generalizing st with
  | nil => simpa using hst
  | cons c cs ih =>
    simp only [List.foldl_cons]
    exact ih _ (fun x hx => hcs x (List.mem_cons_of_mem _ hx))
      (cleanStep_true_valid st c (hcs c (List.mem_cons_self _ _)) hst)

/-- Elements kept by cleaning a relative path are `..` or name directory entries. -/
theorem cleanStep_false_valid (st : List Str) (c : Str) (hc : '/' ∉ c)
    (hst : ∀ x ∈ st, x = dotdot ∨ validName x = true) :
    ∀ x ∈ cleanStep false st c, x = dotdot ∨ validName x = true := by
  unfold cleanStep
  by_cases h1 : c = [] ∨ c = ['.']
  · simpa [h1] using hst
  · simp only [h1, if_false]
    by_cases h2 : c = dotdot
    · simp only [h2, if_true]
      cases st with
      | nil => simp
      | cons top rest =>
        by_cases ht : top = dotdot
        · simp only [ht, if_true, List.mem_cons]
          rintro x (rfl | rfl | hx)
          · exact Or.inl rfl
          · exact Or.inl rfl
          · exact hst x (List.mem_cons_of_mem _ hx)
        · simp only [ht, if_false]
          exact fun x hx => hst x (List.mem_cons_of_mem _ hx)
    · simp only [h2, if_false, List.mem_cons]
      rintro x (rfl | hx)
      · right
        rw [validName_iff]
        simp only [not_or] at h1
        exact ⟨h1.1, h1.2, h2, hc⟩
      · exact hst x hx

theorem foldl_cleanStep_false_valid (cs st : List Str) (hcs : ∀ c ∈ cs, '/' ∉ c)
    (hst : ∀ x ∈ st, x = dotdot ∨ validName x = true) :
    ∀ x ∈ cs.foldl (cleanStep false) st, x = dotdot ∨ validName x = true := by
  induction cs generalizing st with
  | nil => simpa using hst
  | cons c cs ih =>
    simp only [List.foldl_cons]
    exact ih _ (fun x hx => hcs x (List.mem_cons_of_mem _ hx))
      (cleanStep_false_valid st c (hcs c (List.mem_cons_self _ _)) hst)

/-- Resolving the cleaned form of a relative path against a directory gives
what resolving the path itself gives. -/
theorem foldl_cleanStep_relative (cs : List Str) (hcs : ∀ c ∈ cs, '/' ∉ c) (S : List Str) :
    (cs.foldl (cleanStep false) []).reverse.foldl (cleanStep true) S
      = cs.foldl (cleanStep true) S := by
  induction cs using List.reverseRecOn with
  | nil => rfl
  | append_singleton cs c ih =>
    have hcs' : ∀ x ∈ cs, '/' ∉ x := fun x hx => hcs x (List.mem_append_left _ hx)
    have hc : '/' ∉ c := hcs c (by simp)
    have ih' := ih hcs'
    have hinv := foldl_cleanStep_false_valid cs [] hcs' (by simp)
    simp only [List.foldl_append, List.foldl_cons, List.foldl_nil]
    rw [← ih']
    generalize cs.foldl (cleanStep false) [] = st at hinv ⊢
    by_cases h1 : c = [] ∨ c = ['.']
    · simp [cleanStep, h1]
    · by_cases h2 : c = dotdot
      · subst h2
        cases st with
        | nil => simp [cleanStep_dotdot_nil]
        | cons top rest =>
          by_cases ht : top = dotdot
          · rw [cleanStep_dotdot_cons, if_pos ht]
            simp [List.foldl_append]
          · rw [cleanStep_dotdot_cons, if_neg ht]
            have hv : validName top = true := by
              rcases hinv top (List.mem_cons_self _ _) with h | h
              · exact absurd h ht
              · exact h
            simp only [List.reverse_cons, List.foldl_append, List.foldl_cons, List.foldl_nil]
            rw [cleanStep_valid true _ top hv, cleanStep_dotdot_cons, if_neg ht]
      · have e : ∀ r st, cleanStep r st c = c :: st := by
          intro r st
          simp [cleanStep, h1, h2]
        rw [e, e]
        simp [List.foldl_append, e]

theorem intercalate_cons_head (c : Str) (rest : List Str) :
    ∃ tail, sepStr.intercalate (c :: rest) = c ++ tail := by
  cases rest with
  | nil => exact ⟨[], by simp [List.intercalate]⟩
  | cons d ds => exact ⟨'/' :: sepStr.intercalate (d :: ds), by simp [List.intercalate, sepStr]⟩

theorem cleanComponents_snoc_valid (cs : List Str) (name : Str) (h : validName name = true) :
    cleanComponents true (cs ++ [name]) = cleanComponents true cs ++ [name] := by
  simp [cleanComponents, List.foldl_append, cleanStep_valid true _ name h]

theorem cleanComponents_true_idem (cs : List Str) (hcs : ∀ c ∈ cs, '/' ∉ c) :
    cleanComponents true ([] :: cleanComponents true cs) = cleanComponents true cs := by
  have hv : ∀ x ∈ cleanComponents true cs, validName x = true := by
    intro x hx
    have := foldl_cleanStep_true_valid cs [] hcs (by simp) x
    exact this (by simpa [cleanComponents] using hx)
  have h1 : cleanStep true [] ([] : Str) = [] := by simp [cleanStep]
  unfold cleanComponents at hv ⊢
  rw [List.foldl_cons, h1, foldl_cleanStep_valid true _ [] hv]
  simp

/-- Cleaning a path does not change the object it names. -/
theorem resolve_clean (cwd s : Str) : resolve cwd (clean s) = resolve cwd s := by
  have hsplit := splitOnSep_not_mem '/' s
  cases habs : isAbs s with
  | true =>
    have e : clean s = '/' :: sepStr.intercalate (cleanComponents true (splitOnSep '/' s)) := by
      simp [clean, habs]
    have hv : ∀ x ∈ cleanComponents true (splitOnSep '/' s), validName x = true := by
      intro x hx
      exact foldl_cleanStep_true_valid _ [] hsplit (by simp) x
        (by simpa [cleanComponents] using hx)
    rw [e]
    simp only [resolve, isAbs_cons, decide_True, if_true, habs]
    cases hc : cleanComponents true (splitOnSep '/' s) with
    | nil => simp [List.intercalate, splitOnSep, cleanComponents, cleanStep]
    | cons c rest =>
      rw [← hc]
      have hsp : splitOnSep '/' ('/' :: sepStr.intercalate (cleanComponents true (splitOnSep '/' s)))
          = [] :: cleanComponents true (splitOnSep '/' s) := by
        have := splitOnSep_intercalate '/' (cleanComponents true (splitOnSep '/' s))
          (by rw [hc]; simp) (fun x hx => ((validName_iff x).1 (hv x hx)).2.2.2)
        simp only [splitOnSep, if_true]
        exact congrArg _ this
      rw [hsp]
      exact cleanComponents_true_idem _ hsplit
  | false =>
    have hinv : ∀ x ∈ cleanComponents false (splitOnSep '/' s), x = dotdot ∨ validName x = true := by
      intro x hx
      exact foldl_cleanStep_false_valid _ [] hsplit (by simp) x
        (by simpa [cleanComponents] using hx)
    have hrel := foldl_cleanStep_relative (splitOnSep '/' s) hsplit
      ((splitOnSep '/' cwd).foldl (cleanStep true) [])
    have hR : resolve cwd s
        = ((cleanComponents false (splitOnSep '/' s)).foldl (cleanStep true)
            ((splitOnSep '/' cwd).foldl (cleanStep true) [])).reverse := by
      simp only [resolve, habs, Bool.false_eq_true, if_false, cleanComponents, sepStr,
        List.append_assoc, List.singleton_append, splitOnSep_append, List.foldl_append]
      rw [hrel]
    rw [hR]
    cases hc : cleanComponents false (splitOnSep '/' s) with
    | nil =>
      have e : clean s = ['.'] := by simp [clean, habs, hc, List.intercalate]
      rw [e]
      simp [resolve, isAbs_cons, cleanComponents, sepStr, splitOnSep_append, List.foldl_append,
        splitOnSep, cleanStep]
    | cons c rest =>
      rw [← hc]
      have hcne : c ≠ [] ∧ '/' ∉ c := by
        rcases hinv c (by rw [hc]; exact List.mem_cons_self _ _) with h | h
        · subst h
          exact ⟨by decide, by decide⟩
        · exact ⟨((validName_iff c).1 h).1, ((validName_iff c).1 h).2.2.2⟩
      obtain ⟨tail, htail⟩ := intercalate_cons_head c rest
      obtain ⟨a, c', hc'⟩ : ∃ a c', c = a :: c' := by
        cases c with
        | nil => exact absurd rfl hcne.1
        | cons a c' => exact ⟨a, c', rfl⟩
      have ha : a ≠ '/' := by
        intro e
        apply hcne.2
        rw [hc', e]
        exact List.mem_cons_self _ _
      have hbody : sepStr.intercalate (cleanComponents false (splitOnSep '/' s))
          = a :: (c' ++ tail) := by
        rw [hc, htail, hc']
        rfl
      have e : clean s = sepStr.intercalate (cleanComponents false (splitOnSep '/' s)) := by
        simp [clean, habs, hbody]
      have hnoslash : ∀ x ∈ cleanComponents false (splitOnSep '/' s), '/' ∉ x := by
        intro x hx
        rcases hinv x hx with h | h
        · subst h
          decide
        · exact ((validName_iff x).1 h).2.2.2
      have hsp := splitOnSep_intercalate '/' (cleanComponents false (splitOnSep '/' s))
        (by rw [hc]; simp) hnoslash
      have habs2 : isAbs (clean s) = false := by
        rw [e, hbody, isAbs_cons]
        simp [ha]
      simp only [resolve, habs2, Bool.false_eq_true, if_false, cleanComponents, sepStr,
        List.append_assoc, List.singleton_append, splitOnSep_append, List.foldl_append]
      rw [e]
      simp only [cleanComponents] at hsp
      simp only [sepStr, cleanComponents]
      rw [hsp]

/-- The object `filepath.Join(path, name)` names is the entry `name` of the
directory `path` names. -/
theorem resolve_join (cwd path name : Str) (hp : path ≠ []) (hn : validName name = true) :
    resolve cwd (join [path, name]) = resolve cwd path ++ [name] := by
  have hj : join [path, name] = clean (path ++ '/' :: name) := by
    simp [join, hp, List.intercalate, sepStr]
  have hno : '/' ∉ name := ((validName_iff name).1 hn).2.2.2
  obtain ⟨a, p', rfl⟩ : ∃ a p', path = a :: p' := by
    cases path with
    | nil => exact absurd rfl hp
    | cons a p' => exact ⟨a, p', rfl⟩
  rw [hj, resolve_clean]
  by_cases ha : a = '/'
  · simp only [resolve, List.cons_append, isAbs_cons, ha, decide_True, if_true]
    rw [← List.cons_append, splitOnSep_append, splitOnSep_of_not_mem '/' name hno,
      cleanComponents_snoc_valid _ _ hn]
  · simp only [resolve, List.cons_append, isAbs_cons, ha, decide_False, Bool.false_eq_true,
      if_false]
    rw [← List.cons_append, ← List.append_assoc, splitOnSep_append,
      splitOnSep_of_not_mem '/' name hno, cleanComponents_snoc_valid _ _ hn]

/-! ## Frame properties of the directory tree -/

theorem lookupEntry_delEntry (es : List (Str × Node)) (c t : Str) :
    lookupEntry (delEntry es c) t = if t = c then none else lookupEntry es t := by
  induction es with
  | nil => simp [delEntry, lookupEntry]
  | cons e es ih =>
    obtain ⟨k, v⟩ := e
    by_cases hk : k = c
    · subst hk
      by_cases ht : t = k
      · subst ht
        simpa [delEntry] using ih
      · have ht' : ¬ k = t := fun e => ht e.symm
        simp [delEntry, lookupEntry, ih, ht, ht']
    · by_cases hkt : k = t
      · subst hkt
        simp [delEntry, lookupEntry, hk]
      · simp [delEntry, lookupEntry, hk, hkt, ih]

theorem lookupEntry_updEntry (es : List (Str × Node)) (c t : Str) (f : Node → Node) :
    lookupEntry (updEntry es c f) t
      = if t = c then (lookupEntry es c).map f else lookupEntry es t := by
  induction es with
  | nil => simp [updEntry, lookupEntry]
  | cons e es ih =>
    obtain ⟨k, v⟩ := e
    by_cases hk : k = c
    · subst hk
      by_cases ht : t = k
      · subst ht
        simp [updEntry, lookupEntry]
      · have ht' : ¬ k = t := fun e => ht e.symm
        simp [updEntry, lookupEntry, ht, ht']
    · by_cases hkt : k = t
      · subst hkt
        simp [updEntry, lookupEntry, hk]
      · simp [updEntry, lookupEntry, hk, hkt, ih]

theorem mem_delEntry (es : List (Str × Node)) (c : Str) (e : Str × Node) :
    e ∈ delEntry es c ↔ e ∈ es ∧ e.1 ≠ c := by
  induction es with
  | nil => simp [delEntry]
  | cons a es ih =>
    obtain ⟨k, v⟩ := a
    by_cases hk : k = c
    · subst hk
      simp only [delEntry, if_true, ih, List.mem_cons]
      constructor
      · rintro ⟨h1, h2⟩
        exact ⟨Or.inr h1, h2⟩
      · rintro ⟨h1 | h1, h2⟩
        · exact absurd (by rw [h1]) h2
        · exact ⟨h1, h2⟩
    · simp only [delEntry, hk, if_false, List.mem_cons, ih]
      constructor
      · rintro (h1 | ⟨h1, h2⟩)
        · exact ⟨Or.inl h1, by rw [h1]; exact hk⟩
        · exact ⟨Or.inr h1, h2⟩
      · rintro ⟨h1 | h1, h2⟩
        · exact Or.inl h1
        · exact Or.inr ⟨h1, h2⟩

theorem Node.del_dir_cons (es : List (Str × Node)) (c : Str) (q : List Str) (hq : q ≠ []) :
    (Node.dir es).del (c :: q) = .dir (updEntry es c (fun ch => ch.del q)) := by
  cases q with
  | nil => exact absurd rfl hq
  | cons d ds => simp [Node.del]

theorem Node.put_dir_cons (es : List (Str × Node)) (c : Str) (q : List Str) (x : Node)
    (hq : q ≠ []) :
    (Node.dir es).put (c :: q) x
      = (lookupEntry es c).bind (fun ch =>
          (ch.put q x).map (fun ch' => Node.dir (setEntry es c ch'))) := by
  cases q with
  | nil => exact absurd rfl hq
  | cons d ds =>
    simp only [Node.put]
    cases lookupEntry es c with
    | none => rfl
    | some ch =>
      simp only [Option.some_bind]
      cases ch.put (d :: ds) x <;> rfl

theorem Node.get_append (R q : List Str) (n : Node) :
    n.get (R ++ q) = (n.get R).bind (fun m => m.get q) := by
  induction R generalizing n with
  | nil => simp [Node.get_nil]
  | cons r rs ih =>
    cases n with
    | file s => simp [Node.get_file_cons]
    | dir es =>
      simp only [List.cons_append, Node.get_dir_cons]
      cases lookupEntry es r with
      | none => rfl
      | some ch => simp [ih]

/-- What survives a removal, and is no ancestor of the removed path, was
there before, unchanged. -/
theorem Node.get_of_get_del (P T : List Str) (n x : Node) (hP : P ≠ [])
    (hTP : ¬ T <+: P) (h : (n.del P).get T = some x) : n.get T = some x := by
  induction P generalizing n T with
  | nil => exact absurd rfl hP
  | cons c cs ih =>
    cases T with
    | nil => exact absurd List.nil_prefix hTP
    | cons t ts =>
      cases n with
      | file s => simpa [Node.del] using h
      | dir es =>
        by_cases hcs : cs = []
        · subst hcs
          simp only [Node.del, Node.get_dir_cons, lookupEntry_delEntry] at h ⊢
          by_cases htc : t = c
          · simp [htc] at h
          · simpa [htc] using h
        · rw [Node.del_dir_cons es c cs hcs] at h
          simp only [Node.get_dir_cons, lookupEntry_updEntry] at h ⊢
          by_cases htc : t = c
          · subst htc
            simp only [if_true] at h
            cases hl : lookupEntry es t with
            | none => simp [hl] at h
            | some ch =>
              simp only [hl, Option.map_some', Option.some_bind] at h ⊢
              refine ih ts ch hcs ?_ h
              intro hpre
              exact hTP (List.cons_prefix_cons.2 ⟨rfl, hpre⟩)
          · simpa [htc] using h

/-- A removal does not touch what lies beside the removed path. -/
theorem Node.get_del_frame (P T : List Str) (n : Node) (hPT : ¬ P <+: T) (hTP : ¬ T <+: P) :
    (n.del P).get T = n.get T := by
  induction P generalizing n T with
  | nil => exact absurd List.nil_prefix hPT
  | cons c cs ih =>
    cases T with
    | nil => exact absurd List.nil_prefix hTP
    | cons t ts =>
      cases n with
      | file s => simp [Node.del]
      | dir es =>
        by_cases hcs : cs = []
        · subst hcs
          have htc : t ≠ c := by
            intro e
            apply hPT
            rw [e]
            exact List.cons_prefix_cons.2 ⟨rfl, List.nil_prefix⟩
          simp [Node.del, Node.get_dir_cons, lookupEntry_delEntry, htc]
        · rw [Node.del_dir_cons es c cs hcs]
          simp only [Node.get_dir_cons, lookupEntry_updEntry]
          by_cases htc : t = c
          · subst htc
            simp only [if_true]
            cases hl : lookupEntry es t with
            | none => rfl
            | some ch =>
              simp only [Option.map_some', Option.some_bind]
              exact ih ts ch (fun hp => hPT (List.cons_prefix_cons.2 ⟨rfl, hp⟩))
                (fun hp => hTP (List.cons_prefix_cons.2 ⟨rfl, hp⟩))
          · simp [htc]

/-- Removing an entry of a directory removes it from the directory listing. -/
theorem Node.get_del_child (R : List Str) (c : Str) (n : Node) (es : List (Str × Node))
    (h : n.get R = some (.dir es)) :
    (n.del (R ++ [c])).get R = some (.dir (delEntry es c)) := by
  induction R generalizing n with
  | nil =>
    simp only [Node.get_nil, Option.some.injEq] at h
    subst h
    simp [Node.del, Node.get_nil]
  | cons r rs ih =>
    cases n with
    | file s => simp [Node.get_file_cons] at h
    | dir es' =>
      rw [Node.get_dir_cons] at h
      cases hl : lookupEntry es' r with
      | none => simp [hl] at h
      | some ch =>
        simp only [hl, Option.some_bind] at h
        rw [List.cons_append, Node.del_dir_cons es' r (rs ++ [c]) (by simp)]
        simp [Node.get_dir_cons, lookupEntry_updEntry, hl, ih ch h]

/-- Creating an entry of a directory adds it to the directory listing. -/
theorem Node.get_put_child (R : List Str) (c : Str) (n n' x : Node) (es : List (Str × Node))
    (h : n.get R = some (.dir es)) (hp : n.put (R ++ [c]) x = some n') :
    n'.get R = some (.dir (setEntry es c x)) := by
  induction R generalizing n n' with
  | nil =>
    simp only [Node.get_nil, Option.some.injEq] at h
    subst h
    simp only [List.nil_append, Node.put, Option.some.injEq] at hp
    subst hp
    simp [Node.get_nil]
  | cons r rs ih =>
    cases n with
    | file s => simp [Node.get_file_cons] at h
    | dir es' =>
      rw [Node.get_dir_cons] at h
      cases hl : lookupEntry es' r with
      | none => simp [hl] at h
      | some ch =>
        simp only [hl, Option.some_bind] at h
        rw [List.cons_append, Node.put_dir_cons es' r (rs ++ [c]) x (by simp)] at hp
        simp only [hl, Option.some_bind] at hp
        cases hq : ch.put (rs ++ [c]) x with
        | none => simp [hq] at hp
        | some ch' =>
          simp only [hq, Option.map_some', Option.some.injEq] at hp
          subst hp
          simp [Node.get_dir_cons, lookupEntry_setEntry_self, ih ch ch' h hq]

/-! ## The steps of a successful conversion -/

theorem statPath_ok (w : World) (path : Str) (x : Node) (h : statPath w path = .ok x) :
    path ≠ [] ∧ w.fs.get (resolve w.cwd path) = some x := by
  unfold statPath at h
  by_cases hp : path = []
  · simp [hp] at h
  · simp only [hp, if_false] at h
    exact ⟨hp, by simp [Node.get, h]⟩

theorem pathExists_get (w : World) (path : Str) (h : pathExists w path = true) :
    path ≠ [] ∧ ∃ x, w.fs.get (resolve w.cwd path) = some x := by
  unfold pathExists at h
  cases hs : statPath w path with
  | ok x => exact ⟨(statPath_ok w path x hs).1, x, (statPath_ok w path x hs).2⟩
  | error e => simp [hs] at h

theorem gitCloneBare_ok (o : Oracle) (w w' : World) (src dst : Str)
    (h : gitCloneBare o w src dst = .ok w') :
    ∃ bare, o.clone = .ok bare ∧ w'.cwd = w.cwd ∧
      w'.calls = w.calls ++ [["clone".toList, "--bare".toList, src, dst]] ∧
      w.fs.put (resolve w.cwd dst) bare = some w'.fs := by
  unfold gitCloneBare at h
  cases hc : o.clone with
  | error r =>
    obtain ⟨e', junk⟩ := r
    rw [hc] at h
    cases junk with
    | none => simp at h
    | some j =>
      simp only at h
      cases hp : w.fs.put (resolve w.cwd dst) j <;> rw [hp] at h <;> simp at h
  | ok bare =>
    rw [hc] at h
    simp only at h
    split at h
    · rename_i fs' hg hp
      simp only [Except.ok.injEq] at h
      subst h
      exact ⟨bare, rfl, rfl, rfl, hp⟩
    · simp at h

theorem mem_sortedNames (es : List (Str × Node)) (name : Str) :
    name ∈ sortedNames es ↔ name ∈ es.map Prod.fst :=
  (List.perm_insertionSort _ _).mem_iff

theorem readDir_ok (fault : Option GoError) (w : World) (path : Str) (items : List Str)
    (h : readDir fault w path = .ok items) :
    ∃ es, w.fs.get (resolve w.cwd path) = some (.dir es) ∧ items = sortedNames es := by
  unfold readDir at h
  cases fault with
  | some e => simp at h
  | none =>
    cases hs : statPath w path with
    | error e => simp [hs] at h
    | ok x =>
      cases x with
      | file c => simp [hs] at h
      | dir es =>
        simp only [hs, Except.ok.injEq] at h
        exact ⟨es, (statPath_ok w path _ hs).2, h.symm⟩

theorem removeItems_ok (o : Oracle) (path : Str) (hp : path ≠ []) (items : List Str)
    (w w' : World) (hv : ∀ name ∈ items, validName name = true)
    (h : removeItems o path w items = .ok w') :
    w'.cwd = w.cwd ∧ w'.calls = w.calls ∧
      w'.fs = items.foldl (fun fs name => fs.del (resolve w.cwd path ++ [name])) w.fs := by
  induction items generalizing w with
  | nil =>
    simp only [removeItems, Except.ok.injEq] at h
    subst h
    exact ⟨rfl, rfl, rfl⟩
  | cons name rest ih =>
    unfold removeItems at h
    simp only at h
    cases hf : o.removeAllErr (join [path, name]) with
    | some e => rw [hf] at h; simp at h
    | none =>
      rw [hf] at h
      simp only at h
      obtain ⟨h1, h2, h3⟩ := ih (removeAll w (join [path, name]))
        (fun x hx => hv x (List.mem_cons_of_mem _ hx)) h
      refine ⟨h1, h2, ?_⟩
      rw [h3]
      simp [removeAll, resolve_join w.cwd path name hp (hv name (List.mem_cons_self _ _))]

theorem osRename_ok (fault : Option GoError) (w w' : World) (oldpath newpath : Str)
    (h : osRename fault w oldpath newpath = .ok w') :
    ∃ x, w.fs.get (resolve w.cwd oldpath) = some x ∧ w'.cwd = w.cwd ∧ w'.calls = w.calls ∧
      ((resolve w.cwd oldpath = resolve w.cwd newpath ∧ w' = w) ∨
        (¬ resolve w.cwd oldpath <+: resolve w.cwd newpath ∧
          (w.fs.del (resolve w.cwd oldpath)).put (resolve w.cwd newpath) x = some w'.fs)) := by
  unfold osRename at h
  cases fault with
  | some e => simp at h
  | none =>
    simp only at h
    cases hs : statPath w oldpath with
    | error e => rw [hs] at h; simp at h
    | ok x =>
      rw [hs] at h
      simp only at h
      have hx := (statPath_ok w oldpath _ hs).2
      split at h
      · by_cases hc : oldpath = newpath ∨ resolve w.cwd oldpath ≠ resolve w.cwd newpath
        · rw [if_pos hc] at h
          simp at h
        · rw [if_neg hc] at h
          simp only [Except.ok.injEq] at h
          subst h
          rw [not_or, not_not] at hc
          exact ⟨x, hx, rfl, rfl, Or.inl ⟨hc.2, rfl⟩⟩
      · by_cases hsd : resolve w.cwd oldpath = resolve w.cwd newpath
        · rw [if_pos hsd] at h
          simp only [Except.ok.injEq] at h
          subst h
          exact ⟨x, hx, rfl, rfl, Or.inl ⟨hsd, rfl⟩⟩
        · rw [if_neg hsd] at h
          by_cases hpre : resolve w.cwd oldpath <+: resolve w.cwd newpath
          · rw [if_pos hpre] at h
            split at h <;> simp at h
          · rw [if_neg hpre] at h
            cases hq : (w.fs.del (resolve w.cwd oldpath)).put (resolve w.cwd newpath) x with
            | none =>
              rw [hq] at h
              split at h <;> simp at h
            | some fs' =>
              rw [hq] at h
              split at h
              · simp at h
              · simp only [Except.ok.injEq] at h
                subst h
                exact ⟨_, by assumption, rfl, rfl, Or.inr ⟨hpre, by assumption⟩⟩

theorem foldl_del_get_root (R : List Str) (items : List Str) (n : Node)
    (es : List (Str × Node)) (h : n.get R = some (.dir es)) :
    (items.foldl (fun fs name => fs.del (R ++ [name])) n).get R
      = some (.dir (items.foldl delEntry es)) := by
  induction items generalizing n es with
  | nil => simpa using h
  | cons i rest ih =>
    simp only [List.foldl_cons]
    exact ih _ _ (Node.get_del_child R i n es h)

theorem foldl_delEntry_nil (items : List Str) (es : List (Str × Node))
    (h : ∀ e ∈ es, e.1 ∈ items) : items.foldl delEntry es = [] := by
  induction items generalizing es with
  | nil =>
    cases es with
    | nil => rfl
    | cons e es => simpa using h e (List.mem_cons_self _ _)
  | cons i rest ih =>
    simp only [List.foldl_cons]
    apply ih
    intro e he
    rw [mem_delEntry] at he
    have := h e he.1
    simp only [List.mem_cons] at this
    rcases this with h1 | h1
    · exact absurd h1 he.2
    · exact h1

theorem foldl_del_get_other (R T : List Str) (items : List Str) (n x : Node)
    (hT : ∀ name ∈ items, ¬ T <+: R ++ [name])
    (h : (items.foldl (fun fs name => fs.del (R ++ [name])) n).get T = some x) :
    n.get T = some x := by
  induction items generalizing n with
  | nil => simpa using h
  | cons i rest ih =>
    simp only [List.foldl_cons] at h
    have := ih _ (fun name hn => hT name (List.mem_cons_of_mem _ hn)) h
    exact Node.get_of_get_del (R ++ [i]) T n x (by simp) (hT i (List.mem_cons_self _ _)) this

/-- C4. When every step of `ConvertToBare` succeeds (the name is reserved, the
clone is staged, the root is listed with valid entry names, every entry is
removed and the rename goes through), the call returns nil in the world the
rename produced, and there the root directory holds exactly one entry, `.git`,
which is the repository the bare clone wrote: every entry that was under the
root has been removed and the deferred cleanup has not run. -/
theorem convertToBare_success (o : Oracle) (w w1 w2 w3 w4 w5 : World) (path temp : Str)
    (items : List Str)
    (hroot : pathExists w path = true)
    (hgit : pathExists w (join [path, ".git".toList]) = true)
    (hres : reserveTemp o w path = .ok (temp, w1))
    (hrm : osRemove o.removeTempErr w1 temp = .ok w2)
    (hclone : gitCloneBare o w2 path temp = .ok w3)
    (hread : readDir o.readDirErr w3 path = .ok items)
    (hnames : ∀ name ∈ items, validName name = true)
    (hloop : removeItems o path w3 items = .ok w4)
    (hren : osRename o.renameErr w4 temp (join [path, ".git".toList]) = .ok w5) :
    convertToBare o w path = (none, w5) ∧
      ∃ bare, o.clone = .ok bare ∧
        w5.fs.get (resolve w.cwd path) = some (.dir [(".git".toList, bare)]) := by
  have hw2 : w2 = w := reserve_remove_fs o w w1 w2 path temp hres hrm
  subst hw2
  obtain ⟨-, -, hfree, -⟩ := reserveTemp_ok o w2 w1 path temp hres
  obtain ⟨hpne, xr, hR⟩ := pathExists_get w2 path hroot
  obtain ⟨bare, hcl, hcwd3, -, hput3⟩ := gitCloneBare_ok o w2 w3 path temp hclone
  obtain ⟨es3, hget3, hitems⟩ := readDir_ok _ w3 path items hread
  obtain ⟨hcwd4, -, hfs4⟩ := removeItems_ok o path hpne items w3 w4 hnames hloop
  obtain ⟨x, hgetT4, -, -, hmove⟩ := osRename_ok _ w4 w5 temp _ hren
  rw [hcwd3] at hget3 hfs4
  rw [hcwd4, hcwd3] at hgetT4 hmove
  rw [resolve_join w2.cwd path ".git".toList hpne (by decide)] at hmove
  generalize resolve w2.cwd path = R at *
  generalize resolve w2.cwd temp = T at *
  have hroot4 : w4.fs.get R = some (.dir []) := by
    rw [hfs4, foldl_del_get_root R items w3.fs es3 hget3, foldl_delEntry_nil]
    intro e he
    rw [hitems, mem_sortedNames]
    exact List.mem_map_of_mem _ he
  have hnRT : ¬ R <+: T := by
    rintro ⟨q, rfl⟩
    cases q with
    | nil =>
      rw [List.append_nil] at hfree
      rw [hfree] at hR
      exact Option.noConfusion hR
    | cons t ts =>
      rw [Node.get_append, hroot4] at hgetT4
      simp [Node.get_dir_cons, lookupEntry] at hgetT4
  have hnTR : ¬ T <+: R := by
    rintro ⟨q, rfl⟩
    rw [Node.get_append, hfree] at hR
    exact Option.noConfusion hR
  have hput5 : (w4.fs.del T).put (R ++ [".git".toList]) x = some w5.fs := by
    rcases hmove with ⟨heq, -⟩ | ⟨-, hput⟩
    · exact absurd ⟨[".git".toList], heq.symm⟩ hnRT
    · exact hput
  have hT : ∀ name ∈ items, ¬ T <+: R ++ [name] := by
    intro name _ hpre
    rcases List.prefix_concat_iff.1 hpre with h | h
    · apply hnRT
      rw [h]
      simp
    · exact hnTR h
  have hx : w3.fs.get T = some x :=
    foldl_del_get_other R T items w3.fs x hT (by rw [← hfs4]; exact hgetT4)
  have hxb : x = bare := by
    have := Node.get_put T w2.fs w3.fs bare hput3
    rw [hx] at this
    exact Option.some.inj this
  subst hxb
  have hroot4' : (w4.fs.del T).get R = some (.dir []) := by
    rw [Node.get_del_frame T R _ hnTR hnRT]
    exact hroot4
  have hfinal := Node.get_put_child R ".git".toList (w4.fs.del T) w5.fs x [] hroot4' hput5
  refine ⟨?_, x, hcl, hfinal⟩
  unfold convertToBare
  rw [isNotExist_of_pathExists w2 path hroot]
  simp only [Bool.false_eq_true, if_false]
  rw [isNotExist_of_pathExists w2 _ hgit]
  simp only [Bool.false_eq_true, if_false]
  rw [hres]
  simp only
  rw [hrm]
  simp only [convertStaged]
  rw [hclone]
  simp only
  rw [hread]
  simp only
  rw [hloop]
  simp only
  rw [hren]
  rfl

/-- C4 at `/w/repo`, every step succeeding. -/
theorem convertToBare_success_witness :
    convertToBare demoOracle demoWorld "/w/repo".toList = (none, demoConverted) ∧
      ∃ bare, demoOracle.clone = .ok bare ∧
        demoConverted.fs.get (resolve demoWorld.cwd "/w/repo".toList)
          = some (.dir [(".git".toList, bare)]) :=
  convertToBare_success demoOracle demoWorld demoReserved demoWorld demoStaged demoEmptied
    demoConverted "/w/repo".toList "/w/.repo.bare-123".toList [".git".toList, "README.md".toList]
    (by decide) (by decide) (by rfl) (by rfl) (by rfl) (by rfl) (by decide) (by rfl) (by rfl)

/-! ## C2 and C3: the failure paths that lose the repository -/

/-- C2, evaluated. At `/w/repo`, when removing `README.md` fails after `.git`
has been removed, `ConvertToBare` returns an error, the original `.git` is
gone, and the staged clone exists neither at the temporary path nor as
`/w/repo/.git`: the deferred cleanup removed it.  When the final rename fails,
every original entry is gone and so is the staged clone. -/
theorem convertToBare_failure_destroys_repository :
    ((convertToBare removeFailOracle demoWorld "/w/repo".toList).1.isSome = true ∧
      pathExists demoWorld "/w/repo/.git/HEAD".toList = true ∧
      pathExists (convertToBare removeFailOracle demoWorld "/w/repo".toList).2
        "/w/repo/.git".toList = false ∧
      pathExists (convertToBare removeFailOracle demoWorld "/w/repo".toList).2
        "/w/.repo.bare-123".toList = false) ∧
    ((convertToBare renameFailOracle demoWorld "/w/repo".toList).1.isSome = true ∧
      pathExists (convertToBare renameFailOracle demoWorld "/w/repo".toList).2
        "/w/repo/README.md".toList = false ∧
      pathExists (convertToBare renameFailOracle demoWorld "/w/repo".toList).2
        "/w/repo/.git".toList = false ∧
      pathExists (convertToBare renameFailOracle demoWorld "/w/repo".toList).2
        "/w/.repo.bare-123".toList = false) := by
  decide

/-- C3, evaluated. For the path `repo/` (process in `/w`) the reserved name is
`repo/.repo.bare-123`: its parent directory is the root itself, not the
parent of the root, so the staged clone lies inside the root.  With every
step allowed to succeed the removal loop deletes the staged clone, the rename
fails, and the root ends up empty.  The same happens for the path `.` . -/
theorem convertToBare_temp_inside_root :
    ((reserveTemp demoOracle demoWorld "repo/".toList).toOption.map Prod.fst
        = some "repo/.repo.bare-123".toList ∧
      dir "repo/.repo.bare-123".toList = clean "repo/".toList ∧
      dir "repo/.repo.bare-123".toList ≠ dir (clean "repo/".toList) ∧
      resolve "/w".toList "repo/".toList <+: resolve "/w".toList "repo/.repo.bare-123".toList ∧
      (convertToBare demoOracle demoWorld "repo/".toList).1
        = some (errorfW "failed to move bare repository into repo/.git: ".toList
            (.plain ("rename repo/.repo.bare-123 repo/.git: ".toList ++ Errno.ENOENT.text))) ∧
      pathExists (convertToBare demoOracle demoWorld "repo/".toList).2
        "/w/repo".toList = true ∧
      pathExists (convertToBare demoOracle demoWorld "repo/".toList).2
        "/w/repo/README.md".toList = false ∧
      pathExists (convertToBare demoOracle demoWorld "repo/".toList).2
        "/w/repo/.git".toList = false ∧
      pathExists (convertToBare demoOracle demoWorld "repo/".toList).2
        "/w/repo/.repo.bare-123".toList = false) ∧
    ((reserveTemp demoOracle demoWorldInside ".".toList).toOption.map Prod.fst
        = some "./...bare-123".toList ∧
      resolve "/w/repo".toList ".".toList
        <+: resolve "/w/repo".toList "./...bare-123".toList ∧
      (convertToBare demoOracle demoWorldInside ".".toList).1.isSome = true ∧
      pathExists (convertToBare demoOracle demoWorldInside ".".toList).2
        "/w/repo/.git".toList = false) := by
  decide

/-! ## C5: the two precondition checks -/

theorem Node.stat_child (R : List Str) (c : Str) (n : Node) (es : List (Str × Node))
    (h : n.stat R = .ok (.dir es)) :
    n.stat (R ++ [c]) =
      match lookupEntry es c with
      | none => .error .ENOENT
      | some ch => .ok ch := by
  induction R generalizing n with
  | nil =>
    simp only [Node.stat, Except.ok.injEq] at h
    subst h
    simp only [List.nil_append, Node.stat]
  | cons r rs ih =>
    cases n with
    | file s => simp [Node.stat] at h
    | dir es' =>
      simp only [Node.stat] at h
      cases hl : lookupEntry es' r with
      | none => simp [hl] at h
      | some ch =>
        simp only [hl] at h
        simp only [List.cons_append, Node.stat, hl]
        exact ih ch h

/-- C5, evaluated. `/w/repo/README.md` exists and has no `.git` entry, yet
`ConvertToBare` does not answer `not a git repository`: looking up
`README.md/.git` fails with `ENOTDIR`, which `os.IsNotExist` does not accept, so
the temporary directory is reserved and `git clone` is run before the call
fails. -/
theorem convertToBare_regular_file_not_rejected_early :
    pathExists demoWorld "/w/repo/README.md".toList = true ∧
      pathExists demoWorld (join ["/w/repo/README.md".toList, ".git".toList]) = false ∧
      (reserveTemp cloneFailOracle demoWorld "/w/repo/README.md".toList).toOption.map Prod.fst
        = some "/w/repo/.README.md.bare-123".toList ∧
      (convertToBare cloneFailOracle demoWorld "/w/repo/README.md".toList).1
        ≠ some (.plain ("not a git repository: ".toList ++ "/w/repo/README.md".toList)) ∧
      (convertToBare cloneFailOracle demoWorld "/w/repo/README.md".toList).2.calls
        = [["clone".toList, "--bare".toList, "/w/repo/README.md".toList,
            "/w/repo/.README.md.bare-123".toList]] := by
  decide

/-- Where the two guards of `ConvertToBare` do answer. If looking up the path
reports that it does not exist, the call returns `path does not exist: <path>`;
if the path is a directory without a `.git` entry it returns
`not a git repository: <path>`.  In both cases the world is returned as it was:
no temporary directory has been created, git has not been run and nothing has
been removed. -/
theorem convertToBare_precondition_failures (o : Oracle) (w : World) (path : Str) :
    (statPath w path = .error .ENOENT →
      convertToBare o w path = (some (.plain ("path does not exist: ".toList ++ path)), w)) ∧
    (∀ es, statPath w path = .ok (.dir es) → lookupEntry es ".git".toList = none →
      convertToBare o w path = (some (.plain ("not a git repository: ".toList ++ path)), w)) := by
  constructor
  · intro h
    unfold convertToBare
    rw [h]
    rfl
  · intro es h hl
    have hp := (statPath_ok w path _ h).1
    have hgit : isNotExist (statPath w (join [path, ".git".toList])) = true := by
      unfold statPath
      by_cases hj : join [path, ".git".toList] = []
      · rw [if_pos hj]
        rfl
      · rw [if_neg hj]
        rw [resolve_join w.cwd path ".git".toList hp (by decide)]
        have hs : w.fs.stat (resolve w.cwd path) = .ok (.dir es) := by
          simpa [statPath, hp] using h
        rw [Node.stat_child _ _ _ es hs, hl]
        rfl
    unfold convertToBare
    rw [h]
    simp only [isNotExist, Bool.false_eq_true, if_false]
    simp only [isNotExist] at hgit
    rw [hgit]
    rfl

/-- The guards at a missing path and at the directory `/w`, which has no `.git`. -/
theorem convertToBare_precondition_failures_witness :
    convertToBare demoOracle demoWorld "/w/nope".toList
        = (some (.plain ("path does not exist: ".toList ++ "/w/nope".toList)), demoWorld) ∧
      convertToBare demoOracle demoWorld "/w".toList
        = (some (.plain ("not a git repository: ".toList ++ "/w".toList)), demoWorld) :=
  ⟨(convertToBare_precondition_failures demoOracle demoWorld "/w/nope".toList).1 (by rfl),
    (convertToBare_precondition_failures demoOracle demoWorld "/w".toList).2
      [("repo".toList, demoRepo)] (by rfl) (by rfl)⟩



/-! ## The worktree registrar (C8, C9) -/

theorem hasPrefix_iff (s p : Str) : hasPrefix s p = true ↔ ∃ rest, s = p ++ rest := by
  unfold hasPrefix
  rw [List.isPrefixOf_iff_prefix]
  constructor
  · rintro ⟨t, ht⟩
    exact ⟨t, ht.symm⟩
  · rintro ⟨t, ht⟩
    exact ⟨t, ht.symm⟩

theorem trimPrefix_append (p rest : Str) : trimPrefix (p ++ rest) p = rest := by
  have : hasPrefix (p ++ rest) p = true := (hasPrefix_iff _ _).2 ⟨rest, rfl⟩
  simp [trimPrefix, this]

/-- The loop finds a match exactly when some line is a worktree entry whose
trimmed path is not empty and normalizes to the target. -/
theorem registeredIn_iff {σ : Type} (S : Sys σ) (s : σ) (target : Str) (lines : List Str) :
    registeredIn S s target lines = true ↔
      ∃ line ∈ lines, ∃ rest, line = worktreeMarker ++ rest ∧ trimSpace rest ≠ [] ∧
        normalizePathForCompare S s (trimSpace rest) = target := by
  induction lines with
  | nil => simp [registeredIn]
  | cons line rest ih =>
    unfold registeredIn
    by_cases hp : hasPrefix line worktreeMarker = true
    · obtain ⟨r, hr⟩ := (hasPrefix_iff _ _).1 hp
      subst hr
      simp only [hp, Bool.not_true, Bool.false_eq_true, if_false, trimPrefix_append]
      by_cases he : trimSpace r = []
      · simp only [he, if_true, ih, List.mem_cons]
        constructor
        · rintro ⟨l, hl, x, hx⟩
          exact ⟨l, Or.inr hl, x, hx⟩
        · rintro ⟨l, hl | hl, x, hx1, hx2, hx3⟩
          · subst hl
            have := List.append_cancel_left hx1
            subst this
            exact absurd he hx2
          · exact ⟨l, hl, x, hx1, hx2, hx3⟩
      · simp only [he, if_false]
        by_cases hn : normalizePathForCompare S s (trimSpace r) = target
        · simp only [hn, if_true, true_iff]
          exact ⟨_, List.mem_cons_self _ _, r, rfl, he, hn⟩
        · simp only [hn, if_false, ih, List.mem_cons]
          constructor
          · rintro ⟨l, hl, x, hx⟩
            exact ⟨l, Or.inr hl, x, hx⟩
          · rintro ⟨l, hl | hl, x, hx1, hx2, hx3⟩
            · subst hl
              have := List.append_cancel_left hx1
              subst this
              exact absurd hx3 hn
            · exact ⟨l, hl, x, hx1, hx2, hx3⟩
    · have hp' : hasPrefix line worktreeMarker = false := by simpa using hp
      simp only [hp', Bool.not_false, if_true, ih, List.mem_cons]
      constructor
      · rintro ⟨l, hl, x, hx⟩
        exact ⟨l, Or.inr hl, x, hx⟩
      · rintro ⟨l, hl | hl, x, hx1, hx2, hx3⟩
        · subst hl
          exact absurd ((hasPrefix_iff _ _).2 ⟨x, hx1⟩) hp
        · exact ⟨l, hl, x, hx1, hx2, hx3⟩

/-- C8. For a fixed listing and file system (the state in which the listing
command leaves the world), two candidate paths with the same normal form get
the same answer from `isWorktreeRegistered`. -/
theorem isWorktreeRegistered_normalization_invariant {σ : Type} (S : Sys σ) (p : Proc σ)
    (barePath p1 p2 : Str)
    (h : normalizePathForCompare S (runGit S p barePath worktreeListArgs).2.state p1
      = normalizePathForCompare S (runGit S p barePath worktreeListArgs).2.state p2) :
    isWorktreeRegistered S p barePath p1 = isWorktreeRegistered S p barePath p2 := by
  unfold isWorktreeRegistered
  simp only [h]

/-- C9. `isWorktreeRegistered` runs one command, `git worktree list --porcelain`
in the bare directory. When that listing succeeds it returns no error and
returns true exactly when some line of the output is `worktree ` followed by a
remainder that is non-empty after trimming and normalizes to the same string
as the candidate, so a listing without such a line (lines of the kinds `HEAD`,
`branch`, `bare`, `detached`) gives false; when the listing fails with `err`
it returns `(false, err)`. -/
theorem isWorktreeRegistered_characterization {σ : Type} (S : Sys σ) (p : Proc σ)
    (barePath q : Str) :
    (isWorktreeRegistered S p barePath q).2 =
        (runGit S p barePath ["worktree".toList, "list".toList, "--porcelain".toList]).2 ∧
    (isWorktreeRegistered S p barePath q).2.calls =
        p.calls ++ [(barePath, ["worktree".toList, "list".toList, "--porcelain".toList])] ∧
    ((runGit S p barePath ["worktree".toList, "list".toList, "--porcelain".toList]).1.err
        = none →
      (isWorktreeRegistered S p barePath q).1.2 = none ∧
      ((isWorktreeRegistered S p barePath q).1.1 = true ↔
        ∃ line ∈ splitLines (runGit S p barePath
            ["worktree".toList, "list".toList, "--porcelain".toList]).1.output,
          ∃ rest, line = "worktree ".toList ++ rest ∧ trimSpace rest ≠ [] ∧
            normalizePathForCompare S (runGit S p barePath
                ["worktree".toList, "list".toList, "--porcelain".toList]).2.state
                (trimSpace rest)
              = normalizePathForCompare S (runGit S p barePath
                ["worktree".toList, "list".toList, "--porcelain".toList]).2.state q) ∧
      ((∀ line ∈ splitLines (runGit S p barePath
            ["worktree".toList, "list".toList, "--porcelain".toList]).1.output,
          hasPrefix line "worktree ".toList = false) →
        (isWorktreeRegistered S p barePath q).1.1 = false)) ∧
    (∀ e, (runGit S p barePath ["worktree".toList, "list".toList, "--porcelain".toList]).1.err
        = some e →
      (isWorktreeRegistered S p barePath q).1 = (false, some e)) := by
  have hargs : ["worktree".toList, "list".toList, "--porcelain".toList] = worktreeListArgs := rfl
  have hmark : "worktree ".toList = worktreeMarker := rfl
  rw [hargs, hmark]
  have hproc : (isWorktreeRegistered S p barePath q).2 =
      (runGit S p barePath worktreeListArgs).2 := by
    unfold isWorktreeRegistered
    cases h : (runGit S p barePath worktreeListArgs).1.err <;> simp only [h]
  refine ⟨hproc, ?_, ?_, ?_⟩
  · rw [hproc]
    rfl
  · intro h
    have hiff : (isWorktreeRegistered S p barePath q).1.1 = true ↔
        ∃ line ∈ splitLines (runGit S p barePath worktreeListArgs).1.output,
          ∃ rest, line = worktreeMarker ++ rest ∧ trimSpace rest ≠ [] ∧
            normalizePathForCompare S (runGit S p barePath worktreeListArgs).2.state
                (trimSpace rest)
              = normalizePathForCompare S (runGit S p barePath worktreeListArgs).2.state q := by
      unfold isWorktreeRegistered
      simp only [h]
      exact registeredIn_iff S _ _ _
    refine ⟨?_, hiff, fun hno => ?_⟩
    · unfold isWorktreeRegistered
      simp only [h]
    · cases hb : (isWorktreeRegistered S p barePath q).1.1 with
      | false => rfl
      | true =>
        obtain ⟨line, hl, rest, hline, -, -⟩ := hiff.1 hb
        have := hno line hl
        rw [hline, (hasPrefix_iff _ _).2 ⟨rest, rfl⟩] at this
        cases this
  · intro e h
    unfold isWorktreeRegistered
    simp only [h]

/-! ## The worktree orchestrator (C7, C10) -/

theorem isWorktreeRegistered_proc {σ : Type} (S : Sys σ) (p : Proc σ) (barePath q : Str) :
    (isWorktreeRegistered S p barePath q).2 = (runGit S p barePath worktreeListArgs).2 := by
  unfold isWorktreeRegistered
  cases h : (runGit S p barePath worktreeListArgs).1.err <;> simp only [h]

theorem errorfWOut_unwrap (pre : Str) (err : GoError) (output : Str) :
    (errorfWOut pre err output).unwrap = some err := rfl

theorem errorfWOut_contains (pre : Str) (err : GoError) (output : Str) :
    output <:+: (errorfWOut pre err output).text :=
  ⟨pre ++ err.text ++ ['\n'], [], by simp [errorfWOut, GoError.text]⟩

/-- What `git worktree add` failing leads to. -/
theorem addWorktree_failure {σ : Type} (S : Sys σ) (p : Proc σ) (barePath A : Str)
    (pre post : List Str) (err : GoError)
    (hfail : (runGit S p barePath (worktreeAddArgs pre A post)).1.err = some err) :
    ((addWorktree S p barePath A pre post).1 = none ↔
      (containsStr (runGit S p barePath (worktreeAddArgs pre A post)).1.output
          "already exists".toList = true ∧
        (isWorktreeRegistered S (runGit S p barePath (worktreeAddArgs pre A post)).2
          barePath A).1 = (true, none))) ∧
    ((addWorktree S p barePath A pre post).1 ≠ none →
      (addWorktree S p barePath A pre post).1
        = some (errorfWOut "failed to create worktree: ".toList err
            (runGit S p barePath (worktreeAddArgs pre A post)).1.output)) := by
  unfold addWorktree
  simp only [hfail]
  generalize "already exists".toList = marker
  generalize "failed to create worktree: ".toList = pre'
  by_cases hc : containsStr (runGit S p barePath (worktreeAddArgs pre A post)).1.output
      marker = true
  · rw [if_pos hc]
    rcases hr : isWorktreeRegistered S (runGit S p barePath (worktreeAddArgs pre A post)).2
      barePath A with ⟨⟨b, e⟩, p'⟩
    cases b <;> cases e <;> simp [hc]
  · rw [if_neg hc]
    simp [hc]

/-- The idempotency guard: when the registrar reports the path as registered,
`runWorktreeAdd` returns nil and the listing is the only command it ran. -/
theorem runWorktreeAdd_registered_noop {σ : Type} (S : Sys σ) (p p2 : Proc σ) (s1 : σ)
    (barePath worktreePath A : Str) (pre post : List Str)
    (habs : absPath S p.state worktreePath = .ok A)
    (hmk : S.mkdirAll p.state (dir A) = (none, s1))
    (hcheck : isWorktreeRegistered S { p with state := s1 } barePath A = ((true, none), p2)) :
    runWorktreeAdd S p barePath worktreePath pre post = (none, p2) ∧
      p2.calls = p.calls ++ [(barePath, worktreeListArgs)] := by
  constructor
  · unfold runWorktreeAdd
    rw [habs]
    simp only
    rw [hmk]
    simp only
    rw [hcheck]
  · have := isWorktreeRegistered_proc S { p with state := s1 } barePath A
    rw [hcheck] at this
    simp only at this
    rw [this]
    rfl

/-- C7. When the path was not registered at the first check and `git worktree
add` fails, `runWorktreeAdd` returns nil exactly when git's output contains
`already exists` and the one further registrar check succeeds and reports the
path as registered; in every other case it returns the error
`failed to create worktree: <git's error>` followed by git's output, which
wraps git's error and contains git's output. -/
theorem runWorktreeAdd_add_failure {σ : Type} (S : Sys σ) (p p2 : Proc σ) (s1 : σ)
    (barePath worktreePath A : Str) (pre post : List Str) (err : GoError)
    (habs : absPath S p.state worktreePath = .ok A)
    (hmk : S.mkdirAll p.state (dir A) = (none, s1))
    (hcheck : isWorktreeRegistered S { p with state := s1 } barePath A = ((false, none), p2))
    (hfail : (runGit S p2 barePath (worktreeAddArgs pre A post)).1.err = some err) :
    ((runWorktreeAdd S p barePath worktreePath pre post).1 = none ↔
      (containsStr (runGit S p2 barePath (worktreeAddArgs pre A post)).1.output
          "already exists".toList = true ∧
        (isWorktreeRegistered S (runGit S p2 barePath (worktreeAddArgs pre A post)).2
          barePath A).1 = (true, none))) ∧
    ((runWorktreeAdd S p barePath worktreePath pre post).1 ≠ none →
      ∃ e, (runWorktreeAdd S p barePath worktreePath pre post).1 = some e ∧
        e = errorfWOut "failed to create worktree: ".toList err
            (runGit S p2 barePath (worktreeAddArgs pre A post)).1.output ∧
        e.unwrap = some err ∧
        (runGit S p2 barePath (worktreeAddArgs pre A post)).1.output <:+: e.text) := by
  have hrun : runWorktreeAdd S p barePath worktreePath pre post
      = addWorktree S p2 barePath A pre post := by
    unfold runWorktreeAdd
    rw [habs]
    simp only
    rw [hmk]
    simp only
    rw [hcheck]
  rw [hrun]
  obtain ⟨h1, h2⟩ := addWorktree_failure S p2 barePath A pre post err hfail
  refine ⟨h1, fun hne => ⟨_, h2 hne, rfl, errorfWOut_unwrap _ _ _, errorfWOut_contains _ _ _⟩⟩

theorem addWorktree_calls {σ : Type} (S : Sys σ) (p : Proc σ) (barePath A : Str)
    (pre post : List Str) :
    ∃ tail, (addWorktree S p barePath A pre post).2.calls
        = p.calls ++ [(barePath, worktreeAddArgs pre A post)] ++ tail ∧
      (tail = [] ∨ tail = [(barePath, worktreeListArgs)]) := by
  unfold addWorktree
  dsimp only
  generalize "already exists".toList = marker
  generalize "failed to create worktree: ".toList = pre'
  cases he : (runGit S p barePath (worktreeAddArgs pre A post)).1.err with
  | none => exact ⟨[], by simp [runGit], Or.inl rfl⟩
  | some err =>
    simp only
    by_cases hc : containsStr (runGit S p barePath (worktreeAddArgs pre A post)).1.output
        marker = true
    · rw [if_pos hc]
      refine ⟨[(barePath, worktreeListArgs)], ?_, Or.inr rfl⟩
      have hp := isWorktreeRegistered_proc S (runGit S p barePath (worktreeAddArgs pre A post)).2
        barePath A
      rcases hr : isWorktreeRegistered S (runGit S p barePath (worktreeAddArgs pre A post)).2
        barePath A with ⟨⟨b, e⟩, p'⟩
      rw [hr] at hp
      simp only at hp
      cases b <;> cases e <;> simp [hp, runGit]
    · rw [if_neg hc]
      exact ⟨[], by simp [runGit], Or.inl rfl⟩

/-- The command lines `runWorktreeAdd` runs when the path is not registered yet. -/
theorem runWorktreeAdd_calls {σ : Type} (S : Sys σ) (p p2 : Proc σ) (s1 : σ)
    (barePath worktreePath A : Str) (pre post : List Str)
    (habs : absPath S p.state worktreePath = .ok A)
    (hmk : S.mkdirAll p.state (dir A) = (none, s1))
    (hcheck : isWorktreeRegistered S { p with state := s1 } barePath A = ((false, none), p2)) :
    ∃ tail, (runWorktreeAdd S p barePath worktreePath pre post).2.calls
        = p.calls ++ [(barePath, worktreeListArgs), (barePath, worktreeAddArgs pre A post)]
            ++ tail ∧
      (tail = [] ∨ tail = [(barePath, worktreeListArgs)]) := by
  have hrun : runWorktreeAdd S p barePath worktreePath pre post
      = addWorktree S p2 barePath A pre post := by
    unfold runWorktreeAdd
    rw [habs]
    simp only
    rw [hmk]
    simp only
    rw [hcheck]
  have hp2 : p2.calls = p.calls ++ [(barePath, worktreeListArgs)] := by
    have := isWorktreeRegistered_proc S { p with state := s1 } barePath A
    rw [hcheck] at this
    simp only at this
    rw [this]
    rfl
  obtain ⟨tail, h1, h2⟩ := addWorktree_calls S p2 barePath A pre post
  refine ⟨tail, ?_, h2⟩
  rw [hrun, h1, hp2]
  simp

/-- C10. When the path is not registered yet, git is run in the bare directory
with exactly `worktree add A branch` for `CreateWorktree`,
`worktree add --detach A startPoint` for `CreateDetachedWorktree` and
`worktree add -b featureBranch A baseBranch` for `CreateFeatureWorktree`, right
after the listing and followed by at most the one re-check; `A` is the cleaned
path when `worktreePath` is absolute and otherwise `worktreePath` joined to the
working directory of the process, whatever the bare directory is. -/
theorem worktree_add_arguments {σ : Type} (S : Sys σ) (p p2 : Proc σ) (s1 : σ)
    (barePath worktreePath A : Str)
    (habs : absPath S p.state worktreePath = .ok A)
    (hmk : S.mkdirAll p.state (dir A) = (none, s1))
    (hcheck : isWorktreeRegistered S { p with state := s1 } barePath A = ((false, none), p2)) :
    (isAbs worktreePath = true → A = clean worktreePath) ∧
    (isAbs worktreePath = false →
      ∃ wd, S.getwd p.state = .ok wd ∧ A = join [wd, worktreePath]) ∧
    (∀ branch, ∃ tail,
      (createWorktree S p barePath worktreePath branch).2.calls
        = p.calls ++ [(barePath, worktreeListArgs),
            (barePath, ["worktree".toList, "add".toList, A, branch])] ++ tail ∧
      (tail = [] ∨ tail = [(barePath, worktreeListArgs)])) ∧
    (∀ startPoint, ∃ tail,
      (createDetachedWorktree S p barePath worktreePath startPoint).2.calls
        = p.calls ++ [(barePath, worktreeListArgs),
            (barePath, ["worktree".toList, "add".toList, "--detach".toList, A, startPoint])]
            ++ tail ∧
      (tail = [] ∨ tail = [(barePath, worktreeListArgs)])) ∧
    (∀ featureBranch baseBranch, ∃ tail,
      (createFeatureWorktree S p barePath worktreePath featureBranch baseBranch).2.calls
        = p.calls ++ [(barePath, worktreeListArgs),
            (barePath, ["worktree".toList, "add".toList, "-b".toList, featureBranch, A,
              baseBranch])] ++ tail ∧
      (tail = [] ∨ tail = [(barePath, worktreeListArgs)])) := by
  refine ⟨?_, ?_, ?_, ?_, ?_⟩
  · intro h
    unfold absPath at habs
    rw [if_pos h] at habs
    exact (Except.ok.inj habs).symm
  · intro h
    unfold absPath at habs
    simp only [h, Bool.false_eq_true, if_false] at habs
    cases hw : S.getwd p.state with
    | error e => simp [hw] at habs
    | ok wd =>
      simp only [hw, Except.ok.injEq] at habs
      exact ⟨wd, rfl, habs.symm⟩
  · intro branch
    exact runWorktreeAdd_calls S p p2 s1 barePath worktreePath A [] [branch] habs hmk hcheck
  · intro startPoint
    exact runWorktreeAdd_calls S p p2 s1 barePath worktreePath A ["--detach".toList]
      [startPoint] habs hmk hcheck
  · intro featureBranch baseBranch
    exact runWorktreeAdd_calls S p p2 s1 barePath worktreePath A ["-b".toList, featureBranch]
      [baseBranch] habs hmk hcheck

/-! ## Witnesses and the evaluation for C6 -/

/-- C8 at the registered worktree `/w/repo/main`, asked for as `repo/./main` from `/w`. -/
theorem isWorktreeRegistered_normalization_invariant_witness :
    isWorktreeRegistered simpleSys demoProc demoStore.bare "/w/repo/main".toList
      = isWorktreeRegistered simpleSys demoProc demoStore.bare "repo/./main".toList :=
  isWorktreeRegistered_normalization_invariant simpleSys demoProc demoStore.bare
    "/w/repo/main".toList "repo/./main".toList (by decide)

/-- C9 at the example store, whose listing succeeds: the registered path
`/w/repo/main` is found, the path `/w/repo/other` is not, and the command run
is the listing. -/
theorem isWorktreeRegistered_characterization_witness :
    (isWorktreeRegistered simpleSys demoProc "/w/repo/.git".toList "/w/repo/main".toList).1
        = (true, none) ∧
      (isWorktreeRegistered simpleSys demoProc "/w/repo/.git".toList "/w/repo/other".toList).1
        = (false, none) ∧
      (isWorktreeRegistered simpleSys demoProc "/w/repo/.git".toList
          "/w/repo/main".toList).2.calls
        = [("/w/repo/.git".toList, ["worktree".toList, "list".toList, "--porcelain".toList])] ∧
      ((isWorktreeRegistered simpleSys demoProc "/w/repo/.git".toList "/w/repo/main".toList).1.1
          = true ↔
        ∃ line ∈ splitLines (runGit simpleSys demoProc "/w/repo/.git".toList
            ["worktree".toList, "list".toList, "--porcelain".toList]).1.output,
          ∃ rest, line = "worktree ".toList ++ rest ∧ trimSpace rest ≠ [] ∧
            normalizePathForCompare simpleSys (runGit simpleSys demoProc "/w/repo/.git".toList
                ["worktree".toList, "list".toList, "--porcelain".toList]).2.state
                (trimSpace rest)
              = normalizePathForCompare simpleSys (runGit simpleSys demoProc
                "/w/repo/.git".toList
                ["worktree".toList, "list".toList, "--porcelain".toList]).2.state
                "/w/repo/main".toList) :=
  ⟨by decide, by decide,
    (isWorktreeRegistered_characterization simpleSys demoProc "/w/repo/.git".toList
      "/w/repo/main".toList).2.1,
    ((isWorktreeRegistered_characterization simpleSys demoProc "/w/repo/.git".toList
      "/w/repo/main".toList).2.2.1 (by rfl)).2.1⟩

/-- C7 at a lost race: the path is free at the first check, `git worktree add`
fails with `already exists`, the re-check finds the path, and the call
returns nil. -/
theorem runWorktreeAdd_add_failure_witness :
    (runWorktreeAdd racySys demoProc demoStore.bare "/w/repo/review".toList
        ["--detach".toList] ["main".toList]).1 = none :=
  ((runWorktreeAdd_add_failure racySys demoProc
    (isWorktreeRegistered racySys demoProc demoStore.bare "/w/repo/review".toList).2
    demoStore demoStore.bare "/w/repo/review".toList "/w/repo/review".toList
    ["--detach".toList] ["main".toList] (.plain "exit status 128".toList)
    (by rfl) (by rfl) (by rfl) (by rfl)).1).2 ⟨by decide, by decide⟩

/-- C10 for `CreateWorktree` with the relative path `repo/dev` from `/w`: git
gets `/w/repo/dev`, not a path below the bare directory. -/
theorem worktree_add_arguments_witness :
    ∃ tail,
      (createWorktree simpleSys demoProc demoStore.bare "repo/dev".toList "dev".toList).2.calls
        = demoProc.calls ++ [(demoStore.bare, worktreeListArgs),
            (demoStore.bare, ["worktree".toList, "add".toList, "/w/repo/dev".toList,
              "dev".toList])] ++ tail ∧
      (tail = [] ∨ tail = [(demoStore.bare, worktreeListArgs)]) :=
  (worktree_add_arguments simpleSys demoProc
    (isWorktreeRegistered simpleSys demoProc demoStore.bare "/w/repo/dev".toList).2
    demoStore demoStore.bare "repo/dev".toList "/w/repo/dev".toList
    (by rfl) (by rfl) (by rfl)).2.2.1 "dev".toList

/-- C6, evaluated. With a worktree path that ends in a space, the first
`CreateDetachedWorktree` succeeds and registers the path; the registrar then
does not recognise the registered path, because the listed path is trimmed and
the candidate is not; the second call with the same arguments runs
`git worktree add` again and returns git's `already exists` error.  For the
path without the space the second call returns nil. -/
theorem createDetachedWorktree_registered_path_not_recognised :
    (createDetachedWorktree simpleSys demoProc demoStore.bare spacedPath "main".toList).1 = none ∧
      spacedPath ∈ afterSpacedAdd.state.worktrees ∧
      (isWorktreeRegistered simpleSys afterSpacedAdd demoStore.bare spacedPath).1
        = (false, none) ∧
      (createDetachedWorktree simpleSys afterSpacedAdd demoStore.bare spacedPath
          "main".toList).1
        = some (errorfWOut "failed to create worktree: ".toList (.plain "exit status 128".toList)
            "fatal: '/w/repo/review ' already exists\n".toList) ∧
      ((createDetachedWorktree simpleSys afterSpacedAdd demoStore.bare spacedPath
          "main".toList).2.calls.map Prod.snd).count
          ["worktree".toList, "add".toList, "--detach".toList, spacedPath, "main".toList] = 2 ∧
      (createDetachedWorktree simpleSys
          (createDetachedWorktree simpleSys demoProc demoStore.bare "/w/repo/review".toList
            "main".toList).2
          demoStore.bare "/w/repo/review".toList "main".toList).1 = none := by
  decide



/-! ## Feature and default-branch resolution (C18, C19, C20) -/

/-- C18, the counterexample. With an empty default branch and no feature name,
the trimmed feature name equals the default branch and no error is returned:
the empty feature name is taken to mean that no feature worktree is wanted. -/
theorem resolveFeatureWorktreeConfig_empty_default_accepted :
    trimSpace ([] : Str) = ([] : Str) ∧
      resolveFeatureWorktreeConfig quotePlain [] [] [] = ([], [], none) := by
  decide

/-- C18, amended. For every default branch and input pair, a non-empty trimmed
feature name that equals `review` or the default branch is rejected with an
error; and every non-empty feature name returned without error is neither
`review` nor the default branch. -/
theorem resolveFeatureWorktreeConfig_rejects_reserved (quote : Str → Str)
    (defaultBranch featureBranchInput baseBranchInput : Str) :
    (trimSpace featureBranchInput ≠ [] →
      (trimSpace featureBranchInput = reviewName ∨ trimSpace featureBranchInput = defaultBranch) →
      (resolveFeatureWorktreeConfig quote defaultBranch featureBranchInput baseBranchInput).2.2
        ≠ none) ∧
    ((resolveFeatureWorktreeConfig quote defaultBranch featureBranchInput baseBranchInput).2.2
        = none →
      (resolveFeatureWorktreeConfig quote defaultBranch featureBranchInput baseBranchInput).1
        ≠ [] →
      (resolveFeatureWorktreeConfig quote defaultBranch featureBranchInput baseBranchInput).1
          ≠ reviewName ∧
        (resolveFeatureWorktreeConfig quote defaultBranch featureBranchInput baseBranchInput).1
          ≠ defaultBranch) := by
  unfold resolveFeatureWorktreeConfig
  by_cases hf : trimSpace featureBranchInput = []
  · simp only [hf, if_true]
    refine ⟨fun h => absurd rfl h, ?_⟩
    by_cases hb : trimSpace baseBranchInput ≠ []
    · simp [hb]
    · simp [hb]
  · simp only [hf, if_false]
    by_cases hr : trimSpace featureBranchInput = reviewName
    · simp only [hr, if_true]
      exact ⟨fun _ _ => by simp, fun _ h => absurd rfl h⟩
    · simp only [hr, if_false]
      by_cases hd : trimSpace featureBranchInput = defaultBranch
      · simp only [hd, if_true]
        exact ⟨fun _ _ => by simp, fun _ h => absurd rfl h⟩
      · simp only [hd, if_false]
        exact ⟨fun _ h => absurd h (by simp [hr, hd]), fun _ _ => ⟨hr, hd⟩⟩

/-- C18 amended, at the feature name ` review ` and at the accepted `feature/x`. -/
theorem resolveFeatureWorktreeConfig_rejects_reserved_witness :
    (resolveFeatureWorktreeConfig quotePlain mainName " review ".toList []).2.2 ≠ none ∧
      ((resolveFeatureWorktreeConfig quotePlain mainName "feature/x".toList []).1 ≠ reviewName ∧
        (resolveFeatureWorktreeConfig quotePlain mainName "feature/x".toList []).1 ≠ mainName) :=
  ⟨(resolveFeatureWorktreeConfig_rejects_reserved quotePlain mainName " review ".toList []).1
      (by decide) (Or.inl (by decide)),
    (resolveFeatureWorktreeConfig_rejects_reserved quotePlain mainName "feature/x".toList []).2
      (by decide) (by decide)⟩

/-- C19. When the trimmed feature name is empty, `resolveFeatureWorktreeConfig`
returns an error if the trimmed base is not empty and `("", "", nil)`
otherwise; when the feature name is accepted (not empty, not `review`, not the
default branch) it returns the trimmed feature name with the trimmed base, or
with the default branch when the trimmed base is empty, and no error. -/
theorem resolveFeatureWorktreeConfig_resolution (quote : Str → Str)
    (defaultBranch featureBranchInput baseBranchInput : Str) :
    (trimSpace featureBranchInput = [] → trimSpace baseBranchInput ≠ [] →
      resolveFeatureWorktreeConfig quote defaultBranch featureBranchInput baseBranchInput
        = ([], [], some (.plain "--feature-base requires --feature".toList))) ∧
    (trimSpace featureBranchInput = [] → trimSpace baseBranchInput = [] →
      resolveFeatureWorktreeConfig quote defaultBranch featureBranchInput baseBranchInput
        = ([], [], none)) ∧
    (trimSpace featureBranchInput ≠ [] → trimSpace featureBranchInput ≠ reviewName →
      trimSpace featureBranchInput ≠ defaultBranch →
      resolveFeatureWorktreeConfig quote defaultBranch featureBranchInput baseBranchInput
        = (trimSpace featureBranchInput,
            if trimSpace baseBranchInput = [] then defaultBranch else trimSpace baseBranchInput,
            none)) := by
  unfold resolveFeatureWorktreeConfig
  refine ⟨?_, ?_, ?_⟩
  · intro hf hb
    simp only [hf, if_true, hb, ne_eq, not_false_eq_true]
  · intro hf hb
    simp only [hf, if_true, hb, ne_eq, not_true_eq_false, if_false]
  · intro hf hr hd
    simp only [hf, hr, hd, if_false]

/-- C19 at the inputs of the tests: a feature with no base, a base with no
feature, and nothing at all. -/
theorem resolveFeatureWorktreeConfig_resolution_witness :
    resolveFeatureWorktreeConfig quotePlain mainName [] "develop".toList
        = ([], [], some (.plain "--feature-base requires --feature".toList)) ∧
      resolveFeatureWorktreeConfig quotePlain mainName [] [] = ([], [], none) ∧
      resolveFeatureWorktreeConfig quotePlain mainName "feature/test".toList []
        = (trimSpace "feature/test".toList,
            if trimSpace ([] : Str) = [] then mainName else trimSpace [], none) :=
  ⟨(resolveFeatureWorktreeConfig_resolution quotePlain mainName [] "develop".toList).1
      (by decide) (by decide),
    (resolveFeatureWorktreeConfig_resolution quotePlain mainName [] []).2.1
      (by decide) (by decide),
    (resolveFeatureWorktreeConfig_resolution quotePlain mainName "feature/test".toList []).2.2
      (by decide) (by decide) (by decide)⟩

theorem listsBranch_iff (branches : List Str) (name : Str) :
    listsBranch branches name = true ↔ ∃ b ∈ branches, trimSpace b = name := by
  simp [listsBranch]

theorem firstCandidate_eq_some (branches : List Str) (first : Str) (rest : List Str)
    (h : branches = first :: rest) (hne : trimSpace first ≠ []) :
    firstCandidate branches = some (trimSpace first) := by
  subst h
  simp [firstCandidate, hne]

theorem firstCandidate_eq_none (branches : List Str)
    (h : branches = [] ∨ ∃ first rest, branches = first :: rest ∧ trimSpace first = []) :
    firstCandidate branches = none := by
  rcases h with h | ⟨first, rest, h, hb⟩
  · subst h
    rfl
  · subst h
    simp [firstCandidate, hb]

/-- C20. `resolveConvertDefaultBranch` returns the trimmed explicit name when it
is not empty and some listed branch trims to it; otherwise `main` when some
branch trims to `main`; otherwise `master` when some branch trims to `master`;
otherwise the trimmed first branch when that is not blank; otherwise the
trimmed explicit name when it is not empty; otherwise `main`. -/
theorem resolveConvertDefaultBranch_order (explicit : Str) (branches : List Str) :
    ((trimSpace explicit ≠ [] ∧ ∃ b ∈ branches, trimSpace b = trimSpace explicit) →
      resolveConvertDefaultBranch explicit branches = trimSpace explicit) ∧
    (¬ (trimSpace explicit ≠ [] ∧ ∃ b ∈ branches, trimSpace b = trimSpace explicit) →
      ((∃ b ∈ branches, trimSpace b = mainName) →
        resolveConvertDefaultBranch explicit branches = mainName) ∧
      (¬ (∃ b ∈ branches, trimSpace b = mainName) →
        ((∃ b ∈ branches, trimSpace b = masterName) →
          resolveConvertDefaultBranch explicit branches = masterName) ∧
        (¬ (∃ b ∈ branches, trimSpace b = masterName) →
          (∀ first rest, branches = first :: rest → trimSpace first ≠ [] →
            resolveConvertDefaultBranch explicit branches = trimSpace first) ∧
          ((branches = [] ∨ ∃ first rest, branches = first :: rest ∧ trimSpace first = []) →
            (trimSpace explicit ≠ [] →
              resolveConvertDefaultBranch explicit branches = trimSpace explicit) ∧
            (trimSpace explicit = [] →
              resolveConvertDefaultBranch explicit branches = mainName))))) := by
  unfold resolveConvertDefaultBranch
  simp only [← listsBranch_iff]
  constructor
  · intro h
    rw [if_pos h]
  · intro h1
    simp only [h1, if_false]
    constructor
    · intro hm
      simp [List.find?, hm]
    · intro hm
      have hm' : listsBranch branches mainName = false := by simpa using hm
      constructor
      · intro hs
        simp [List.find?, hm', hs]
      · intro hs
        have hs' : listsBranch branches masterName = false := by simpa using hs
        simp only [List.find?, hm', hs']
        refine ⟨?_, ?_⟩
        · intro first rest hb hne
          rw [firstCandidate_eq_some branches first rest hb hne]
        · intro hb
          rw [firstCandidate_eq_none branches hb]
          constructor
          · intro he
            simp only [he, ne_eq, not_false_eq_true, if_true]
          · intro he
            simp only [he, ne_eq, not_true_eq_false, if_false]

/-- C20 at the inputs of the tests and at the two fallbacks. -/
theorem resolveConvertDefaultBranch_order_witness :
    resolveConvertDefaultBranch "trunk".toList ["trunk".toList, "main".toList]
        = trimSpace "trunk".toList ∧
      resolveConvertDefaultBranch [] ["develop".toList, "main".toList, "release".toList]
        = mainName ∧
      resolveConvertDefaultBranch [] ["develop".toList, "master".toList, "release".toList]
        = masterName ∧
      resolveConvertDefaultBranch [] [" dev ".toList, "release".toList]
        = trimSpace " dev ".toList ∧
      resolveConvertDefaultBranch " trunk".toList [] = trimSpace " trunk".toList ∧
      resolveConvertDefaultBranch [] [] = mainName :=
  ⟨(resolveConvertDefaultBranch_order "trunk".toList ["trunk".toList, "main".toList]).1
      ⟨by decide, "trunk".toList, by decide, by decide⟩,
    ((resolveConvertDefaultBranch_order [] ["develop".toList, "main".toList,
      "release".toList]).2 (by decide)).1 ⟨"main".toList, by decide, by decide⟩,
    ((((resolveConvertDefaultBranch_order [] ["develop".toList, "master".toList,
      "release".toList]).2 (by decide)).2 (by decide)).1 ⟨"master".toList, by decide, by decide⟩),
    ((((resolveConvertDefaultBranch_order [] [" dev ".toList, "release".toList]).2
      (by decide)).2 (by decide)).2 (by decide)).1 " dev ".toList ["release".toList] rfl
      (by decide),
    ((((((resolveConvertDefaultBranch_order " trunk".toList []).2 (by decide)).2
      (by decide)).2 (by decide)).2 (Or.inl rfl)).1 (by decide)),
    ((((((resolveConvertDefaultBranch_order [] []).2 (by decide)).2
      (by decide)).2 (by decide)).2 (Or.inl rfl)).2 (by decide))⟩



/-! ## Lines of a listing -/

theorem trimSpace_eq (s : Str) : trimSpace s = (s.dropWhile isSpace).rdropWhile isSpace := rfl

theorem trimSpace_nil : trimSpace ([] : Str) = [] := rfl

theorem trimSpace_cons_space (c : Char) (h : Str) (hc : isSpace c = true) :
    trimSpace (c :: h) = trimSpace h := by
  simp [trimSpace, List.dropWhile_cons, hc]

theorem trimSpace_snoc_space (c : Char) (h : Str) (hc : isSpace c = true) :
    trimSpace (h ++ [c]) = trimSpace h := by
  rw [trimSpace_eq, trimSpace_eq, List.dropWhile_append]
  by_cases he : (List.dropWhile isSpace h).isEmpty = true
  · have : List.dropWhile isSpace h = [] := List.isEmpty_iff.1 he
    simp [this, List.dropWhile_cons, hc, List.rdropWhile]
  · simp only [he, Bool.false_eq_true, if_false]
    exact List.rdropWhile_concat_pos _ _ _ hc

theorem splitOnSep_snoc_sep (sep : Char) (s : Str) :
    splitOnSep sep (s ++ [sep]) = splitOnSep sep s ++ [[]] := by
  rw [splitOnSep_append]
  rfl

theorem splitOnSep_snoc_ne (sep c : Char) (s : Str) (hc : c ≠ sep) :
    ∃ init last, splitOnSep sep s = init ++ [last] ∧
      splitOnSep sep (s ++ [c]) = init ++ [last ++ [c]] := by
  induction s with
  | nil => exact ⟨[], [], rfl, by simp [splitOnSep, hc]⟩
  | cons a as ih =>
    obtain ⟨init, last, h1, h2⟩ := ih
    by_cases ha : a = sep
    · refine ⟨[] :: init, last, ?_, ?_⟩
      · simp [splitOnSep, ha, h1]
      · simp only [List.cons_append, splitOnSep, ha, if_true, List.append_eq, h2]
    · cases init with
      | nil =>
        refine ⟨[], a :: last, ?_, ?_⟩
        · simp only [splitOnSep, ha, if_false, h1, List.nil_append]
        · simp only [List.cons_append, splitOnSep, ha, if_false, List.append_eq, h2,
            List.nil_append]
      | cons x xs =>
        refine ⟨(a :: x) :: xs, last, ?_, ?_⟩
        · simp only [splitOnSep, ha, if_false, h1, List.cons_append]
        · simp only [List.cons_append, splitOnSep, ha, if_false, List.append_eq, h2]

theorem isSpace_newline : isSpace '\n' = true := by decide

theorem nonBlankLines_cons_space (c : Char) (s : Str) (hc : isSpace c = true) :
    nonBlankLines (c :: s) = nonBlankLines s := by
  unfold nonBlankLines splitLines
  by_cases hn : c = '\n'
  · subst hn
    simp [splitOnSep, trimSpace_nil]
  · simp only [splitOnSep, hn, if_false]
    cases hs : splitOnSep '\n' s with
    | nil => exact absurd hs (splitOnSep_ne_nil _ _)
    | cons h t => simp [trimSpace_cons_space c h hc]

theorem nonBlankLines_snoc_space (c : Char) (s : Str) (hc : isSpace c = true) :
    nonBlankLines (s ++ [c]) = nonBlankLines s := by
  unfold nonBlankLines splitLines
  by_cases hn : c = '\n'
  · subst hn
    rw [splitOnSep_snoc_sep]
    simp [trimSpace_nil]
  · obtain ⟨init, last, h1, h2⟩ := splitOnSep_snoc_ne '\n' c s hn
    rw [h1, h2]
    simp [trimSpace_snoc_space c last hc]

theorem nonBlankLines_dropWhile (s : Str) :
    nonBlankLines (s.dropWhile isSpace) = nonBlankLines s := by
  induction s with
  | nil => rfl
  | cons c cs ih =>
    by_cases hc : isSpace c = true
    · rw [List.dropWhile_cons_of_pos hc, ih, nonBlankLines_cons_space c cs hc]
    · rw [List.dropWhile_cons_of_neg hc]

theorem nonBlankLines_rdropWhile (s : Str) :
    nonBlankLines (s.rdropWhile isSpace) = nonBlankLines s := by
  induction s using List.reverseRecOn with
  | nil => rfl
  | append_singleton cs c ih =>
    by_cases hc : isSpace c = true
    · rw [List.rdropWhile_concat_pos _ _ _ hc, ih, nonBlankLines_snoc_space c cs hc]
    · rw [List.rdropWhile_concat_neg _ _ _ hc]

/-- Trimming a listing as a whole does not change its trimmed non-blank lines. -/
theorem nonBlankLines_trimSpace (s : Str) : nonBlankLines (trimSpace s) = nonBlankLines s := by
  rw [trimSpace_eq, nonBlankLines_rdropWhile, nonBlankLines_dropWhile]



/-! ## `ConfigureBareRemote` (C11, C12, C16) -/

theorem runGitCommand_calls {σ : Type} (S : Sys σ) (p : Proc σ) (d : Str) (args : List Str) :
    (runGitCommand S p d args).2.calls = p.calls ++ [(d, args)] := rfl

/-- The deletions attempted by the loop, in order. -/
theorem deleteBranches_calls {σ : Type} (S : Sys σ) (barePath defaultBranch : Str)
    (lines : List Str) (p : Proc σ) :
    (deleteBranches S barePath defaultBranch p lines).calls
      = p.calls ++ (((lines.map trimSpace).filter (fun b => decide (b ≠ []))).filter
          (fun b => decide (b ≠ defaultBranch))).map (fun b => (barePath, deleteBranchArgs b)) := by
  induction lines generalizing p with
  | nil => simp [deleteBranches]
  | cons line rest ih =>
    unfold deleteBranches
    by_cases h1 : trimSpace line = []
    · simp [h1, ih]
    · by_cases h2 : trimSpace line = defaultBranch
      · simp [h1, h2, ih]
      · simp [h1, h2, ih, runGitCommand_calls]

/-- C11. When `git config remote.origin.fetch +refs/heads/*:refs/remotes/origin/*`,
`git fetch origin` and the listing `git branch --format=%(refname:short)`
succeed, `ConfigureBareRemote` returns nil whatever the deletions do, and the
commands it runs after the listing are exactly `git branch -D b`, in the bare
directory, for the trimmed non-empty lines `b` of the listing that differ from
the default branch, in listing order; the default branch is not among them. -/
theorem configureBareRemote_branch_cleanup {σ : Type} (S : Sys σ) (p p1 p2 : Proc σ)
    (barePath defaultBranch : Str)
    (h1 : runGitCommand S p barePath ["config".toList, "remote.origin.fetch".toList,
      "+refs/heads/*:refs/remotes/origin/*".toList] = (none, p1))
    (h2 : runGitCommand S p1 barePath ["fetch".toList, "origin".toList] = (none, p2))
    (h3 : (runGit S p2 barePath ["branch".toList, "--format=%(refname:short)".toList]).1.err
      = none) :
    (configureBareRemote S p barePath defaultBranch).1 = none ∧
      (configureBareRemote S p barePath defaultBranch).2.calls
        = p.calls ++
          [(barePath, ["config".toList, "remote.origin.fetch".toList,
              "+refs/heads/*:refs/remotes/origin/*".toList]),
            (barePath, ["fetch".toList, "origin".toList]),
            (barePath, ["branch".toList, "--format=%(refname:short)".toList])] ++
          ((((splitLines (runGit S p2 barePath
              ["branch".toList, "--format=%(refname:short)".toList]).1.output).map
              trimSpace).filter (fun b => decide (b ≠ []))).filter
              (fun b => decide (b ≠ defaultBranch))).map
            (fun b => (barePath, ["branch".toList, "-D".toList, b])) ∧
      defaultBranch ∉
        (((splitLines (runGit S p2 barePath
          ["branch".toList, "--format=%(refname:short)".toList]).1.output).map
          trimSpace).filter (fun b => decide (b ≠ []))).filter
          (fun b => decide (b ≠ defaultBranch)) := by
  have ha1 : ["config".toList, "remote.origin.fetch".toList,
      "+refs/heads/*:refs/remotes/origin/*".toList] = refspecArgs := rfl
  have ha2 : ["fetch".toList, "origin".toList] = fetchArgs := rfl
  have ha3 : ["branch".toList, "--format=%(refname:short)".toList] = localBranchArgs := rfl
  have ha4 : (fun b : Str => (barePath, ["branch".toList, "-D".toList, b])) =
      fun b => (barePath, deleteBranchArgs b) := rfl
  rw [ha1] at h1 ⊢
  rw [ha2] at h2 ⊢
  rw [ha3] at h3 ⊢
  rw [ha4]
  have hp1 : p1.calls = p.calls ++ [(barePath, refspecArgs)] := by
    have := runGitCommand_calls S p barePath refspecArgs
    rw [h1] at this
    exact this
  have hp2 : p2.calls = p1.calls ++ [(barePath, fetchArgs)] := by
    have := runGitCommand_calls S p1 barePath fetchArgs
    rw [h2] at this
    exact this
  have hrun : configureBareRemote S p barePath defaultBranch
      = (none, deleteBranches S barePath defaultBranch (runGit S p2 barePath localBranchArgs).2
          (splitLines (trimSpace (runGit S p2 barePath localBranchArgs).1.output))) := by
    unfold configureBareRemote
    rw [h1]
    simp only
    rw [h2]
    simp only
    rw [h3]
  rw [hrun]
  refine ⟨rfl, ?_, ?_⟩
  · simp only
    rw [deleteBranches_calls]
    have hnb := nonBlankLines_trimSpace (runGit S p2 barePath localBranchArgs).1.output
    unfold nonBlankLines at hnb
    rw [hnb]
    simp [runGit, hp1, hp2]
  · simp

/-- C11 at a fresh bare clone whose listing has padding and a blank line and
where deleting `feature-a` fails: deletion is attempted for `feature-a` and
`old`, not for `main`, and the call returns nil. -/
theorem configureBareRemote_branch_cleanup_witness :
    (runGitCommand bareCloneSys demoProc "/w/repo/.git".toList
        ["branch".toList, "-D".toList, "feature-a".toList]).1 ≠ none ∧
      (configureBareRemote bareCloneSys demoProc "/w/repo/.git".toList "main".toList).1 = none ∧
      (configureBareRemote bareCloneSys demoProc "/w/repo/.git".toList "main".toList).2.calls
        = [("/w/repo/.git".toList, ["config".toList, "remote.origin.fetch".toList,
              "+refs/heads/*:refs/remotes/origin/*".toList]),
            ("/w/repo/.git".toList, ["fetch".toList, "origin".toList]),
            ("/w/repo/.git".toList, ["branch".toList, "--format=%(refname:short)".toList]),
            ("/w/repo/.git".toList, ["branch".toList, "-D".toList, "feature-a".toList]),
            ("/w/repo/.git".toList, ["branch".toList, "-D".toList, "old".toList])] ∧
      "main".toList ∉
        (((splitLines "main\n  feature-a\n\nold \n".toList).map trimSpace).filter
          (fun b => decide (b ≠ []))).filter (fun b => decide (b ≠ "main".toList)) :=
  have h := configureBareRemote_branch_cleanup bareCloneSys demoProc
    (runGitCommand bareCloneSys demoProc "/w/repo/.git".toList
      ["config".toList, "remote.origin.fetch".toList,
        "+refs/heads/*:refs/remotes/origin/*".toList]).2
    (runGitCommand bareCloneSys (runGitCommand bareCloneSys demoProc "/w/repo/.git".toList
      ["config".toList, "remote.origin.fetch".toList,
        "+refs/heads/*:refs/remotes/origin/*".toList]).2 "/w/repo/.git".toList
      ["fetch".toList, "origin".toList]).2
    "/w/repo/.git".toList "main".toList (by rfl) (by rfl) (by rfl)
  ⟨by decide, h.1, h.2.1.trans (by decide), h.2.2⟩

/-- C12, the counterexample. With the refspec and the fetch succeeding, a failure
of the local-branch listing inside step 3 makes `ConfigureBareRemote` return
`failed to list local branches: exit status 128`. -/
theorem configureBareRemote_listing_failure_is_fatal :
    (runGitCommand listFailSys demoProc demoStore.bare refspecArgs).1 = none ∧
      (runGitCommand listFailSys
        (runGitCommand listFailSys demoProc demoStore.bare refspecArgs).2
        demoStore.bare fetchArgs).1 = none ∧
      (configureBareRemote listFailSys demoProc demoStore.bare mainName).1
        = some (errorfW listLocalFailed (.plain "exit status 128".toList)) := by
  decide

/-- C12, amended. `ConfigureBareRemote` returns an error exactly when the
refspec step fails, or the fetch fails, or the local-branch listing of step 3
fails; the fetch is not attempted when the refspec step fails; and once the
listing has succeeded no failed deletion makes the call return an error. -/
theorem configureBareRemote_failure_semantics {σ : Type} (S : Sys σ) (p : Proc σ)
    (barePath defaultBranch : Str) :
    ((configureBareRemote S p barePath defaultBranch).1 ≠ none ↔
      ((runGitCommand S p barePath refspecArgs).1 ≠ none ∨
        (runGitCommand S (runGitCommand S p barePath refspecArgs).2 barePath fetchArgs).1
          ≠ none ∨
        (runGit S
          (runGitCommand S (runGitCommand S p barePath refspecArgs).2 barePath fetchArgs).2
          barePath localBranchArgs).1.err ≠ none)) ∧
    ((runGitCommand S p barePath refspecArgs).1 ≠ none →
      (configureBareRemote S p barePath defaultBranch).2.calls
        = p.calls ++ [(barePath, refspecArgs)]) := by
  unfold configureBareRemote
  rcases h1 : runGitCommand S p barePath refspecArgs with ⟨e1, p1⟩
  cases e1 with
  | some e =>
    have hc := runGitCommand_calls S p barePath refspecArgs
    rw [h1] at hc
    simp only at hc
    simp [hc]
  | none =>
    simp only
    rcases h2 : runGitCommand S p1 barePath fetchArgs with ⟨e2, p2⟩
    cases e2 with
    | some e => simp
    | none =>
      simp only
      cases h3 : (runGit S p2 barePath localBranchArgs).1.err with
      | some e => simp
      | none => simp

/-- C12 amended, at the system whose listing fails and at the one whose fetch fails. -/
theorem configureBareRemote_failure_semantics_witness :
    (configureBareRemote listFailSys demoProc demoStore.bare mainName).1 ≠ none ∧
      (configureBareRemote offlineSys demoProc demoStore.bare mainName).1 ≠ none :=
  ⟨(configureBareRemote_failure_semantics listFailSys demoProc demoStore.bare mainName).1.2
      (Or.inr (Or.inr (by decide))),
    (configureBareRemote_failure_semantics offlineSys demoProc demoStore.bare mainName).1.2
      (Or.inr (Or.inl (by decide)))⟩

/-- C16, evaluated. When `git fetch origin` fails and prints its diagnostic,
`ConfigureBareRemote` returns `failed to fetch from origin: exit status 128`:
the message names the step, but nothing git printed is in it, because
`runGitCommand` runs git without capturing its output. -/
theorem configureBareRemote_error_omits_git_output :
    (runGit offlineSys (runGitCommand offlineSys demoProc demoStore.bare refspecArgs).2
        demoStore.bare fetchArgs).1.output = fetchDiagnostic ∧
      (configureBareRemote offlineSys demoProc demoStore.bare mainName).1
        = some (.wrap "failed to fetch from origin: exit status 128".toList
            (.plain "exit status 128".toList)) ∧
      (∀ e, (configureBareRemote offlineSys demoProc demoStore.bare mainName).1 = some e →
        containsStr e.text fetchDiagnostic = false) := by
  refine ⟨by decide, by decide, ?_⟩
  intro e he
  have h : (configureBareRemote offlineSys demoProc demoStore.bare mainName).1
      = some (.wrap "failed to fetch from origin: exit status 128".toList
          (.plain "exit status 128".toList)) := by decide
  rw [h] at he
  cases he
  decide

/-! ## `ListBranches` (C13, C14, C15) -/

theorem strLe_total (a b : Str) : strLe a b = true ∨ strLe b a = true := by
  induction a generalizing b with
  | nil => exact Or.inl rfl
  | cons x xs ih =>
    cases b with
    | nil => exact Or.inr rfl
    | cons y ys =>
      simp only [strLe]
      by_cases h1 : x.toNat < y.toNat
      · simp [h1]
      · by_cases h2 : y.toNat < x.toNat
        · simp [h2]
        · simpa [h1, h2] using ih ys

theorem strLe_trans (a b c : Str) (hab : strLe a b = true) (hbc : strLe b c = true) :
    strLe a c = true := by
  induction a generalizing b c with
  | nil => rfl
  | cons x xs ih =>
    cases b with
    | nil => simp [strLe] at hab
    | cons y ys =>
      cases c with
      | nil => simp [strLe] at hbc
      | cons z zs =>
        simp only [strLe] at hab hbc ⊢
        by_cases hxy : x.toNat < y.toNat
        · by_cases hyz : y.toNat < z.toNat
          · have : x.toNat < z.toNat := by omega
            simp [this]
          · by_cases hzy : z.toNat < y.toNat
            · simp [hyz, hzy] at hbc
            · have : x.toNat < z.toNat := by omega
              simp [this]
        · by_cases hyx : y.toNat < x.toNat
          · simp [hxy, hyx] at hab
          · simp only [hxy, hyx, if_false] at hab
            by_cases hyz : y.toNat < z.toNat
            · have : x.toNat < z.toNat := by omega
              simp [this]
            · by_cases hzy : z.toNat < y.toNat
              · simp [hyz, hzy] at hbc
              · simp only [hyz, hzy, if_false] at hbc
                have h1 : ¬ x.toNat < z.toNat := by omega
                have h2 : ¬ z.toNat < x.toNat := by omega
                simp only [h1, h2, if_false]
                exact ih ys zs hab hbc

theorem mem_addBranch (seen : List Str) (line b : Str) :
    b ∈ addBranch seen line ↔
      b ∈ seen ∨ (b = trimPrefix (trimSpace line) originSlash ∧ keepBranch b = true) := by
  unfold addBranch
  by_cases hk : keepBranch (trimPrefix (trimSpace line) originSlash) = true
  · simp only [hk, if_true]
    by_cases hm : trimPrefix (trimSpace line) originSlash ∈ seen
    · simp only [hm, if_true]
      constructor
      · exact Or.inl
      · rintro (h | ⟨h, -⟩)
        · exact h
        · rw [h]
          exact hm
    · simp only [hm, if_false, List.mem_append, List.mem_singleton]
      constructor
      · rintro (h | h)
        · exact Or.inl h
        · exact Or.inr ⟨h, by rw [h]; exact hk⟩
      · rintro (h | ⟨h, -⟩)
        · exact Or.inl h
        · exact Or.inr h
  · simp only [hk, Bool.false_eq_true, if_false]
    constructor
    · exact Or.inl
    · rintro (h | ⟨h, hb⟩)
      · exact h
      · rw [h] at hb
        exact absurd hb hk

theorem nodup_addBranch (seen : List Str) (line : Str) (h : seen.Nodup) :
    (addBranch seen line).Nodup := by
  unfold addBranch
  by_cases hk : keepBranch (trimPrefix (trimSpace line) originSlash) = true
  · simp only [hk, if_true]
    by_cases hm : trimPrefix (trimSpace line) originSlash ∈ seen
    · simpa [hm] using h
    · simp only [hm, if_false]
      exact List.Nodup.append h (List.nodup_singleton _) (by simpa using hm)
  · simpa [hk] using h

theorem nodup_addLines (lines seen : List Str) (h : seen.Nodup) :
    (addLines seen lines).Nodup := by
  induction lines generalizing seen with
  | nil => exact h
  | cons line rest ih =>
    unfold addLines
    by_cases hl : trimSpace line ≠ []
    · simp only [hl, ne_eq, not_false_eq_true, if_true]
      exact ih _ (nodup_addBranch seen line h)
    · simp only [hl, if_false]
      exact ih _ h

theorem keepBranch_nil : keepBranch [] = false := by decide

theorem trimPrefix_nil (p : Str) : trimPrefix [] p = [] := by
  unfold trimPrefix
  split <;> simp

/-- The names a loop of `ListBranches` adds come from the trimmed non-blank lines. -/
theorem mem_addLines (lines seen : List Str) (b : Str) :
    b ∈ addLines seen lines ↔
      b ∈ seen ∨ ∃ t ∈ (lines.map trimSpace).filter (fun x => decide (x ≠ [])),
        b = trimPrefix t originSlash ∧ keepBranch b = true := by
  induction lines generalizing seen with
  | nil => simp [addLines]
  | cons line rest ih =>
    unfold addLines
    by_cases hl : trimSpace line ≠ []
    · simp only [hl, ne_eq, not_false_eq_true, if_true, ih, mem_addBranch, List.map_cons,
        List.filter_cons, decide_True, List.mem_cons, exists_eq_or_imp]
      tauto
    · simp only [hl, if_false, ih, List.map_cons, List.filter_cons, decide_False,
        Bool.false_eq_true]

/-- The names `ListBranches` collects from one raw listing. -/
theorem mem_addLines_listing (output : Str) (seen : List Str) (b : Str) :
    b ∈ addLines seen (splitLines (trimSpace output)) ↔
      b ∈ seen ∨ ∃ line ∈ splitLines output,
        b = trimPrefix (trimSpace line) originSlash ∧ keepBranch b = true := by
  rw [mem_addLines]
  have h := nonBlankLines_trimSpace output
  unfold nonBlankLines at h
  rw [h]
  constructor
  · rintro (hs | ⟨t, ht, hb⟩)
    · exact Or.inl hs
    · simp only [List.mem_filter, List.mem_map] at ht
      obtain ⟨⟨line, hline, rfl⟩, -⟩ := ht
      exact Or.inr ⟨line, hline, hb⟩
  · rintro (hs | ⟨line, hline, hb1, hb2⟩)
    · exact Or.inl hs
    · refine Or.inr ⟨trimSpace line, ?_, hb1, hb2⟩
      simp only [List.mem_filter, List.mem_map, decide_eq_true_eq]
      refine ⟨⟨line, hline, rfl⟩, ?_⟩
      intro he
      rw [he, trimPrefix_nil] at hb1
      rw [hb1, keepBranch_nil] at hb2
      exact absurd hb2 (by decide)

theorem mem_branchesOf (remoteOutput localOutput b : Str) :
    b ∈ branchesOf remoteOutput localOutput ↔
      ∃ line ∈ splitLines remoteOutput ++ splitLines localOutput,
        b = trimPrefix (trimSpace line) originSlash ∧ keepBranch b = true := by
  unfold branchesOf
  rw [(List.perm_insertionSort _ _).mem_iff, mem_addLines_listing, mem_addLines_listing]
  simp only [List.not_mem_nil, false_or, List.mem_append]
  constructor
  · rintro (⟨line, h, hb⟩ | ⟨line, h, hb⟩)
    · exact ⟨line, Or.inl h, hb⟩
    · exact ⟨line, Or.inr h, hb⟩
  · rintro ⟨line, h | h, hb⟩
    · exact Or.inl ⟨line, h, hb⟩
    · exact Or.inr ⟨line, h, hb⟩

theorem keepBranch_iff (b : Str) :
    keepBranch b = true ↔
      b ≠ [] ∧ b ≠ headName ∧ b ≠ originName ∧ ¬ arrowMark <:+: b := by
  simp [keepBranch, containsStr, not_or, and_assoc]

/-- C13. For every pair of raw listings, no name `ListBranches` returns is the
empty string, `HEAD`, `origin`, or a string containing `->`. -/
theorem listBranches_excludes_symbolic (remoteOutput localOutput : Str) :
    ∀ b ∈ branchesOf remoteOutput localOutput,
      b ≠ [] ∧ b ≠ headName ∧ b ≠ originName ∧ ¬ arrowMark <:+: b := by
  intro b hb
  obtain ⟨line, -, -, hk⟩ := (mem_branchesOf remoteOutput localOutput b).1 hb
  exact (keepBranch_iff b).1 hk

/-- C13 at a listing with the symbolic pointer in both of its forms. -/
theorem listBranches_excludes_symbolic_witness :
    mainName ≠ [] ∧ mainName ≠ headName ∧ mainName ≠ originName ∧ ¬ arrowMark <:+: mainName :=
  listBranches_excludes_symbolic
    "origin\norigin/HEAD -> origin/main\norigin/HEAD\norigin/main\n".toList "main\n".toList
    mainName (by decide)

/-- C14. For every pair of raw listings the result of `ListBranches` is strictly
ascending, hence sorted and free of duplicates, and its elements are exactly
the names got by trimming a line of either listing, stripping a leading
`origin/`, and passing the exclusion test.  A branch listed as `origin/main`
and as `main` appears once, and the branches `main` and `feature-a` give
`feature-a`, `main`. -/
theorem listBranches_characterization (remoteOutput localOutput : Str) :
    List.Pairwise (fun a b => strLe a b = true ∧ a ≠ b) (branchesOf remoteOutput localOutput) ∧
      (∀ b, b ∈ branchesOf remoteOutput localOutput ↔
        ∃ line ∈ splitLines remoteOutput ++ splitLines localOutput,
          b = trimPrefix (trimSpace line) originSlash ∧ keepBranch b = true) ∧
      branchesOf "origin/main\n".toList "main\n".toList = [mainName] ∧
      branchesOf "origin\norigin/main\norigin/feature-a\n".toList "main\nfeature-a\n".toList
        = ["feature-a".toList, mainName] := by
  refine ⟨?_, mem_branchesOf remoteOutput localOutput, by decide, by decide⟩
  unfold branchesOf
  haveI : IsTotal Str (fun a b => strLe a b = true) := ⟨strLe_total⟩
  haveI : IsTrans Str (fun a b => strLe a b = true) := ⟨strLe_trans⟩
  have hs := List.sorted_insertionSort (fun a b : Str => strLe a b = true)
    (addLines (addLines [] (splitLines (trimSpace remoteOutput)))
      (splitLines (trimSpace localOutput)))
  have hn : (List.insertionSort (fun a b : Str => strLe a b = true)
      (addLines (addLines [] (splitLines (trimSpace remoteOutput)))
        (splitLines (trimSpace localOutput)))).Nodup :=
    (List.perm_insertionSort _ _).nodup_iff.2
      (nodup_addLines _ _ (nodup_addLines _ _ List.nodup_nil))
  exact List.Pairwise.and hs hn

theorem hasPrefix_false_trimPrefix (s p : Str) (h : hasPrefix s p = false) :
    trimPrefix s p = s := by
  simp [trimPrefix, h]

/-- C15, the counterexample. The remote branch `origin/foo` is listed as
`origin/origin/foo`; `ListBranches` strips one `origin/` and returns
`origin/foo`, which begins with `origin/`. -/
theorem listBranches_keeps_second_origin :
    branchesOf "origin/main\norigin/origin/foo\n".toList "main\n".toList
        = [mainName, "origin/foo".toList] ∧
      hasPrefix "origin/foo".toList originSlash = true := by
  decide

/-- C15, amended. Every name `ListBranches` returns is a trimmed line with at
most one leading `origin/` removed: the trimmed line itself when that does
not begin with `origin/`, the rest of it after the first `origin/` otherwise.
So a returned name begins with `origin/` only if the trimmed line began with
`origin/origin/`. -/
theorem listBranches_strips_origin_once (remoteOutput localOutput : Str) :
    ∀ b ∈ branchesOf remoteOutput localOutput,
      (∃ line ∈ splitLines remoteOutput ++ splitLines localOutput,
        (hasPrefix (trimSpace line) originSlash = false ∧ b = trimSpace line) ∨
          trimSpace line = originSlash ++ b) ∧
      (hasPrefix b originSlash = true →
        ∃ line ∈ splitLines remoteOutput ++ splitLines localOutput,
          trimSpace line = originSlash ++ (originSlash ++ (trimPrefix b originSlash))) := by
  intro b hb
  obtain ⟨line, hline, hstrip, -⟩ := (mem_branchesOf remoteOutput localOutput b).1 hb
  have hcase : (hasPrefix (trimSpace line) originSlash = false ∧ b = trimSpace line) ∨
      trimSpace line = originSlash ++ b := by
    cases hp : hasPrefix (trimSpace line) originSlash with
    | false =>
      left
      exact ⟨rfl, by rw [hstrip, hasPrefix_false_trimPrefix _ _ hp]⟩
    | true =>
      right
      obtain ⟨rest, hrest⟩ := (hasPrefix_iff _ _).1 hp
      rw [hstrip, hrest, trimPrefix_append]
  refine ⟨⟨line, hline, hcase⟩, ?_⟩
  intro hpre
  refine ⟨line, hline, ?_⟩
  obtain ⟨rest, hrest⟩ := (hasPrefix_iff _ _).1 hpre
  rcases hcase with ⟨hno, hbl⟩ | h
  · rw [← hbl, hpre] at hno
    exact absurd hno (by decide)
  · rw [h, hrest, trimPrefix_append]

/-- C15 amended, at the listing of the counterexample. -/
theorem listBranches_strips_origin_once_witness :
    ∃ line ∈ splitLines "origin/main\norigin/origin/foo\n".toList ++ splitLines "main\n".toList,
      trimSpace line
        = originSlash ++ (originSlash ++ (trimPrefix "origin/foo".toList originSlash)) :=
  (listBranches_strips_origin_once "origin/main\norigin/origin/foo\n".toList
    "main\n".toList "origin/foo".toList (by decide)).2 (by decide)

/-- When both listings succeed `ListBranches` returns the names computed from
their outputs. -/
theorem listBranches_ok {σ : Type} (S : Sys σ) (p : Proc σ) (path : Str)
    (h1 : (runGit S p path remoteBranchArgs).1.err = none)
    (h2 : (runGit S (runGit S p path remoteBranchArgs).2 path localBranchArgs).1.err = none) :
    (listBranches S p path).1
      = .ok (branchesOf (runGit S p path remoteBranchArgs).1.output
          (runGit S (runGit S p path remoteBranchArgs).2 path localBranchArgs).1.output) := by
  unfold listBranches
  simp only [h1, h2]

/-! ## Concurrent calls (C17) -/

/-- The steps of a call, taken one after the other with nothing in between,
are the method `runWorktreeAdd`. -/
theorem stepsCall_four {σ : Type} (S : Sys σ) (c : AddCall) (p : Proc σ) :
    stepsCall S c 4 (.start, p)
      = (.done (runWorktreeAdd S p c.barePath c.worktreePath c.prePathArgs c.postPathArgs).1,
          (runWorktreeAdd S p c.barePath c.worktreePath c.prePathArgs c.postPathArgs).2) := by
  unfold runWorktreeAdd
  simp only [stepsCall, stepCall]
  cases ha : absPath S p.state c.worktreePath with
  | error e => simp [stepCall]
  | ok A =>
    simp only
    rcases hm : S.mkdirAll p.state (dir A) with ⟨e1, s1⟩
    cases e1 with
    | some e => simp [stepCall]
    | none =>
      simp only [stepCall]
      rcases hr : isWorktreeRegistered S { p with state := s1 } c.barePath A with ⟨⟨b, e2⟩, p2⟩
      cases e2 with
      | some e => cases b <;> simp [stepCall]
      | none =>
        cases b with
        | true => simp [stepCall]
        | false =>
          simp only [stepCall]
          unfold addWorktree
          generalize "already exists".toList = marker
          generalize "failed to create worktree: ".toList = pre'
          cases he : (runGit S p2 c.barePath
              (worktreeAddArgs c.prePathArgs A c.postPathArgs)).1.err with
          | none => simp only [he, stepCall]
          | some err =>
            simp only [he]
            by_cases hc : containsStr (runGit S p2 c.barePath
                (worktreeAddArgs c.prePathArgs A c.postPathArgs)).1.output marker = true
            · rw [if_pos hc, if_pos hc]
              simp only [stepCall]
              rcases hr2 : isWorktreeRegistered S (runGit S p2 c.barePath
                (worktreeAddArgs c.prePathArgs A c.postPathArgs)).2 c.barePath A
                with ⟨⟨b', e3⟩, p4⟩
              cases b' <;> cases e3 <;> rfl
            · rw [if_neg hc, if_neg hc]

/-- C17, evaluated. Two calls `CreateDetachedWorktree` for the same path that
ends in a space, on the same store: whether the first call runs to its end
before the second starts or the two take their steps in turn, the first
returns nil and the second returns git's `already exists` error.  With the
path without the space both calls return nil under the same schedules and the
path is registered once. -/
theorem concurrent_calls_do_not_converge :
    (runSchedule simpleSys
        [detachedCall demoStore.bare spacedPath mainName,
          detachedCall demoStore.bare spacedPath mainName]
        [0, 0, 0, 0, 1, 1, 1, 1] demoProc).1
      = [.done none,
          .done (some (errorfWOut "failed to create worktree: ".toList
            (.plain "exit status 128".toList)
            "fatal: '/w/repo/review ' already exists\n".toList))] ∧
    (runSchedule simpleSys
        [detachedCall demoStore.bare spacedPath mainName,
          detachedCall demoStore.bare spacedPath mainName]
        [0, 1, 0, 1, 0, 1, 0, 1] demoProc).1
      = [.done none,
          .done (some (errorfWOut "failed to create worktree: ".toList
            (.plain "exit status 128".toList)
            "fatal: '/w/repo/review ' already exists\n".toList))] ∧
    (runSchedule simpleSys
        [detachedCall demoStore.bare "/w/repo/review".toList mainName,
          detachedCall demoStore.bare "/w/repo/review".toList mainName]
        [0, 0, 0, 0, 1, 1, 1, 1] demoProc).1 = [.done none, .done none] ∧
    (runSchedule simpleSys
        [detachedCall demoStore.bare "/w/repo/review".toList mainName,
          detachedCall demoStore.bare "/w/repo/review".toList mainName]
        [0, 1, 0, 1, 0, 1, 0, 1] demoProc).1 = [.done none, .done none] ∧
    (runSchedule simpleSys
        [detachedCall demoStore.bare "/w/repo/review".toList mainName,
          detachedCall demoStore.bare "/w/repo/review".toList mainName]
        [0, 1, 0, 1, 0, 1, 0, 1] demoProc).2.state.worktrees.count "/w/repo/review".toList
      = 1 := by
  decide

/-! ## Trimming and endings -/

theorem hasSuffix_iff (s x : Str) : hasSuffix s x = true ↔ ∃ init, s = init ++ x := by
  unfold hasSuffix
  rw [List.isSuffixOf_iff_suffix]
  constructor
  · rintro ⟨t, ht⟩
    exact ⟨t, ht.symm⟩
  · rintro ⟨t, ht⟩
    exact ⟨t, ht.symm⟩

theorem trimSuffix_append (init x : Str) : trimSuffix (init ++ x) x = init := by
  have : hasSuffix (init ++ x) x = true := (hasSuffix_iff _ _).2 ⟨init, rfl⟩
  simp [trimSuffix, this]

theorem hasSuffix_false_trimSuffix (s x : Str) (h : hasSuffix s x = false) :
    trimSuffix s x = s := by
  simp [trimSuffix, h]

/-- A text that neither starts nor ends with white space is left alone by
`strings.TrimSpace`. -/
theorem trimSpace_eq_self (s : Str) (hh : ∀ h : s ≠ [], isSpace (s.head h) = false)
    (hl : ∀ h : s ≠ [], isSpace (s.getLast h) = false) : trimSpace s = s := by
  rw [trimSpace_eq]
  have h1 : s.dropWhile isSpace = s := by
    cases s with
    | nil => rfl
    | cons c cs =>
      have := hh (by simp)
      simp only [List.head_cons] at this
      simp [List.dropWhile_cons, this]
  rw [h1, List.rdropWhile_eq_self_iff]
  intro hne
  simp [hl hne]

theorem trimSpace_head (s : Str) (h : trimSpace s ≠ []) :
    isSpace ((trimSpace s).head h) = false := by
  have hp : trimSpace s <+: s.dropWhile isSpace := by
    rw [trimSpace_eq]
    exact List.rdropWhile_prefix _ _
  obtain ⟨t, ht⟩ := hp
  have hne : s.dropWhile isSpace ≠ [] := by
    intro h0
    rw [h0] at ht
    exact h (List.append_eq_nil.1 ht).1
  have h2 := List.head_dropWhile_not isSpace s hne
  have h3 : (trimSpace s).head h = (s.dropWhile isSpace).head hne := by
    have e1 : (trimSpace s ++ t).head? = (trimSpace s).head? :=
      List.head?_append_of_ne_nil _ h
    rw [ht, List.head?_eq_head hne, List.head?_eq_head h] at e1
    exact (Option.some.inj e1).symm
  rw [h3]
  simpa using h2

theorem trimSpace_getLast (s : Str) (h : trimSpace s ≠ []) :
    isSpace ((trimSpace s).getLast h) = false := by
  have := List.rdropWhile_last_not isSpace (s.dropWhile isSpace) h
  simpa using this

theorem trimSpace_idem (s : Str) : trimSpace (trimSpace s) = trimSpace s :=
  trimSpace_eq_self _ (trimSpace_head s) (trimSpace_getLast s)

/-- A text between a first and a last character that are not white space is
left alone by `strings.TrimSpace`. -/
theorem trimSpace_between (a b : Char) (mid : Str) (ha : isSpace a = false)
    (hb : isSpace b = false) : trimSpace (a :: (mid ++ [b])) = a :: (mid ++ [b]) := by
  apply trimSpace_eq_self
  · intro _
    simpa using ha
  · intro h
    have : (a :: (mid ++ [b])).getLast h = b := by simp
    rw [this]
    exact hb

theorem containsStr_sep_iff (s : Str) : containsStr s sepStr = true ↔ '/' ∈ s := by
  unfold containsStr sepStr
  rw [decide_eq_true_iff]
  constructor
  · rintro ⟨a, b, h⟩
    rw [← h]
    simp
  · intro h
    obtain ⟨a, b, h⟩ := List.append_of_mem h
    exact ⟨a, b, by simp [h]⟩

theorem splitOnSep_pair_mem (s owner repo : Str) (h : splitOnSep '/' s = [owner, repo]) :
    '/' ∈ s := by
  by_contra hn
  rw [splitOnSep_of_not_mem _ _ hn] at h
  simp at h
/-! ## `ParseRepoURL` (C22, C30) -/

/-- C22. `ParseRepoURL` works on the trimmed input `t`. When `t` starts with
`git@`, `https://` or `http://` the result is `t` itself if it ends in `.git`
and `t` followed by `.git` otherwise, with no error. When it starts with none
of them and splits at `/` into exactly two parts, the result is the SSH address
`git@github.com:owner/repo.git`. Every remaining input, among them every input
without a `/`, gives the empty string and the error `invalid repo format`. -/
theorem parseRepoURL_normalization (input : Str) :
    ((hasPrefix (trimSpace input) gitAt = true ∨ hasPrefix (trimSpace input) httpsScheme = true ∨
        hasPrefix (trimSpace input) httpScheme = true) →
      parseRepoURL input =
        (if hasSuffix (trimSpace input) dotGit = true then trimSpace input
          else trimSpace input ++ dotGit, none)) ∧
    (¬ (hasPrefix (trimSpace input) gitAt = true ∨ hasPrefix (trimSpace input) httpsScheme = true ∨
        hasPrefix (trimSpace input) httpScheme = true) →
      (∀ owner repo, splitOnSep '/' (trimSpace input) = [owner, repo] →
        parseRepoURL input = (sshHost ++ owner ++ sepStr ++ repo ++ dotGit, none)) ∧
      ((¬ ∃ owner repo, splitOnSep '/' (trimSpace input) = [owner, repo]) →
        parseRepoURL input = ([], some (invalidRepoFormat (trimSpace input)))) ∧
      ('/' ∉ trimSpace input →
        parseRepoURL input = ([], some (invalidRepoFormat (trimSpace input))))) := by
  refine ⟨fun h => ?_, fun h => ⟨fun owner repo hs => ?_, fun hn => ?_, fun hn => ?_⟩⟩
  · have hc : (hasPrefix (trimSpace input) gitAt || hasPrefix (trimSpace input) httpsScheme ||
        hasPrefix (trimSpace input) httpScheme) = true := by
      rcases h with h | h | h <;> simp [h]
    unfold parseRepoURL
    simp only [hc, if_true]
    cases hsuf : hasSuffix (trimSpace input) dotGit <;> simp
  · have hc : (hasPrefix (trimSpace input) gitAt || hasPrefix (trimSpace input) httpsScheme ||
        hasPrefix (trimSpace input) httpScheme) = false := by
      simp only [not_or, Bool.not_eq_true] at h
      simp [h.1, h.2.1, h.2.2]
    have hcont : containsStr (trimSpace input) sepStr = true :=
      (containsStr_sep_iff _).2 (splitOnSep_pair_mem _ _ _ hs)
    unfold parseRepoURL
    simp only [hc, hcont, hs, if_true, sshAddress]
    rfl
  · have hc : (hasPrefix (trimSpace input) gitAt || hasPrefix (trimSpace input) httpsScheme ||
        hasPrefix (trimSpace input) httpScheme) = false := by
      simp only [not_or, Bool.not_eq_true] at h
      simp [h.1, h.2.1, h.2.2]
    unfold parseRepoURL
    simp only [hc, Bool.false_eq_true, if_false]
    by_cases hcont : containsStr (trimSpace input) sepStr = true
    · simp only [hcont, if_true]
      split
      · rename_i owner repo heq
        exact absurd ⟨owner, repo, heq⟩ hn
      · rfl
    · simp only [hcont, Bool.false_eq_true, if_false]
  · have hc : (hasPrefix (trimSpace input) gitAt || hasPrefix (trimSpace input) httpsScheme ||
        hasPrefix (trimSpace input) httpScheme) = false := by
      simp only [not_or, Bool.not_eq_true] at h
      simp [h.1, h.2.1, h.2.2]
    have hcont : ¬ containsStr (trimSpace input) sepStr = true := by
      rw [containsStr_sep_iff]
      exact hn
    unfold parseRepoURL
    simp only [hc, hcont, Bool.false_eq_true, if_false]

/-- C22, at an SSH address without `.git`, at `owner/repo` and at a text without `/`. -/
theorem parseRepoURL_normalization_witness :
    parseRepoURL " git@github.com:facebook/react ".toList =
        ("git@github.com:facebook/react.git".toList, none) ∧
      parseRepoURL "facebook/react".toList =
        ("git@github.com:facebook/react.git".toList, none) ∧
      parseRepoURL "invalid".toList =
        ([], some (invalidRepoFormat "invalid".toList)) := by
  refine ⟨?_, ?_, ?_⟩
  · exact (parseRepoURL_normalization " git@github.com:facebook/react ".toList).1
      (Or.inl (by decide))
  · exact ((parseRepoURL_normalization "facebook/react".toList).2 (by decide)).1
      "facebook".toList "react".toList (by decide)
  · exact ((parseRepoURL_normalization "invalid".toList).2 (by decide)).2.2 (by decide)
theorem hasPrefix_append_right (s p extra : Str) (h : hasPrefix s p = true) :
    hasPrefix (s ++ extra) p = true := by
  obtain ⟨rest, hr⟩ := (hasPrefix_iff _ _).1 h
  exact (hasPrefix_iff _ _).2 ⟨rest ++ extra, by rw [hr, List.append_assoc]⟩

/-- An address that is trimmed already, starts with one of the three schemes
and ends in `.git` is returned as it is. -/
theorem parseRepoURL_fixed (u : Str) (htrim : trimSpace u = u)
    (hpre : (hasPrefix u gitAt || hasPrefix u httpsScheme || hasPrefix u httpScheme) = true)
    (hsuf : hasSuffix u dotGit = true) : parseRepoURL u = (u, none) := by
  unfold parseRepoURL
  simp only [htrim, hpre, hsuf, if_true, Bool.not_true, Bool.false_eq_true, if_false]

theorem trimSpace_append_dotGit (t : Str) (hne : trimSpace t ≠ []) :
    trimSpace (trimSpace t ++ dotGit) = trimSpace t ++ dotGit := by
  apply trimSpace_eq_self
  · intro h
    rw [List.head_append_of_ne_nil hne]
    exact trimSpace_head t hne
  · intro h
    have : (trimSpace t ++ dotGit).getLast h = 't' := by
      simp [dotGit]
    rw [this]
    decide

theorem trimSpace_sshAddress (owner repo : Str) :
    trimSpace (sshAddress owner repo) = sshAddress owner repo := by
  have e : sshAddress owner repo =
      'g' :: (("it@github.com:".toList ++ owner ++ sepStr ++ repo ++ ".gi".toList) ++ ['t']) := by
    simp [sshAddress, sshHost, dotGit, sepStr]
  rw [e]
  exact trimSpace_between 'g' 't' _ (by decide) (by decide)

theorem hasPrefix_sshAddress (owner repo : Str) :
    hasPrefix (sshAddress owner repo) gitAt = true :=
  (hasPrefix_iff _ _).2 ⟨"github.com:".toList ++ owner ++ sepStr ++ repo ++ dotGit, by
    simp [sshAddress, sshHost, gitAt]⟩

theorem hasSuffix_sshAddress (owner repo : Str) :
    hasSuffix (sshAddress owner repo) dotGit = true :=
  (hasSuffix_iff _ _).2 ⟨sshHost ++ owner ++ sepStr ++ repo, rfl⟩

theorem scheme_ne_nil (t : Str)
    (h : (hasPrefix t gitAt || hasPrefix t httpsScheme || hasPrefix t httpScheme) = true) :
    t ≠ [] := by
  intro h0
  subst h0
  revert h
  decide

/-- C30. Whenever `ParseRepoURL` succeeds on an input with the result `u`, it
succeeds on `u` as well and returns `u` unchanged. -/
theorem parseRepoURL_idempotent (x u : Str) (h : parseRepoURL x = (u, none)) :
    parseRepoURL u = (u, none) := by
  unfold parseRepoURL at h
  by_cases hc : (hasPrefix (trimSpace x) gitAt || hasPrefix (trimSpace x) httpsScheme ||
      hasPrefix (trimSpace x) httpScheme) = true
  · have hne : trimSpace x ≠ [] := scheme_ne_nil _ hc
    simp only [hc, if_true] at h
    cases hsuf : hasSuffix (trimSpace x) dotGit
    · simp only [hsuf, Bool.not_false, if_true] at h
      have hu : u = trimSpace x ++ dotGit := (congrArg Prod.fst h).symm
      subst hu
      refine parseRepoURL_fixed _ (trimSpace_append_dotGit x hne) ?_
        ((hasSuffix_iff _ _).2 ⟨_, rfl⟩)
      simp only [Bool.or_eq_true] at hc ⊢
      rcases hc with (hc | hc) | hc
      · exact Or.inl (Or.inl (hasPrefix_append_right _ _ _ hc))
      · exact Or.inl (Or.inr (hasPrefix_append_right _ _ _ hc))
      · exact Or.inr (hasPrefix_append_right _ _ _ hc)
    · simp only [hsuf, Bool.not_true, Bool.false_eq_true, if_false] at h
      have hu : u = trimSpace x := (congrArg Prod.fst h).symm
      subst hu
      exact parseRepoURL_fixed _ (trimSpace_idem x) hc hsuf
  · rw [Bool.not_eq_true] at hc
    simp only [hc, Bool.false_eq_true, if_false] at h
    by_cases hcont : containsStr (trimSpace x) sepStr = true
    · simp only [hcont, if_true] at h
      split at h
      · have hu : u = sshAddress _ _ := (congrArg Prod.fst h).symm
        subst hu
        refine parseRepoURL_fixed _ (trimSpace_sshAddress _ _) ?_ (hasSuffix_sshAddress _ _)
        simp [hasPrefix_sshAddress]
      · simp at h
    · rw [Bool.not_eq_true] at hcont
      simp only [hcont, Bool.false_eq_true, if_false] at h
      simp at h

/-- C30, at the input `facebook/react`. -/
theorem parseRepoURL_idempotent_witness :
    parseRepoURL "facebook/react".toList = ("git@github.com:facebook/react.git".toList, none) ∧
      parseRepoURL "git@github.com:facebook/react.git".toList =
        ("git@github.com:facebook/react.git".toList, none) :=
  ⟨by decide, parseRepoURL_idempotent "facebook/react".toList _ (by decide)⟩
/-! ## Lists without later duplicates -/

theorem mem_keepFirst (l : List Str) (x : Str) : x ∈ keepFirst l ↔ x ∈ l := by
  induction l with
  | nil => simp [keepFirst]
  | cons a as ih =>
    simp only [keepFirst, List.mem_cons, List.mem_filter, ih, decide_eq_true_eq]
    constructor
    · rintro (h | ⟨h, _⟩)
      · exact Or.inl h
      · exact Or.inr h
    · intro h
      by_cases hx : x = a
      · exact Or.inl hx
      · rcases h with h | h
        · exact absurd h hx
        · exact Or.inr ⟨h, hx⟩

theorem nodup_keepFirst (l : List Str) : (keepFirst l).Nodup := by
  induction l with
  | nil => simp [keepFirst]
  | cons a as ih =>
    simp only [keepFirst, List.nodup_cons, List.mem_filter, decide_eq_true_eq]
    exact ⟨fun h => h.2 rfl, ih.filter _⟩

theorem keepFirst_filter (p : Str → Bool) (l : List Str) :
    (keepFirst l).filter p = keepFirst (l.filter p) := by
  induction l with
  | nil => rfl
  | cons a as ih =>
    by_cases hp : p a = true
    · simp only [keepFirst, List.filter_cons, hp, if_true, List.filter_filter]
      rw [← ih, List.filter_filter]
      congr 1
      apply List.filter_congr
      intro x _
      exact Bool.and_comm _ _
    · simp only [keepFirst, List.filter_cons, hp, if_false, Bool.false_eq_true, List.filter_filter]
      rw [← ih]
      apply List.filter_congr
      intro x _
      by_cases hx : x = a
      · subst hx
        simp [hp]
      · simp [hx]

/-- A loop that appends every new name to the names collected so far yields
those names followed by the first occurrences of the others. -/
theorem foldl_collect {α : Type} (step : List Str → α → List Str) (name : α → Option Str)
    (hstep : ∀ acc a, step acc a =
      match name a with
      | none => acc
      | some n => if n ∈ acc then acc else acc ++ [n])
    (l : List α) (acc : List Str) :
    l.foldl step acc = acc ++ (keepFirst (l.filterMap name)).filter (fun x => decide (x ∉ acc)) := by
  induction l generalizing acc with
  | nil => simp [keepFirst]
  | cons a as ih =>
    rw [List.foldl_cons, ih, hstep]
    cases hn : name a with
    | none => simp only [List.filterMap_cons, hn]
    | some n =>
      simp only [List.filterMap_cons, hn, keepFirst]
      by_cases hmem : n ∈ acc
      · simp only [hmem, if_true, List.filter_cons, not_true_eq_false, decide_False,
          Bool.false_eq_true, if_false, List.filter_filter]
        congr 1
        apply List.filter_congr
        intro x _
        by_cases hx : x ∈ acc
        · simp [hx]
        · have : x ≠ n := fun h => hx (h ▸ hmem)
          simp [hx, this]
      · simp only [hmem, if_false, List.filter_cons, not_false_eq_true, decide_True, if_true,
          List.filter_filter, List.append_assoc, List.singleton_append]
        congr 2
        apply List.filter_congr
        intro x _
        by_cases hx : x = n
        · subst hx
          simp
        · simp [hx]

/-! ## The tmux session list (C27) -/

/-- C27. For every output the result of `parseTmuxSessionList` is the list of
the trimmed lines that are not empty, each kept where it first occurs and
dropped where it occurs again; the result has no duplicate, and for the empty
output it has length 0. -/
theorem parseTmuxSessionList_characterization (output : Str) :
    parseTmuxSessionList output =
        keepFirst (((splitLines output).map trimSpace).filter (fun s => decide (s ≠ []))) ∧
      (parseTmuxSessionList output).Nodup ∧
      (∀ s, s ∈ parseTmuxSessionList output ↔
        s ≠ [] ∧ ∃ line ∈ splitLines output, trimSpace line = s) ∧
      (parseTmuxSessionList []).length = 0 := by
  have key : parseTmuxSessionList output =
      keepFirst (((splitLines output).map trimSpace).filter (fun s => decide (s ≠ []))) := by
    unfold parseTmuxSessionList
    rw [foldl_collect addSession
      (fun line => if trimSpace line = [] then none else some (trimSpace line))]
    · have e : (splitLines output).filterMap
          (fun line => if trimSpace line = [] then none else some (trimSpace line)) =
          ((splitLines output).map trimSpace).filter (fun s => decide (s ≠ [])) := by
        induction splitLines output with
        | nil => rfl
        | cons a as ih =>
          by_cases ha : trimSpace a = []
          · simp [List.filterMap_cons, ha, ih]
          · simp [List.filterMap_cons, ha, ih]
      rw [e]
      simp
    · intro acc a
      unfold addSession
      by_cases ha : trimSpace a = []
      · simp [ha]
      · simp [ha]
  refine ⟨key, ?_, ?_, rfl⟩
  · rw [key]
    exact nodup_keepFirst _
  · intro s
    rw [key, mem_keepFirst]
    simp only [List.mem_filter, List.mem_map, decide_eq_true_eq]
    constructor
    · rintro ⟨⟨line, hl, rfl⟩, hne⟩
      exact ⟨hne, line, hl, rfl⟩
    · rintro ⟨hne, line, hl, rfl⟩
      exact ⟨⟨line, hl, rfl⟩, hne⟩
/-! ## The default branch is usable (C28) -/

/-- C28. For every explicit name and every branch list the result of
`resolveConvertDefaultBranch` is not the empty string; and when the list has a
first element that is not blank, the result is the trimmed form of some element
of the list. -/
theorem resolveConvertDefaultBranch_usable (explicit : Str) (branches : List Str) :
    resolveConvertDefaultBranch explicit branches ≠ [] ∧
      (∀ first rest, branches = first :: rest → trimSpace first ≠ [] →
        ∃ b ∈ branches, resolveConvertDefaultBranch explicit branches = trimSpace b) := by
  unfold resolveConvertDefaultBranch
  by_cases h1 : trimSpace explicit ≠ [] ∧ listsBranch branches (trimSpace explicit) = true
  · rw [if_pos h1]
    refine ⟨h1.1, fun first rest _ _ => ?_⟩
    obtain ⟨b, hb, hbe⟩ := (listsBranch_iff _ _).1 h1.2
    exact ⟨b, hb, hbe.symm⟩
  · rw [if_neg h1]
    cases hf : [mainName, masterName].find? (fun preferred => listsBranch branches preferred) with
    | some preferred =>
      simp only
      have hmem := List.mem_of_find?_eq_some hf
      have hl : listsBranch branches preferred = true := by
        simpa using List.find?_some hf
      refine ⟨?_, fun first rest _ _ => ?_⟩
      · simp only [List.mem_cons, List.mem_singleton, List.not_mem_nil, or_false] at hmem
        rcases hmem with h | h <;> subst h <;> decide
      · obtain ⟨b, hb, hbe⟩ := (listsBranch_iff _ _).1 hl
        exact ⟨b, hb, hbe.symm⟩
    | none =>
      simp only
      cases branches with
      | nil =>
        refine ⟨?_, fun first rest h _ => by simp at h⟩
        simp only [firstCandidate]
        by_cases he : trimSpace explicit = []
        · simp [he, mainName]
        · simp [he]
      | cons first rest =>
        by_cases hb : trimSpace first = []
        · refine ⟨?_, fun f r h hne => ?_⟩
          · simp only [firstCandidate, hb, ne_eq, not_true_eq_false, if_false]
            by_cases he : trimSpace explicit = []
            · simp [he, mainName]
            · simp [he]
          · simp only [List.cons.injEq] at h
            rw [← h.1] at hne
            exact absurd hb hne
        · rw [firstCandidate_eq_some (first :: rest) first rest rfl hb]
          exact ⟨hb, fun _ _ _ _ => ⟨first, List.mem_cons_self _ _, rfl⟩⟩

/-- C28, at a list that holds neither the explicit name nor `main` or `master`. -/
theorem resolveConvertDefaultBranch_usable_witness :
    resolveConvertDefaultBranch "develop".toList [" trunk ".toList, "next".toList] ≠ [] ∧
      ∃ b ∈ [" trunk ".toList, "next".toList],
        resolveConvertDefaultBranch "develop".toList [" trunk ".toList, "next".toList] =
          trimSpace b :=
  ⟨(resolveConvertDefaultBranch_usable "develop".toList [" trunk ".toList, "next".toList]).1,
    (resolveConvertDefaultBranch_usable "develop".toList [" trunk ".toList, "next".toList]).2
      " trunk ".toList ["next".toList] rfl (by decide)⟩

/-! ## Splitting an address -/

theorem trimSpace_first (s : Str) (c : Char) (h : (trimSpace s).head? = some c) :
    isSpace c = false := by
  have hne : trimSpace s ≠ [] := by
    intro h0
    rw [h0] at h
    simp at h
  have := trimSpace_head s hne
  rw [List.head?_eq_head hne] at h
  rw [← Option.some.inj h]
  exact this

theorem trimSpace_last (s : Str) (c : Char) (h : (trimSpace s).getLast? = some c) :
    isSpace c = false := by
  have hne : trimSpace s ≠ [] := by
    intro h0
    rw [h0] at h
    simp at h
  have := trimSpace_getLast s hne
  rw [List.getLast?_eq_getLast _ hne] at h
  rw [← Option.some.inj h]
  exact this

/-- Two trimmed, non-empty texts stay trimmed when joined by a `/`. -/
theorem trimSpace_pair (owner repo : Str) (ho : owner ≠ []) (hr : repo ≠ [])
    (hot : trimSpace owner = owner) (hrt : trimSpace repo = repo) :
    trimSpace (owner ++ sepStr ++ repo) = owner ++ sepStr ++ repo := by
  apply trimSpace_eq_self
  · intro h
    apply trimSpace_first owner
    rw [hot, ← List.head?_eq_head h, List.append_assoc, List.head?_append_of_ne_nil _ ho]
  · intro h
    apply trimSpace_last repo
    rw [hrt, ← List.getLast?_eq_getLast _ h, List.getLast?_append_of_ne_nil _ hr]

theorem isPrefixOf_append_sep (p a b : Str) (c : Char) (hc : c ∉ p)
    (h : p.isPrefixOf a = false) : p.isPrefixOf (a ++ c :: b) = false := by
  induction p generalizing a with
  | nil => simp at h
  | cons x xs ih =>
    have hx : x ≠ c := fun e => hc (by simp [e])
    have hxs : c ∉ xs := fun e => hc (List.mem_cons_of_mem _ e)
    cases a with
    | nil => simp [List.isPrefixOf, hx]
    | cons y ys =>
      simp only [List.cons_append, List.isPrefixOf, Bool.and_eq_false_imp, beq_iff_eq] at h ⊢
      intro hxy
      exact ih ys hxs (h hxy)

theorem splitOnSep_pair (owner repo : Str) (ho : '/' ∉ owner) (hr : '/' ∉ repo) :
    splitOnSep '/' (owner ++ sepStr ++ repo) = [owner, repo] := by
  have : owner ++ sepStr ++ repo = owner ++ '/' :: repo := by simp [sepStr]
  rw [this, splitOnSep_append, splitOnSep_of_not_mem _ _ ho, splitOnSep_of_not_mem _ _ hr]
  rfl

theorem takeWhile_until (c : Char) (a b : Str) (ha : c ∉ a) :
    (a ++ c :: b).takeWhile (fun x => decide (x ≠ c)) = a := by
  induction a with
  | nil => simp
  | cons x xs ih =>
    have hx : x ≠ c := fun e => ha (by simp [e])
    have hxs : c ∉ xs := fun e => ha (List.mem_cons_of_mem _ e)
    rw [List.cons_append, List.takeWhile_cons]
    simp only [hx, ne_eq, not_false_eq_true, decide_True, if_true]
    rw [ih hxs]

theorem dropWhile_until (c : Char) (a b : Str) (ha : c ∉ a) :
    (a ++ c :: b).dropWhile (fun x => decide (x ≠ c)) = c :: b := by
  induction a with
  | nil => simp
  | cons x xs ih =>
    have hx : x ≠ c := fun e => ha (by simp [e])
    have hxs : c ∉ xs := fun e => ha (List.mem_cons_of_mem _ e)
    rw [List.cons_append, List.dropWhile_cons]
    simp only [hx, ne_eq, not_false_eq_true, decide_True, if_true]
    rw [ih hxs]

/-- The pattern of `ParseRepoIdentifier` matches an address built from a
non-empty owner and repository without `/`, and its groups are the two. -/
theorem urlPatternMatch_sshAddress (owner repo : Str) (ho : owner ≠ []) (hr : repo ≠ [])
    (hos : '/' ∉ owner) (hrs : '/' ∉ repo) :
    urlPatternMatch (sshAddress owner repo) = some (owner, repo) := by
  have e : sshAddress owner repo = sshHost ++ (owner ++ '/' :: (repo ++ dotGit)) := by
    simp [sshAddress, sepStr]
  have hp : hasPrefix (sshAddress owner repo) sshHost = true :=
    (hasPrefix_iff _ _).2 ⟨_, e⟩
  have hd : (sshAddress owner repo).drop sshHost.length = owner ++ '/' :: (repo ++ dotGit) := by
    rw [e, List.drop_left]
  have hnot : '/' ∉ repo ++ dotGit := by
    intro h
    rcases List.mem_append.1 h with h | h
    · exact hrs h
    · revert h
      decide
  have hsuf : hasSuffix (repo ++ dotGit) dotGit = true := (hasSuffix_iff _ _).2 ⟨repo, rfl⟩
  have hlen : dotGit.length < (repo ++ dotGit).length := by
    have : 0 < repo.length := List.length_pos.2 hr
    rw [List.length_append]
    omega
  have htake : (repo ++ dotGit).take ((repo ++ dotGit).length - dotGit.length) = repo := by
    rw [List.length_append, Nat.add_sub_cancel, List.take_left]
  unfold urlPatternMatch
  simp only [hp, if_true, hd, dropWhile_until '/' owner _ hos, takeWhile_until '/' owner _ hos]
  rw [if_pos ⟨ho, hnot, hsuf, hlen⟩, htake]

/-! ## The SSH round trip (C23) -/

/-- C23. For every non-empty owner and repository name without `/`,
`ParseRepoIdentifier` gives back the owner and the name, with no error, from
the address `BuildSSHURL` makes of them; and it gives the same pair from
`owner/repo` when neither text has white space at its ends and the owner does
not start with `git@`. -/
theorem parseRepoIdentifier_round_trip (owner repo : Str) (ho : owner ≠ []) (hr : repo ≠ [])
    (hos : '/' ∉ owner) (hrs : '/' ∉ repo) :
    parseRepoIdentifier (buildSSHURL owner repo) = (owner, repo, none) ∧
      (trimSpace owner = owner → trimSpace repo = repo → hasPrefix owner gitAt = false →
        parseRepoIdentifier (owner ++ sepStr ++ repo) = (owner, repo, none)) := by
  constructor
  · unfold parseRepoIdentifier buildSSHURL
    simp only [trimSpace_sshAddress, hasPrefix_sshAddress, if_true,
      urlPatternMatch_sshAddress owner repo ho hr hos hrs]
  · intro hot hrt hg
    have hpre : hasPrefix (owner ++ sepStr ++ repo) gitAt = false := by
      have : owner ++ sepStr ++ repo = owner ++ '/' :: repo := by simp [sepStr]
      rw [this]
      exact isPrefixOf_append_sep gitAt owner repo '/' (by decide) hg
    have hcont : containsStr (owner ++ sepStr ++ repo) sepStr = true := by
      rw [containsStr_sep_iff]
      simp [sepStr]
    unfold parseRepoIdentifier
    simp only [trimSpace_pair owner repo ho hr hot hrt, hpre, hcont, Bool.false_eq_true,
      if_false, if_true, splitOnSep_pair owner repo hos hrs]

/-- C23, at the owner `facebook` and the repository `react`. -/
theorem parseRepoIdentifier_round_trip_witness :
    parseRepoIdentifier (buildSSHURL "facebook".toList "react".toList) =
        ("facebook".toList, "react".toList, none) ∧
      parseRepoIdentifier ("facebook".toList ++ sepStr ++ "react".toList) =
        ("facebook".toList, "react".toList, none) :=
  ⟨(parseRepoIdentifier_round_trip "facebook".toList "react".toList (by decide) (by decide)
      (by decide) (by decide)).1,
    (parseRepoIdentifier_round_trip "facebook".toList "react".toList (by decide) (by decide)
      (by decide) (by decide)).2 (by decide) (by decide) (by decide)⟩
/-! ## The full name of a repository (C24) -/

theorem hasSuffix_eq (s x : Str) : hasSuffix s x = x.reverse.isPrefixOf s.reverse := rfl

theorem hasSuffix_append_sep (x a b : Str) (c : Char) (hc : c ∉ x)
    (h : hasSuffix b x = false) : hasSuffix (a ++ c :: b) x = false := by
  rw [hasSuffix_eq] at h ⊢
  have e : (a ++ c :: b).reverse = b.reverse ++ c :: a.reverse := by simp
  rw [e]
  exact isPrefixOf_append_sep _ _ _ c (by simpa using hc) h

theorem hasPrefix_false_of_not_mem (s p : Str) (c : Char) (hcp : c ∈ p) (hcs : c ∉ s) :
    hasPrefix s p = false := by
  cases h : hasPrefix s p with
  | false => rfl
  | true =>
    obtain ⟨rest, hr⟩ := (hasPrefix_iff _ _).1 h
    exact absurd (hr ▸ List.mem_append_left rest hcp) hcs

theorem hasSuffix_sep_false (a repo : Str) (hr : repo ≠ []) (hrs : '/' ∉ repo) :
    hasSuffix (a ++ repo) sepStr = false := by
  cases h : hasSuffix (a ++ repo) sepStr with
  | false => rfl
  | true =>
    obtain ⟨init, hi⟩ := (hasSuffix_iff _ _).1 h
    have h1 : (a ++ repo).getLast? = some '/' := by
      rw [hi]
      simp [sepStr]
    rw [List.getLast?_append_of_ne_nil _ hr, List.getLast?_eq_getLast _ hr] at h1
    exact absurd (Option.some.inj h1 ▸ List.getLast_mem hr) hrs

/-- The text `owner/repo` loses nothing to the two `TrimSuffix` calls when the
repository name is not empty, holds no `/` and does not end in `.git`. -/
theorem trimSuffix_pair (owner repo : Str) (hr : repo ≠ []) (hrs : '/' ∉ repo)
    (hg : hasSuffix repo dotGit = false) :
    trimSuffix (trimSuffix (owner ++ sepStr ++ repo) dotGit) sepStr = owner ++ sepStr ++ repo := by
  have h1 : hasSuffix (owner ++ sepStr ++ repo) dotGit = false := by
    have : owner ++ sepStr ++ repo = owner ++ '/' :: repo := by simp [sepStr]
    rw [this]
    exact hasSuffix_append_sep dotGit owner repo '/' (by decide) hg
  rw [hasSuffix_false_trimSuffix _ _ h1,
    hasSuffix_false_trimSuffix _ _ (hasSuffix_sep_false _ repo hr hrs)]

theorem length_splitOnSep (c : Char) (s : Str) : (splitOnSep c s).length = s.count c + 1 := by
  induction s with
  | nil => rfl
  | cons x xs ih =>
    unfold splitOnSep
    by_cases hx : x = c
    · subst hx
      simp [ih]
    · have hx2 : ¬ (x == c) = true := by simpa using hx
      simp only [hx, if_false, List.count_cons, hx2]
      cases hs : splitOnSep c xs with
      | nil => exact absurd hs (splitOnSep_ne_nil c xs)
      | cons h t =>
        rw [hs] at ih
        simpa using ih

theorem splitOnSep_last (s x : Str) (init : List Str) (last : Str) (hx : '/' ∉ x)
    (h : splitOnSep '/' (s ++ '/' :: x) = init ++ [last]) : last = x := by
  rw [splitOnSep_append, splitOnSep_of_not_mem _ _ hx] at h
  exact (List.append_inj_right' h rfl |> List.singleton_inj.1).symm

/-- The result of `extractRepoFullName` from the text it splits. -/
theorem extractRepoFullName_of_pair (input owner repo : Str) (hne : trimSpace input ≠ [])
    (hp : repoPathText input = owner ++ sepStr ++ repo) (ho : owner ≠ []) (hr : repo ≠ [])
    (hos : '/' ∉ owner) (hrs : '/' ∉ repo) :
    extractRepoFullName input = (owner ++ sepStr ++ repo, true) := by
  unfold extractRepoFullName
  rw [if_neg hne, hp, splitOnSep_pair owner repo hos hrs]
  simp only [ho, hr, or_self, if_false]

theorem extractRepoFullName_shape (input name : Str)
    (h : extractRepoFullName input = (name, true)) :
    ∃ owner repo, name = owner ++ sepStr ++ repo ∧ owner ≠ [] ∧ repo ≠ [] ∧
      '/' ∉ owner ∧ '/' ∉ repo := by
  unfold extractRepoFullName at h
  by_cases hne : trimSpace input = []
  · rw [if_pos hne] at h
    simp at h
  · rw [if_neg hne] at h
    split at h
    · rename_i owner repo heq
      by_cases hor : owner = [] ∨ repo = []
      · rw [if_pos hor] at h
        simp at h
      · rw [if_neg hor] at h
        rw [not_or] at hor
        have hmem := splitOnSep_not_mem '/' (repoPathText input)
        rw [heq] at hmem
        exact ⟨owner, repo, (congrArg Prod.fst h).symm, hor.1, hor.2,
          hmem owner (by simp), hmem repo (by simp)⟩
    · simp at h

theorem extractRepoFullName_many (input : Str) (init : List Str) (last : Str)
    (hs : splitOnSep '/' (stripHost (trimSpace input)) = init ++ [last])
    (hlen : 2 ≤ init.length) (hlast : init.length = 2 → last ≠ [] ∧ last ≠ dotGit) :
    extractRepoFullName input = ([], false) := by
  have hcount : (stripHost (trimSpace input)).count '/' = init.length := by
    have := length_splitOnSep '/' (stripHost (trimSpace input))
    rw [hs] at this
    simpa using this.symm
  have hlen2 : (splitOnSep '/' (repoPathText input)).length ≠ 2 := by
    rw [length_splitOnSep]
    unfold repoPathText
    generalize hr : stripHost (trimSpace input) = r at hs hcount
    -- the first `TrimSuffix` keeps the number of separators
    have h1 : (trimSuffix r dotGit).count '/' = init.length := by
      cases hsuf : hasSuffix r dotGit with
      | false => rw [hasSuffix_false_trimSuffix _ _ hsuf, hcount]
      | true =>
        obtain ⟨i, hi⟩ := (hasSuffix_iff _ _).1 hsuf
        rw [hi, trimSuffix_append]
        rw [hi, List.count_append] at hcount
        have : dotGit.count '/' = 0 := by decide
        omega
    cases hsuf2 : hasSuffix (trimSuffix r dotGit) sepStr with
    | false =>
      rw [hasSuffix_false_trimSuffix _ _ hsuf2, h1]
      omega
    | true =>
      obtain ⟨j, hj⟩ := (hasSuffix_iff _ _).1 hsuf2
      rw [hj, trimSuffix_append]
      rw [hj, List.count_append] at h1
      have hone : sepStr.count '/' = 1 := by decide
      by_cases h3 : init.length = 2
      · exfalso
        obtain ⟨hl1, hl2⟩ := hlast h3
        cases hsuf : hasSuffix r dotGit with
        | false =>
          rw [hasSuffix_false_trimSuffix _ _ hsuf] at hj
          have e : r = j ++ '/' :: [] := by rw [hj]; rfl
          rw [e] at hs
          exact hl1 (splitOnSep_last j [] init last (by simp) hs)
        | true =>
          obtain ⟨i, hi⟩ := (hasSuffix_iff _ _).1 hsuf
          rw [hi, trimSuffix_append] at hj
          have e : r = j ++ '/' :: dotGit := by rw [hi, hj]; simp [sepStr]
          rw [e] at hs
          exact hl2 (splitOnSep_last j dotGit init last (by decide) hs)
      · omega
  unfold extractRepoFullName
  by_cases hne : trimSpace input = []
  · rw [if_pos hne]
  · rw [if_neg hne]
    split
    · rename_i owner repo heq
      rw [heq] at hlen2
      exact absurd rfl hlen2
    · rfl
theorem trimSpace_of_no_space (s : Str) (h : ∀ c ∈ s, isSpace c = false) : trimSpace s = s :=
  trimSpace_eq_self s (fun hne => h _ (List.head_mem hne)) (fun hne => h _ (List.getLast_mem hne))

theorem stripHost_plain (s : Str) (h : ':' ∉ s) : stripHost s = s := by
  unfold stripHost
  rw [hasPrefix_false_of_not_mem s sshHost ':' (by decide) h,
    hasPrefix_false_of_not_mem s githubHTTPS ':' (by decide) h,
    hasPrefix_false_of_not_mem s githubHTTP ':' (by decide) h]
  rfl

theorem stripHost_ssh (rest : Str) : stripHost (sshHost ++ rest) = rest := by
  unfold stripHost
  rw [(hasPrefix_iff _ _).2 ⟨rest, rfl⟩, if_pos rfl, trimPrefix_append]

theorem stripHost_https (rest : Str) : stripHost (githubHTTPS ++ rest) = rest := by
  unfold stripHost
  have h1 : hasPrefix (githubHTTPS ++ rest) sshHost = false := by
    simp [hasPrefix, githubHTTPS, sshHost, List.isPrefixOf]
  rw [h1, (hasPrefix_iff _ _).2 ⟨rest, rfl⟩, if_pos rfl, trimPrefix_append]
  rfl

/-- C24, amended. For every non-empty owner and repository name
without `/`, `:` and white space, the name not ending in `.git`, the inputs
`owner/repo`, `git@github.com:owner/repo.git` and
`https://github.com/owner/repo` all give `(owner/repo, true)`. For every input,
when the second result is true the first is `a/b` with `a` and `b` not empty
and without `/`. An input whose trimmed text without its GitHub head splits at
`/` into more than two segments gives `("", false)`, unless the segments are
exactly three and the last one is empty or `.git`. -/
theorem extractRepoFullName_forms :
    (∀ owner repo : Str, owner ≠ [] → repo ≠ [] →
      (∀ c ∈ owner, c ≠ '/' ∧ c ≠ ':' ∧ isSpace c = false) →
      (∀ c ∈ repo, c ≠ '/' ∧ c ≠ ':' ∧ isSpace c = false) →
      hasSuffix repo dotGit = false →
      extractRepoFullName (owner ++ sepStr ++ repo) = (owner ++ sepStr ++ repo, true) ∧
      extractRepoFullName (sshHost ++ owner ++ sepStr ++ repo ++ dotGit) =
        (owner ++ sepStr ++ repo, true) ∧
      extractRepoFullName (githubHTTPS ++ owner ++ sepStr ++ repo) =
        (owner ++ sepStr ++ repo, true)) ∧
    (∀ input name : Str, extractRepoFullName input = (name, true) →
      ∃ owner repo, name = owner ++ sepStr ++ repo ∧ owner ≠ [] ∧ repo ≠ [] ∧
        '/' ∉ owner ∧ '/' ∉ repo) ∧
    (∀ (input : Str) (init : List Str) (last : Str),
      splitOnSep '/' (stripHost (trimSpace input)) = init ++ [last] → 2 ≤ init.length →
      (init.length = 2 → last ≠ [] ∧ last ≠ dotGit) →
      extractRepoFullName input = ([], false)) := by
  refine ⟨fun owner repo ho hr hoc hrc hg => ?_, extractRepoFullName_shape,
    extractRepoFullName_many⟩
  have hos : '/' ∉ owner := fun h => (hoc _ h).1 rfl
  have hrs : '/' ∉ repo := fun h => (hrc _ h).1 rfl
  have hpair : ∀ c ∈ owner ++ sepStr ++ repo, c ≠ ':' ∧ isSpace c = false := by
    intro c hc
    simp only [List.mem_append, sepStr, List.mem_singleton] at hc
    rcases hc with (hc | hc) | hc
    · exact (hoc c hc).2
    · subst hc
      exact ⟨by decide, by decide⟩
    · exact (hrc c hc).2
  have hne : owner ++ sepStr ++ repo ≠ [] := by simp [ho]
  refine ⟨?_, ?_, ?_⟩
  · apply extractRepoFullName_of_pair _ owner repo _ _ ho hr hos hrs
    · rw [trimSpace_of_no_space _ (fun c hc => (hpair c hc).2)]
      exact hne
    · unfold repoPathText
      rw [trimSpace_of_no_space _ (fun c hc => (hpair c hc).2),
        stripHost_plain _ (fun h => (hpair _ h).1 rfl), trimSuffix_pair owner repo hr hrs hg]
  · have e : sshHost ++ owner ++ sepStr ++ repo ++ dotGit = sshAddress owner repo := rfl
    have e2 : sshAddress owner repo = sshHost ++ ((owner ++ sepStr ++ repo) ++ dotGit) := by
      simp [sshAddress]
    apply extractRepoFullName_of_pair _ owner repo _ _ ho hr hos hrs
    · rw [e, trimSpace_sshAddress, e2]
      simp [sshHost]
    · unfold repoPathText
      rw [e, trimSpace_sshAddress, e2, stripHost_ssh, trimSuffix_append]
      have : owner ++ sepStr ++ repo = (owner ++ sepStr) ++ repo := rfl
      rw [this, hasSuffix_false_trimSuffix _ _ (hasSuffix_sep_false _ repo hr hrs)]
  · have e : githubHTTPS ++ owner ++ sepStr ++ repo = githubHTTPS ++ (owner ++ sepStr ++ repo) := by
      simp
    have hsp : ∀ c ∈ githubHTTPS ++ (owner ++ sepStr ++ repo), isSpace c = false := by
      intro c hc
      rcases List.mem_append.1 hc with hc | hc
      · have hh : ∀ c ∈ githubHTTPS, isSpace c = false := by decide
        exact hh c hc
      · exact (hpair c hc).2
    apply extractRepoFullName_of_pair _ owner repo _ _ ho hr hos hrs
    · rw [e, trimSpace_of_no_space _ hsp]
      simp [githubHTTPS]
    · unfold repoPathText
      rw [e, trimSpace_of_no_space _ hsp, stripHost_https, trimSuffix_pair owner repo hr hrs hg]

/-- C24 amended, at `facebook/react` in its three forms and at a path of three
segments. -/
theorem extractRepoFullName_forms_witness :
    (extractRepoFullName "facebook/react".toList = ("facebook/react".toList, true) ∧
      extractRepoFullName "git@github.com:facebook/react.git".toList =
        ("facebook/react".toList, true) ∧
      extractRepoFullName "https://github.com/facebook/react".toList =
        ("facebook/react".toList, true)) ∧
    (∃ owner repo, "facebook/react".toList = owner ++ sepStr ++ repo ∧ owner ≠ [] ∧ repo ≠ [] ∧
      '/' ∉ owner ∧ '/' ∉ repo) ∧
    extractRepoFullName "facebook/react/extra".toList = ([], false) :=
  ⟨extractRepoFullName_forms.1 "facebook".toList "react".toList (by decide) (by decide)
      (by decide) (by decide) (by decide),
    extractRepoFullName_forms.2.1 "https://github.com/facebook/react".toList
      "facebook/react".toList (by decide),
    extractRepoFullName_forms.2.2 "facebook/react/extra".toList
      ["facebook".toList, "react".toList] "extra".toList (by decide) (by decide) (by decide)⟩

/-- C24, the counterexample. The input `a/b/.git` has the three segments `a`,
`b` and `.git`, and `extractRepoFullName` accepts it as the repository `a/b`:
the ending `.git` and then the ending `/` are removed before the text is
split. -/
theorem extractRepoFullName_three_segments_accepted :
    splitOnSep '/' "a/b/.git".toList = ["a".toList, "b".toList, ".git".toList] ∧
      extractRepoFullName "a/b/.git".toList = ("a/b".toList, true) := by
  decide

/-! ## The selected worktrees (C29) -/

theorem validateBranches_none (available selected : List Str)
    (h : ∀ b ∈ selected, b ∈ available) : validateBranches available selected = none := by
  unfold validateBranches
  have : selected.find? (fun branch => decide (branch ∉ available)) = none := by
    rw [List.find?_eq_none]
    intro b hb
    simpa using h b hb
  rw [this]

theorem validateBranches_some (available selected : List Str)
    (h : ∃ b ∈ selected, b ∉ available) :
    ∃ b ∈ selected, b ∉ available ∧
      validateBranches available selected = some (.plain ("branch not found: ".toList ++ b)) := by
  unfold validateBranches
  cases hf : selected.find? (fun branch => decide (branch ∉ available)) with
  | none =>
    rw [List.find?_eq_none] at hf
    obtain ⟨b, hb, hn⟩ := h
    exact absurd (by simpa using hn) (hf b hb)
  | some b =>
    exact ⟨b, List.mem_of_find?_eq_some hf, by simpa using List.find?_some hf, rfl⟩

/-- The loop calls `CreateWorktree` once for every selected name, in order. -/
theorem createSelectedLoop_invoked {σ : Type} (S : Sys σ) (bareMetadataPath repoPath : Str)
    (selected : List Str) (run : ConvertRun σ) :
    (createSelectedLoop S bareMetadataPath repoPath run selected).invoked =
      run.invoked ++ selected.map (fun branch =>
        (bareMetadataPath,
          parseWorktreePath repoPath (trimSpace (trimPrefix branch originSlash)),
          trimSpace (trimPrefix branch originSlash))) := by
  induction selected generalizing run with
  | nil => simp [createSelectedLoop]
  | cons branch rest ih =>
    unfold createSelectedLoop
    simp only
    split <;> rw [ih] <;> simp

/-- C29. When some selected name is no element of the available list,
`createSelectedConvertWorktrees` returns the error
`branch validation failed: branch not found: <name>` for the first such name,
`CreateWorktree` is not called for any selected name and the process is left as
it was. When every selected name is available it returns nil on every system,
whatever the results of the calls of `CreateWorktree`, and has called
`CreateWorktree` once for each selected name, in order. -/
theorem createSelectedConvertWorktrees_all_or_nothing {σ : Type} (S : Sys σ) (p : Proc σ)
    (bareMetadataPath repoPath : Str) (branches selected : List Str) :
    ((∃ b ∈ selected, b ∉ branches) →
      (∃ b ∈ selected, b ∉ branches ∧
        (createSelectedConvertWorktrees S p bareMetadataPath repoPath branches selected).1 =
          some (errorfW "branch validation failed: ".toList
            (.plain ("branch not found: ".toList ++ b)))) ∧
      (createSelectedConvertWorktrees S p bareMetadataPath repoPath branches
        selected).2.invoked = [] ∧
      (createSelectedConvertWorktrees S p bareMetadataPath repoPath branches
        selected).2.proc = p) ∧
    ((∀ b ∈ selected, b ∈ branches) →
      (createSelectedConvertWorktrees S p bareMetadataPath repoPath branches selected).1 =
        none ∧
      (createSelectedConvertWorktrees S p bareMetadataPath repoPath branches
        selected).2.invoked =
        selected.map (fun branch =>
          (bareMetadataPath,
            parseWorktreePath repoPath (trimSpace (trimPrefix branch originSlash)),
            trimSpace (trimPrefix branch originSlash)))) := by
  constructor
  · intro h
    obtain ⟨b, hb, hn, hv⟩ := validateBranches_some branches selected h
    unfold createSelectedConvertWorktrees
    rw [hv]
    exact ⟨⟨b, hb, hn, rfl⟩, rfl, rfl⟩
  · intro h
    unfold createSelectedConvertWorktrees
    rw [validateBranches_none branches selected h]
    refine ⟨rfl, ?_⟩
    simp only
    rw [createSelectedLoop_invoked]
    rfl

/-- C29, at a selection that is available while every git command fails, and at
a selection with a name that is not available. -/
theorem createSelectedConvertWorktrees_all_or_nothing_witness :
    (createWorktree brokenSys demoProc "/w/repo/.git".toList "/w/repo/dev".toList
        "dev".toList).1 ≠ none ∧
      ((createSelectedConvertWorktrees brokenSys demoProc "/w/repo/.git".toList
          "/w/repo".toList ["main".toList, "origin/dev".toList] ["origin/dev".toList]).1 = none ∧
        (createSelectedConvertWorktrees brokenSys demoProc "/w/repo/.git".toList
          "/w/repo".toList ["main".toList, "origin/dev".toList] ["origin/dev".toList]).2.invoked =
          ["origin/dev".toList].map (fun branch =>
            ("/w/repo/.git".toList,
              parseWorktreePath "/w/repo".toList (trimSpace (trimPrefix branch originSlash)),
              trimSpace (trimPrefix branch originSlash)))) ∧
      (createSelectedConvertWorktrees simpleSys demoProc "/w/repo/.git".toList
          "/w/repo".toList ["main".toList, "dev".toList] ["dev".toList, "gone".toList]).2.invoked =
        [] :=
  ⟨by decide,
    (createSelectedConvertWorktrees_all_or_nothing brokenSys demoProc "/w/repo/.git".toList "/w/repo".toList ["main".toList, "origin/dev".toList]
      ["origin/dev".toList]).2 (by decide),
    ((createSelectedConvertWorktrees_all_or_nothing simpleSys demoProc "/w/repo/.git".toList "/w/repo".toList ["main".toList, "dev".toList]
      ["dev".toList, "gone".toList]).1 ⟨"gone".toList, by decide, by decide⟩).2.1⟩

/-! ## The map of repositories by full name -/

theorem RepoMap.mem_set (m : RepoMap) (key : Str) (repo : Repo) (k : Str) (v : Repo) :
    (k, v) ∈ m.set key repo ↔ ((k, v) ∈ m ∧ k ≠ key) ∨ (k = key ∧ v = repo) := by
  unfold RepoMap.set
  simp only [List.mem_append, List.mem_filter, decide_eq_true_eq, List.mem_singleton,
    Prod.mk.injEq]

theorem RepoMap.has_iff (m : RepoMap) (key : Str) :
    m.has key = true ↔ key ∈ m.map Prod.fst := by
  unfold RepoMap.has
  simp only [List.any_eq_true, decide_eq_true_eq, List.mem_map]

theorem RepoMap.keys_set (m : RepoMap) (key : Str) (repo : Repo) (k : Str) :
    k ∈ (m.set key repo).map Prod.fst ↔ k ∈ m.map Prod.fst ∨ k = key := by
  simp only [List.mem_map, Prod.exists, exists_and_right, exists_eq_right, RepoMap.mem_set]
  constructor
  · rintro ⟨v, (⟨h, _⟩ | ⟨h, _⟩)⟩
    · exact Or.inl ⟨v, h⟩
    · exact Or.inr h
  · rintro (⟨v, h⟩ | h)
    · by_cases hk : k = key
      · exact ⟨repo, Or.inr ⟨hk, rfl⟩⟩
      · exact ⟨v, Or.inl ⟨h, hk⟩⟩
    · exact ⟨repo, Or.inr ⟨h, rfl⟩⟩

theorem RepoMap.nodup_set (m : RepoMap) (key : Str) (repo : Repo)
    (h : (m.map Prod.fst).Nodup) : ((m.set key repo).map Prod.fst).Nodup := by
  unfold RepoMap.set
  rw [List.map_append, List.nodup_append]
  refine ⟨(h.sublist ((List.filter_sublist m).map _)), by simp, ?_⟩
  intro a ha hb
  simp only [List.map_cons, List.map_nil, List.mem_singleton] at hb
  simp only [List.mem_map, List.mem_filter, decide_eq_true_eq] at ha
  obtain ⟨e, ⟨_, hne⟩, rfl⟩ := ha
  exact hne hb

theorem lastNamed_nil (n : Str) : lastNamed [] n = none := rfl

theorem lastNamed_snoc (l : List Repo) (r : Repo) (n : Str) :
    lastNamed (l ++ [r]) n = if r.fullName = n then some r else lastNamed l n := by
  unfold lastNamed
  by_cases h : r.fullName = n
  · simp [List.filter_append, h]
  · simp [List.filter_append, h]

theorem lastNamed_append (a b : List Repo) (n : Str) :
    lastNamed (a ++ b) n = (lastNamed b n).or (lastNamed a n) := by
  induction b using List.reverseRecOn with
  | nil => simp [lastNamed_nil]
  | append_singleton bs r ih =>
    rw [← List.append_assoc, lastNamed_snoc, lastNamed_snoc, ih]
    by_cases h : r.fullName = n
    · simp [h]
    · simp [h]

theorem lastNamed_fullName (l : List Repo) (n : Str) (r : Repo) (h : lastNamed l n = some r) :
    r.fullName = n ∧ r ∈ l := by
  unfold lastNamed at h
  have := List.mem_of_getLast?_eq_some h
  simp only [List.mem_filter, decide_eq_true_eq] at this
  exact ⟨this.2, this.1⟩

theorem lastNamed_eq_none (l : List Repo) (n : Str) :
    lastNamed l n = none ↔ n ∉ l.map (fun r => r.fullName) := by
  unfold lastNamed
  rw [List.getLast?_eq_none_iff, List.filter_eq_nil_iff]
  simp only [decide_eq_true_eq, List.mem_map, not_exists, not_and]

/-- After a list of repositories has been written into a map, a key holds the
last repository of the list with that name, or what it held before when the
list has none. -/
theorem mem_foldl_set (l : List Repo) (m0 : RepoMap) (k : Str) (v : Repo) :
    (k, v) ∈ l.foldl (fun m repo => m.set repo.fullName repo) m0 ↔
      lastNamed l k = some v ∨ (lastNamed l k = none ∧ (k, v) ∈ m0) := by
  induction l using List.reverseRecOn with
  | nil => simp [lastNamed_nil]
  | append_singleton init r ih =>
    rw [List.foldl_append, List.foldl_cons, List.foldl_nil, RepoMap.mem_set, ih, lastNamed_snoc]
    by_cases h : r.fullName = k
    · subst h
      rw [if_pos rfl]
      constructor
      · rintro (⟨_, hne⟩ | ⟨_, hv⟩)
        · exact absurd rfl hne
        · exact Or.inl (by rw [hv])
      · rintro (hv | ⟨hn, _⟩)
        · exact Or.inr ⟨rfl, (Option.some.inj hv).symm⟩
        · cases hn
    · rw [if_neg h]
      constructor
      · rintro (⟨hm, _⟩ | ⟨hk, _⟩)
        · exact hm
        · exact absurd hk.symm h
      · intro hm
        exact Or.inl ⟨hm, fun e => h e.symm⟩

theorem nodup_foldl_set (l : List Repo) (m0 : RepoMap) (h : (m0.map Prod.fst).Nodup) :
    ((l.foldl (fun m repo => m.set repo.fullName repo) m0).map Prod.fst).Nodup := by
  induction l generalizing m0 with
  | nil => exact h
  | cons r rest ih => exact ih _ (RepoMap.nodup_set m0 _ r h)

theorem keys_foldl_set (l : List Repo) (m0 : RepoMap) (k : Str) :
    k ∈ (l.foldl (fun m repo => m.set repo.fullName repo) m0).map Prod.fst ↔
      k ∈ m0.map Prod.fst ∨ k ∈ l.map (fun r => r.fullName) := by
  induction l generalizing m0 with
  | nil => simp only [List.foldl_nil, List.map_nil, List.not_mem_nil, or_false]
  | cons r rest ih =>
    rw [List.foldl_cons, ih, RepoMap.keys_set]
    simp only [List.map_cons, List.mem_cons]
    tauto

theorem foldl_mergeStep_fst (l : List Repo) (st : RepoMap × Nat) :
    (l.foldl mergeStep st).1 = l.foldl (fun m repo => m.set repo.fullName repo) st.1 := by
  induction l generalizing st with
  | nil => rfl
  | cons r rest ih =>
    rw [List.foldl_cons, List.foldl_cons, ih]
    rfl
theorem keepFirst_length (l : List Str) : (keepFirst l).length = l.dedup.length := by
  apply List.Perm.length_eq
  rw [List.perm_ext_iff_of_nodup (nodup_keepFirst l) (List.nodup_dedup l)]
  intro a
  rw [mem_keepFirst, List.mem_dedup]

/-- The counter of the second loop counts every new name once. -/
theorem foldl_mergeStep_snd (l : List Repo) (st : RepoMap × Nat) :
    (l.foldl mergeStep st).2 = st.2 +
      (keepFirst ((l.map (fun r => r.fullName)).filter
        (fun n => decide (n ∉ st.1.map Prod.fst)))).length := by
  induction l generalizing st with
  | nil => simp [keepFirst]
  | cons r rest ih =>
    rw [List.foldl_cons, ih]
    by_cases hh : st.1.has r.fullName = true
    · have hk : r.fullName ∈ st.1.map Prod.fst := (RepoMap.has_iff _ _).1 hh
      have e1 : (mergeStep st r).2 = st.2 := by simp [mergeStep, hh]
      have e2 : (mergeStep st r).1 = st.1.set r.fullName r := rfl
      rw [e1, e2, List.map_cons, List.filter_cons]
      simp only [hk, not_true_eq_false, decide_False, Bool.false_eq_true, if_false]
      congr 3
      apply List.filter_congr
      intro n _
      rw [decide_eq_decide, RepoMap.keys_set]
      constructor
      · intro h1 h2
        exact h1 (Or.inl h2)
      · rintro h1 (h2 | h2)
        · exact h1 h2
        · exact h1 (h2 ▸ hk)
    · have hk : r.fullName ∉ st.1.map Prod.fst := fun h => hh ((RepoMap.has_iff _ _).2 h)
      have e1 : (mergeStep st r).2 = st.2 + 1 := by simp [mergeStep, hh]
      have e2 : (mergeStep st r).1 = st.1.set r.fullName r := rfl
      rw [e1, e2, List.map_cons, List.filter_cons]
      simp only [hk, not_false_eq_true, decide_True, if_true, keepFirst, List.length_cons]
      rw [keepFirst_filter, List.filter_filter, Nat.add_assoc, Nat.add_comm 1]
      congr 4
      apply List.filter_congr
      intro n _
      have hks := RepoMap.keys_set st.1 r.fullName r n
      by_cases h1 : n ∈ st.1.map Prod.fst
      · have h3 := hks.2 (Or.inl h1)
        simp only [h1, h3, not_true_eq_false, decide_False, Bool.and_false]
      · by_cases h2 : n = r.fullName
        · have h3 := hks.2 (Or.inr h2)
          subst h2
          simp only [h3, not_true_eq_false, decide_False, ne_eq, Bool.false_and]
        · have h3 : n ∉ (st.1.set r.fullName r).map Prod.fst := fun h => (hks.1 h).elim h1 h2
          simp only [h1, h2, h3, not_false_eq_true, decide_True, ne_eq, Bool.and_self]

theorem notOlder_total (a b : Repo) : notOlder a b ∨ notOlder b a := by
  unfold notOlder
  omega

theorem notOlder_trans (a b c : Repo) (hab : notOlder a b) (hbc : notOlder b c) :
    notOlder a c := by
  unfold notOlder at *
  omega

/-! ## The merge of the cache (C25) -/

/-- C25. Whatever the order in which the map is iterated, the merged list has
exactly one repository for every full name of either list: its full names have
no duplicate and are the names that occur in `existing` or `incoming`. Each
merged repository is the last entry of `incoming` with its name when there is
one, and the last entry of `existing` with its name otherwise. The merged list
is ordered from newest to oldest by `CreatedAt`, and `added` is the number of
distinct full names of `incoming` that do not occur in `existing`. -/
theorem mergeReposByFullName_keyed_union (iter : RepoMap → RepoMap)
    (hiter : ∀ m, (iter m).Perm m) (existing incoming : List Repo) :
    ((mergeReposByFullName iter existing incoming).1.map (fun r => r.fullName)).Nodup ∧
    (∀ n, n ∈ (mergeReposByFullName iter existing incoming).1.map (fun r => r.fullName) ↔
      n ∈ existing.map (fun r => r.fullName) ∨ n ∈ incoming.map (fun r => r.fullName)) ∧
    (∀ r ∈ (mergeReposByFullName iter existing incoming).1,
      lastNamed incoming r.fullName = some r ∨
        (lastNamed incoming r.fullName = none ∧ lastNamed existing r.fullName = some r)) ∧
    (mergeReposByFullName iter existing incoming).1.Sorted notOlder ∧
    (mergeReposByFullName iter existing incoming).2 =
      (((incoming.map (fun r => r.fullName)).filter
        (fun n => decide (n ∉ existing.map (fun r => r.fullName)))).dedup).length := by
  -- the map after both loops
  have hM : (incoming.foldl mergeStep (indexExisting existing, 0)).1 =
      incoming.foldl (fun m repo => m.set repo.fullName repo) (indexExisting existing) :=
    foldl_mergeStep_fst _ _
  have hmem : ∀ k v, (k, v) ∈ (incoming.foldl mergeStep (indexExisting existing, 0)).1 ↔
      lastNamed incoming k = some v ∨
        (lastNamed incoming k = none ∧ lastNamed existing k = some v) := by
    intro k v
    rw [hM, mem_foldl_set]
    unfold indexExisting
    rw [mem_foldl_set]
    simp
  have hname : ∀ e ∈ (incoming.foldl mergeStep (indexExisting existing, 0)).1,
      e.2.fullName = e.1 := by
    rintro ⟨k, v⟩ he
    rcases (hmem k v).1 he with h | ⟨_, h⟩
    · exact (lastNamed_fullName _ _ _ h).1
    · exact (lastNamed_fullName _ _ _ h).1
  have hkeys : ∀ k, k ∈ ((incoming.foldl mergeStep (indexExisting existing, 0)).1).map Prod.fst ↔
      k ∈ existing.map (fun r => r.fullName) ∨ k ∈ incoming.map (fun r => r.fullName) := by
    intro k
    rw [hM, keys_foldl_set]
    unfold indexExisting
    rw [keys_foldl_set]
    simp
  have hnodup : (((incoming.foldl mergeStep (indexExisting existing, 0)).1).map Prod.fst).Nodup := by
    rw [hM]
    exact nodup_foldl_set _ _ (nodup_foldl_set _ _ List.nodup_nil)
  have hperm : (mergeReposByFullName iter existing incoming).1.Perm
      (((incoming.foldl mergeStep (indexExisting existing, 0)).1).map (fun e => e.2)) :=
    (List.perm_insertionSort notOlder _).trans ((hiter _).map _)
  have hnames : ((mergeReposByFullName iter existing incoming).1.map (fun r => r.fullName)).Perm
      (((incoming.foldl mergeStep (indexExisting existing, 0)).1).map Prod.fst) := by
    refine (hperm.map _).trans ?_
    rw [List.map_map]
    exact List.Perm.of_eq (List.map_congr_left (fun e he => hname e he))
  refine ⟨hnames.nodup_iff.2 hnodup, fun n => ?_, fun r hr => ?_, ?_, ?_⟩
  · rw [hnames.mem_iff, hkeys]
  · have hr2 := hperm.mem_iff.1 hr
    rw [List.mem_map] at hr2
    obtain ⟨⟨k, v⟩, he, hv⟩ := hr2
    simp only at hv
    subst hv
    have hk : v.fullName = k := hname _ he
    subst hk
    exact (hmem _ _).1 he
  · haveI : IsTotal Repo notOlder := ⟨notOlder_total⟩
    haveI : IsTrans Repo notOlder := ⟨notOlder_trans⟩
    exact List.sorted_insertionSort notOlder _
  · have h2 : (mergeReposByFullName iter existing incoming).2 =
        (incoming.foldl mergeStep (indexExisting existing, 0)).2 := rfl
    rw [h2, foldl_mergeStep_snd, ← keepFirst_length, Nat.zero_add]
    congr 2
    apply List.filter_congr
    intro n _
    rw [decide_eq_decide]
    have := keys_foldl_set existing [] n
    simp only [List.map_nil, List.not_mem_nil, false_or] at this
    unfold indexExisting
    rw [this]

/-- C25, at the lists of the example with the map iterated in reverse. -/
theorem mergeReposByFullName_keyed_union_witness :
    (mergeReposByFullName List.reverse cachedRepos fetchedRepos).1 =
        [mkRepo "acme/new".toList 2025 "new".toList,
          mkRepo "acme/shared".toList 2024 "updated".toList,
          mkRepo "acme/old".toList 2023 "old".toList] ∧
      (mergeReposByFullName List.reverse cachedRepos fetchedRepos).1.Sorted notOlder ∧
      (mergeReposByFullName List.reverse cachedRepos fetchedRepos).2 =
        (((fetchedRepos.map (fun r => r.fullName)).filter
          (fun n => decide (n ∉ cachedRepos.map (fun r => r.fullName)))).dedup).length :=
  ⟨by decide,
    (mergeReposByFullName_keyed_union List.reverse (fun m => List.reverse_perm m)
      cachedRepos fetchedRepos).2.2.2.1,
    (mergeReposByFullName_keyed_union List.reverse (fun m => List.reverse_perm m)
      cachedRepos fetchedRepos).2.2.2.2⟩

/-! ## The incremental fetch (C26) -/

theorem scanPage_eq (cutoff : Int) (repos allRepos : List Repo) :
    scanPage cutoff allRepos repos =
      (allRepos ++ repos.takeWhile (fun repo => decide (cutoff < repo.createdAt)),
        !repos.all (fun repo => decide (cutoff < repo.createdAt))) := by
  induction repos generalizing allRepos with
  | nil => simp [scanPage]
  | cons r rest ih =>
    unfold scanPage
    by_cases h : cutoff < r.createdAt
    · simp only [h, not_true_eq_false, if_false, ih, List.takeWhile_cons, decide_True, if_true,
        List.all_cons, Bool.true_and, List.append_assoc, List.singleton_append]
    · simp only [h, not_false_eq_true, if_true, List.takeWhile_cons, decide_False,
        Bool.false_eq_true, if_false, List.append_nil, List.all_cons, Bool.false_and,
        Bool.not_false]

theorem takeWhile_append_all (p : Repo → Bool) (a b : List Repo) (h : a.all p = true) :
    (a ++ b).takeWhile p = a ++ b.takeWhile p := by
  induction a with
  | nil => rfl
  | cons x xs ih =>
    simp only [List.all_cons, Bool.and_eq_true] at h
    simp [List.takeWhile_cons, h.1, ih h.2]

theorem takeWhile_append_not_all (p : Repo → Bool) (a b : List Repo) (h : a.all p = false) :
    (a ++ b).takeWhile p = a.takeWhile p := by
  induction a with
  | nil => simp at h
  | cons x xs ih =>
    by_cases hx : p x = true
    · have hxs : xs.all p = false := by simpa [List.all_cons, hx] using h
      simp [List.takeWhile_cons, hx, ih hxs]
    · simp [List.takeWhile_cons, hx]

/-- The loop of `fetchReposCreatedAfter` on a sequence of pages: enough fuel
gives the repositories before the first older one, and the requests stop with
the page that holds it. -/
theorem fetchNewer_pages (H : Http) (cutoff : Int) (pages : List Page) (url : Str)
    (hs : servesPages H url pages) (fuel : Nat) (hfuel : pages.length ≤ fuel)
    (allRepos : List Repo) (sent : List Str) :
    fetchNewer H cutoff fuel url allRepos sent =
      some (.ok (allRepos ++ (pages.flatMap (fun page => page.repos)).takeWhile
          (fun repo => decide (cutoff < repo.createdAt))),
        sent ++ (pagesUntilOlder cutoff pages).map (fun page => page.url)) := by
  induction pages generalizing url fuel allRepos sent with
  | nil =>
    simp only [servesPages] at hs
    subst hs
    unfold fetchNewer
    simp [pagesUntilOlder]
  | cons page rest ih =>
    obtain ⟨hne, hurl, hreq, ⟨body, hsend⟩, hrest⟩ := hs
    cases fuel with
    | zero => simp at hfuel
    | succ fuel =>
      have hf : rest.length ≤ fuel := by
        simp only [List.length_cons] at hfuel
        omega
      unfold fetchNewer
      simp only [hne, if_false, hreq, hsend, ne_eq, not_true_eq_false, scanPage_eq]
      by_cases hall : page.repos.all (fun repo => decide (cutoff < repo.createdAt)) = true
      · have htw : page.repos.takeWhile (fun repo => decide (cutoff < repo.createdAt)) =
            page.repos := by
          have := takeWhile_append_all _ page.repos [] hall
          simpa using this
        simp only [hall, Bool.not_true, Bool.false_eq_true, if_false]
        rw [ih _ hrest fuel hf, List.flatMap_cons, takeWhile_append_all _ _ _ hall, htw]
        simp only [pagesUntilOlder, hall, if_true, List.map_cons, hurl, List.append_assoc,
          List.singleton_append]
      · rw [Bool.not_eq_true] at hall
        simp only [hall, Bool.not_false, if_true]
        rw [List.flatMap_cons, takeWhile_append_not_all _ _ _ hall]
        simp only [pagesUntilOlder, hall, Bool.false_eq_true, if_false, List.map_cons, hurl,
          List.map_nil]

/-- C26. Let the server hold a sequence of pages from `url` on and let the
cutoff be a non-zero time. Given fuel for one request per page,
`fetchReposCreatedAfter` returns, with no error, exactly the repositories that
stand, in page order, before the first repository not created strictly after
the cutoff; every returned repository was created strictly after the cutoff;
and the requests made are the pages up to and including the one that holds
that first older repository, so no later page is requested. -/
theorem fetchReposCreatedAfter_cutoff (H : Http) (cutoff : Int) (hc : cutoff ≠ 0)
    (pages : List Page) (url : Str) (hs : servesPages H url pages)
    (fuel : Nat) (hfuel : pages.length ≤ fuel) :
    fetchReposCreatedAfter H fuel url cutoff =
        some (.ok ((pages.flatMap (fun page => page.repos)).takeWhile
            (fun repo => decide (cutoff < repo.createdAt))),
          (pagesUntilOlder cutoff pages).map (fun page => page.url)) ∧
      (∀ repo ∈ (pages.flatMap (fun page => page.repos)).takeWhile
          (fun repo => decide (cutoff < repo.createdAt)), cutoff < repo.createdAt) ∧
      (pagesUntilOlder cutoff pages <+: pages) ∧
      (∀ page ∈ (pagesUntilOlder cutoff pages).dropLast, ∀ repo ∈ page.repos,
        cutoff < repo.createdAt) := by
  refine ⟨?_, ?_, ?_, ?_⟩
  · unfold fetchReposCreatedAfter
    rw [if_neg hc, fetchNewer_pages H cutoff pages url hs fuel hfuel]
    simp
  · intro repo hr
    simpa using List.mem_takeWhile_imp hr
  · clear hs hfuel
    induction pages with
    | nil => simp [pagesUntilOlder]
    | cons page rest ih =>
      unfold pagesUntilOlder
      split
      · exact (List.prefix_cons_inj page).2 ih
      · exact ⟨rest, rfl⟩
  · clear hs hfuel
    induction pages with
    | nil => simp [pagesUntilOlder]
    | cons page rest ih =>
      unfold pagesUntilOlder
      split
      · rename_i hall
        intro pg hpg repo hrepo
        cases hr : pagesUntilOlder cutoff rest with
        | nil => simp [hr] at hpg
        | cons q qs =>
          rw [hr, List.dropLast_cons₂] at hpg
          rcases List.mem_cons.1 hpg with h | h
          · subst h
            simpa using (List.all_eq_true.1 hall) repo hrepo
          · rw [hr] at ih
            exact ih pg h repo hrepo
      · simp

/-- C26, at the two pages of the example: the first page holds the first older
repository and the second page is not requested. -/
theorem fetchReposCreatedAfter_cutoff_witness :
    servesPages pagedHttp pageOne.url [pageOne, pageTwo] ∧
      fetchReposCreatedAfter pagedHttp 2 pageOne.url 2024 =
        some (.ok (([pageOne, pageTwo].flatMap (fun page => page.repos)).takeWhile
            (fun repo => decide ((2024 : Int) < repo.createdAt))),
          (pagesUntilOlder 2024 [pageOne, pageTwo]).map (fun page => page.url)) ∧
      ([pageOne, pageTwo].flatMap (fun page => page.repos)).takeWhile
          (fun repo => decide ((2024 : Int) < repo.createdAt)) =
        [mkRepo "acme/new".toList 2025 []] ∧
      (pagesUntilOlder 2024 [pageOne, pageTwo]).map (fun page => page.url) = [pageOne.url] :=
  have hs : servesPages pagedHttp pageOne.url [pageOne, pageTwo] :=
    ⟨by decide, rfl, rfl, ⟨[], rfl⟩, by decide, rfl, rfl, ⟨[], rfl⟩, rfl⟩
  ⟨hs,
    (fetchReposCreatedAfter_cutoff pagedHttp 2024 (by decide) [pageOne, pageTwo] pageOne.url hs
      2 (by decide)).1,
    by decide, by decide⟩

/-! ## `ListWorktrees` (C21) -/

theorem worktreeName_nil {σ : Type} (S : Sys σ) (s : σ) (repoPath metadataPath : Str) :
    worktreeName S s repoPath metadataPath [] = none := by
  simp [worktreeName]

/-- A reported name is trimmed, not empty and not `.git`. -/
theorem worktreeName_some {σ : Type} (S : Sys σ) (s : σ) (repoPath metadataPath p n : Str)
    (h : worktreeName S s repoPath metadataPath p = some n) : n ≠ [] ∧ n ≠ dotGit := by
  unfold worktreeName at h
  by_cases hp : p = []
  · rw [if_pos hp] at h
    cases h
  · rw [if_neg hp] at h
    by_cases hc : cleanAbs S s (trimSpace p) = repoPath ∨ cleanAbs S s (trimSpace p) = metadataPath
    · rw [if_pos hc] at h
      cases h
    · rw [if_neg hc] at h
      by_cases hn : trimSpace (rawWorktreeName repoPath (cleanAbs S s (trimSpace p))) = [] ∨
          trimSpace (rawWorktreeName repoPath (cleanAbs S s (trimSpace p))) = dotGit
      · rw [if_pos hn] at h
        cases h
      · rw [if_neg hn] at h
        rw [not_or] at hn
        cases h
        exact hn

/-- A path that cleans to the root or to the metadata directory is skipped. -/
theorem worktreeName_skip {σ : Type} (S : Sys σ) (s : σ) (repoPath metadataPath p : Str)
    (h : cleanAbs S s (trimSpace p) = repoPath ∨ cleanAbs S s (trimSpace p) = metadataPath) :
    worktreeName S s repoPath metadataPath p = none := by
  unfold worktreeName
  by_cases hp : p = []
  · rw [if_pos hp]
  · rw [if_neg hp, if_pos h]

/-- A path under the root is reported by its trimmed relative path. -/
theorem worktreeName_under {σ : Type} (S : Sys σ) (s : σ) (repoPath metadataPath p rel : Str)
    (hp : p ≠ []) (hc : cleanAbs S s (trimSpace p) = repoPath ++ sepStr ++ rel)
    (hm : cleanAbs S s (trimSpace p) ≠ metadataPath)
    (h1 : trimSpace rel ≠ []) (h2 : trimSpace rel ≠ dotGit) :
    worktreeName S s repoPath metadataPath p = some (trimSpace rel) := by
  have hroot : cleanAbs S s (trimSpace p) ≠ repoPath := by
    rw [hc]
    intro h
    have := congrArg List.length h
    simp [sepStr] at this
  have hpre : hasPrefix (cleanAbs S s (trimSpace p)) (repoPath ++ sepStr) = true := by
    rw [hc]
    exact (hasPrefix_iff _ _).2 ⟨rel, rfl⟩
  have htrim : rawWorktreeName repoPath (cleanAbs S s (trimSpace p)) = rel := by
    unfold rawWorktreeName
    rw [if_pos hpre, hc]
    exact trimPrefix_append _ _
  unfold worktreeName
  rw [if_neg hp, if_neg (not_or.2 ⟨hroot, hm⟩), htrim, if_neg (not_or.2 ⟨h1, h2⟩)]

theorem mem_appendIfWorktree {σ : Type} (S : Sys σ) (s : σ) (repoPath metadataPath : Str)
    (worktrees : List Str) (p n : Str) :
    n ∈ appendIfWorktree S s repoPath metadataPath worktrees p ↔
      n ∈ worktrees ∨ worktreeName S s repoPath metadataPath p = some n := by
  unfold appendIfWorktree
  cases hw : worktreeName S s repoPath metadataPath p with
  | none => simp
  | some m =>
    simp only [Option.some.injEq]
    by_cases hm : m ∈ worktrees
    · rw [if_pos hm]
      constructor
      · exact Or.inl
      · rintro (h | h)
        · exact h
        · exact h ▸ hm
    · rw [if_neg hm, List.mem_append, List.mem_singleton]
      constructor
      · rintro (h | h)
        · exact Or.inl h
        · exact Or.inr h.symm
      · rintro (h | h)
        · exact Or.inl h
        · exact Or.inr h.symm

theorem nodup_appendIfWorktree {σ : Type} (S : Sys σ) (s : σ) (repoPath metadataPath : Str)
    (worktrees : List Str) (p : Str) (h : worktrees.Nodup) :
    (appendIfWorktree S s repoPath metadataPath worktrees p).Nodup := by
  unfold appendIfWorktree
  cases hw : worktreeName S s repoPath metadataPath p with
  | none => exact h
  | some m =>
    simp only
    by_cases hm : m ∈ worktrees
    · rw [if_pos hm]
      exact h
    · rw [if_neg hm]
      exact List.Nodup.append h (List.nodup_singleton m) (by simpa using hm)

/-- The names collected by the loop stay free of duplicates, of the empty name
and of `.git`. -/
theorem listStep_invariant {σ : Type} (S : Sys σ) (s : σ) (repoPath metadataPath : Str)
    (lines : List Str) (st : List Str × Str)
    (h : st.1.Nodup ∧ [] ∉ st.1 ∧ dotGit ∉ st.1) :
    ((lines.foldl (listStep S s repoPath metadataPath) st).1).Nodup ∧
      [] ∉ (lines.foldl (listStep S s repoPath metadataPath) st).1 ∧
      dotGit ∉ (lines.foldl (listStep S s repoPath metadataPath) st).1 := by
  induction lines generalizing st with
  | nil => exact h
  | cons line rest ih =>
    rw [List.foldl_cons]
    apply ih
    unfold listStep
    split
    · refine ⟨nodup_appendIfWorktree _ _ _ _ _ _ h.1, ?_, ?_⟩
      · intro hm
        rcases (mem_appendIfWorktree _ _ _ _ _ _ _).1 hm with h1 | h1
        · exact h.2.1 h1
        · exact (worktreeName_some _ _ _ _ _ _ h1).1 rfl
      · intro hm
        rcases (mem_appendIfWorktree _ _ _ _ _ _ _).1 hm with h1 | h1
        · exact h.2.2 h1
        · exact (worktreeName_some _ _ _ _ _ _ h1).2 rfl
    · split
      · split
        · exact h
        · exact h
      · exact h

theorem worktreesOf_invariant {σ : Type} (S : Sys σ) (s : σ) (path output : Str) :
    (worktreesOf S s path output).Nodup ∧ [] ∉ worktreesOf S s path output ∧
      dotGit ∉ worktreesOf S s path output := by
  have h := listStep_invariant S s (cleanAbs S s path) (join [cleanAbs S s path, dotGit])
    (splitLines output) ([], []) ⟨List.nodup_nil, by simp, by simp⟩
  unfold worktreesOf
  refine ⟨nodup_appendIfWorktree _ _ _ _ _ _ h.1, ?_, ?_⟩
  · intro hm
    rcases (mem_appendIfWorktree _ _ _ _ _ _ _).1 hm with h1 | h1
    · exact h.2.1 h1
    · exact (worktreeName_some _ _ _ _ _ _ h1).1 rfl
  · intro hm
    rcases (mem_appendIfWorktree _ _ _ _ _ _ _).1 hm with h1 | h1
    · exact h.2.2 h1
    · exact (worktreeName_some _ _ _ _ _ _ h1).2 rfl
theorem splitAtSpace_marker (p : Str) :
    splitAtSpace (worktreeMarker ++ p) = ["worktree".toList, p] := by
  simp [splitAtSpace, worktreeMarker, List.dropWhile_cons, List.takeWhile_cons]

theorem listStep_marker {σ : Type} (S : Sys σ) (s : σ) (repoPath metadataPath : Str)
    (st : List Str × Str) (p : Str) :
    listStep S s repoPath metadataPath st (worktreeMarker ++ p) = (st.1, p) := by
  have hne : worktreeMarker ++ p ≠ [] := by simp [worktreeMarker]
  have hpre : hasPrefix (worktreeMarker ++ p) worktreeMarker = true :=
    (hasPrefix_iff _ _).2 ⟨p, rfl⟩
  unfold listStep
  rw [if_neg hne, if_pos hpre, splitAtSpace_marker]

theorem listStep_attribute {σ : Type} (S : Sys σ) (s : σ) (repoPath metadataPath : Str)
    (st : List Str × Str) (a : Str) (hne : a ≠ []) (hpre : hasPrefix a worktreeMarker = false) :
    listStep S s repoPath metadataPath st a = st := by
  unfold listStep
  rw [if_neg hne, hpre]
  rfl

theorem foldl_listStep_attributes {σ : Type} (S : Sys σ) (s : σ) (repoPath metadataPath : Str)
    (attrs : List Str) (st : List Str × Str)
    (h : ∀ a ∈ attrs, a ≠ [] ∧ hasPrefix a worktreeMarker = false) :
    attrs.foldl (listStep S s repoPath metadataPath) st = st := by
  induction attrs with
  | nil => rfl
  | cons a rest ih =>
    rw [List.foldl_cons,
      listStep_attribute S s repoPath metadataPath st a (h a (List.mem_cons_self _ _)).1
        (h a (List.mem_cons_self _ _)).2]
    exact ih (fun b hb => h b (List.mem_cons_of_mem _ hb))

/-- Over the lines of a well-formed listing the loop calls `appendIfWorktree`
once for every entry, with the path of the entry. -/
theorem foldl_listStep_entryLines {σ : Type} (S : Sys σ) (s : σ) (repoPath metadataPath : Str)
    (entries : List (Str × List Str))
    (h : ∀ e ∈ entries, ∀ a ∈ e.2, a ≠ [] ∧ hasPrefix a worktreeMarker = false)
    (acc : List Str) :
    (entryLines entries).foldl (listStep S s repoPath metadataPath) (acc, []) =
      ((entries.map Prod.fst).foldl (appendIfWorktree S s repoPath metadataPath) acc, []) := by
  induction entries generalizing acc with
  | nil => rfl
  | cons e rest ih =>
    have he := h e (List.mem_cons_self _ _)
    have e1 : entryLines (e :: rest) =
        (worktreeMarker ++ e.1) :: (e.2 ++ ([] :: entryLines rest)) := by
      simp [entryLines, List.flatMap_cons]
    rw [e1, List.foldl_cons, listStep_marker, List.foldl_append,
      foldl_listStep_attributes S s repoPath metadataPath e.2 _ he, List.foldl_cons]
    have e2 : listStep S s repoPath metadataPath (acc, e.1) [] =
        (appendIfWorktree S s repoPath metadataPath acc e.1, []) := by
      simp [listStep]
    rw [e2, ih (fun x hx => h x (List.mem_cons_of_mem _ hx))]
    rfl

theorem appendIfWorktree_nil {σ : Type} (S : Sys σ) (s : σ) (repoPath metadataPath : Str)
    (worktrees : List Str) :
    appendIfWorktree S s repoPath metadataPath worktrees [] = worktrees := by
  unfold appendIfWorktree
  rw [worktreeName_nil]

/-- The names read from a well-formed listing are the names of its entries,
each kept where it first occurs. -/
theorem worktreesOf_entries {σ : Type} (S : Sys σ) (s : σ) (path output : Str)
    (entries : List (Str × List Str))
    (h : ∀ e ∈ entries, ∀ a ∈ e.2, a ≠ [] ∧ hasPrefix a worktreeMarker = false)
    (hout : splitLines output = entryLines entries ++ [[]]) :
    worktreesOf S s path output =
      keepFirst (entries.filterMap (fun e =>
        worktreeName S s (cleanAbs S s path) (join [cleanAbs S s path, dotGit]) e.1)) := by
  have hfold : (splitLines output).foldl
      (listStep S s (cleanAbs S s path) (join [cleanAbs S s path, dotGit])) ([], []) =
      ((entries.map Prod.fst).foldl
        (appendIfWorktree S s (cleanAbs S s path) (join [cleanAbs S s path, dotGit])) [], []) := by
    rw [hout, List.foldl_append, foldl_listStep_entryLines S s _ _ entries h, List.foldl_cons,
      List.foldl_nil]
    simp [listStep, appendIfWorktree_nil]
  unfold worktreesOf
  rw [hfold]
  simp only
  rw [appendIfWorktree_nil, List.foldl_map,
    foldl_collect (fun acc (e : Str × List Str) =>
        appendIfWorktree S s (cleanAbs S s path) (join [cleanAbs S s path, dotGit]) acc e.1)
      (fun e => worktreeName S s (cleanAbs S s path) (join [cleanAbs S s path, dotGit]) e.1)
      (fun acc e => rfl)]
  simp
/-- C21, amended. Let `git worktree list --porcelain` succeed with
some output, and let `root` be the cleaned absolute repository path. Then
`ListWorktrees` returns a list of names without duplicates that holds neither
the empty name nor `.git`; a listed path that cleans to the root or to
`root/.git` is skipped; and for a listing made of entries (a `worktree` line,
attribute lines, an empty line) the result consists of the names of the
entries in listing order, each kept where it first occurs, where an entry whose
cleaned path is `root/rel`, other than `root/.git`, is reported as `rel` with
the white space at its ends trimmed, unless that trimmed text is empty or
`.git`. -/
theorem listWorktrees_naming {σ : Type} (S : Sys σ) (p : Proc σ) (path output : Str)
    (hrun : (runGit S p path worktreeListArgs).1 = ⟨output, none⟩)
    (s : σ) (hs : s = (runGit S p path worktreeListArgs).2.state)
    (root : Str) (hroot : root = cleanAbs S s path) :
    ∃ names, (listWorktrees S p path).1 = .ok names ∧
      names.Nodup ∧ [] ∉ names ∧ dotGit ∉ names ∧
      (∀ q, cleanAbs S s (trimSpace q) = root ∨
          cleanAbs S s (trimSpace q) = join [root, dotGit] →
        worktreeName S s root (join [root, dotGit]) q = none) ∧
      ∀ entries : List (Str × List Str),
        (∀ e ∈ entries, ∀ a ∈ e.2, a ≠ [] ∧ hasPrefix a worktreeMarker = false) →
        splitLines output = entryLines entries ++ [[]] →
        names = keepFirst (entries.filterMap
          (fun e => worktreeName S s root (join [root, dotGit]) e.1)) ∧
        ∀ e ∈ entries, ∀ rel, e.1 ≠ [] →
          cleanAbs S s (trimSpace e.1) = root ++ sepStr ++ rel →
          cleanAbs S s (trimSpace e.1) ≠ join [root, dotGit] →
          trimSpace rel ≠ [] → trimSpace rel ≠ dotGit →
          worktreeName S s root (join [root, dotGit]) e.1 = some (trimSpace rel) ∧
            trimSpace rel ∈ names := by
  subst hs hroot
  have herr : (runGit S p path worktreeListArgs).1.err = none := by rw [hrun]
  have hout : (runGit S p path worktreeListArgs).1.output = output := by rw [hrun]
  have hlist : (listWorktrees S p path).1 =
      .ok (worktreesOf S (runGit S p path worktreeListArgs).2.state path output) := by
    unfold listWorktrees
    rw [herr, hout]
  have hinv := worktreesOf_invariant S (runGit S p path worktreeListArgs).2.state path output
  refine ⟨_, hlist, hinv.1, hinv.2.1, hinv.2.2, fun q hq => worktreeName_skip _ _ _ _ _ hq,
    fun entries hwf hlines => ?_⟩
  have hnames := worktreesOf_entries S (runGit S p path worktreeListArgs).2.state path output
    entries hwf hlines
  refine ⟨hnames, fun e he rel hne hc hm h1 h2 => ?_⟩
  have hw := worktreeName_under S (runGit S p path worktreeListArgs).2.state _ _ e.1 rel
    hne hc hm h1 h2
  refine ⟨hw, ?_⟩
  rw [hnames, mem_keepFirst, List.mem_filterMap]
  exact ⟨e, he, hw⟩

/-- C21 amended, at a repository with a nested worktree, a worktree outside the
root and a repeated entry. -/
theorem listWorktrees_naming_witness :
    ∃ names, (listWorktrees simpleSys ⟨nestedStore, []⟩ "/w/repo".toList).1 = .ok names ∧
      names = ["main".toList, "feature/x".toList, "y".toList] ∧
      "feature/x".toList ∈ names := by
  obtain ⟨names, h1, _, _, _, _, h2⟩ := listWorktrees_naming simpleSys ⟨nestedStore, []⟩
    "/w/repo".toList (porcelain nestedStore) rfl nestedStore rfl "/w/repo".toList (by decide)
  have h3 := h2 nestedEntries (by decide) (by decide)
  refine ⟨names, h1, ?_, ?_⟩
  · rw [h3.1]
    decide
  · exact (h3.2 ("/w/repo/feature/x".toList,
      ["HEAD 4b825dc642cb6eb9a060e54bf8d69288fbee4904".toList, "detached".toList])
      (by decide) "feature/x".toList (by decide) (by decide) (by decide) (by decide)
      (by decide)).2

/-- C21, the counterexample. The worktree `/w/repo/review ` lies under the root
`/w/repo` with the relative path `review ` (it ends in a space).
`ListWorktrees` trims the listed path and reports the worktree as `review`; the
relative path itself is not in the result. -/
theorem listWorktrees_trims_relative_path :
    spacedPath ∈ afterSpacedAdd.state.worktrees ∧
      spacedPath = "/w/repo".toList ++ sepStr ++ "review ".toList ∧
      (listWorktrees simpleSys afterSpacedAdd "/w/repo".toList).1 =
        .ok ["main".toList, "review".toList] ∧
      "review ".toList ∉ ["main".toList, "review".toList] :=
  ⟨by decide, by decide, rfl, by decide⟩

end Ezgit
